import Mathlib

/-!
# A two-pass MIPS assembler: embedding and verified properties

The development embeds the C sources of the assembler (`tokenizer.h`,
`hash_function.h`, `hash_table.h`, `file_parser.c`, `assembler.c`) as Lean
functions and proves properties of the embedded program.

Conventions of the embedding.

* A C string is the list of its characters before the terminating NUL; a
  `char *` into a buffer is the suffix of the buffer it points at.
* `int`, `int32_t` and `uint32_t` values are integers.  Where the C code
  converts text to `int` the value is wrapped to 32 bits (`wrap32`).  The type
  `long` has 64 bits (LP64), which is what `getBin` needs for its 32 bit mask.
* Heap blocks and local arrays hold whatever is written into them: request
  sizes, deallocation and the bytes that follow an array in memory are not
  part of the model.  Objects that are read without ever having been written
  take their value from an `Indeterminate` record.
* A store outside an array, a NULL dereference and `exit(1)` end the run with
  a `Fault`.  Loops run on fuel; the entry points supply enough of it.
* `printf` output (standard output) is not modelled; `Out` is the character
  stream written with `fprintf(Out, ...)`.
-/

namespace MipsAssembler

/-- Contents of a C string, terminator excluded. -/
abbrev Str := List Char

/-- Ways in which a run ends without returning. -/
inductive Fault where
  | exit_1
  | null_deref
  | out_of_bounds
  | out_of_fuel
  deriving DecidableEq, Repr

/-- Values of objects the program reads without having written them. -/
structure Indeterminate where
  /-- content of a `malloc`ed operand buffer that was never filled -/
  buffer : Str
  /-- value of an `int` that was never assigned -/
  int : Int
  /-- byte `j` of the `i`-th four byte block of `ascii_rep` before any store -/
  byte : Nat → Nat → Char
  /-- content of a local `char` array of `n` elements before any store -/
  array : Nat → List Char
  /-- the array of `n` elements has `n` elements -/
  array_length : ∀ n, (array n).length = n

/-! ## C library -/

/-- Two's complement wrap of an integer to the range of `int`. -/
def wrap32 (x : Int) : Int := (x + 2 ^ 31) % 2 ^ 32 - 2 ^ 31

/-- Length of the longest prefix of `s` made of characters of `accept`. -/
def strspn : Str → Str → Nat
  | [], _ => 0
  | c :: cs, accept => if c ∈ accept then strspn cs accept + 1 else 0

/-- Suffix of `s` starting at the first character that belongs to `accept`
(`none` is NULL). -/
def strpbrk : Str → Str → Option Str
  | [], _ => none
  | c :: cs, accept => if c ∈ accept then some (c :: cs) else strpbrk cs accept

/-- Suffix of `s` starting at the first occurrence of `needle`. -/
def strstr : Str → Str → Option Str
  | [], needle => if needle = [] then some [] else none
  | c :: cs, needle =>
    if needle.isPrefixOf (c :: cs) then some (c :: cs) else strstr cs needle

/-- Suffix of `s` starting at the first occurrence of the character `c`. -/
def strchr (s : Str) (c : Char) : Option Str := strpbrk s [c]

/-- White space in the sense of `isspace` (C locale). -/
def isspace (c : Char) : Bool :=
  c = ' ' || c = '\t' || c = '\n' || c = Char.ofNat 11 || c = Char.ofNat 12 || c = '\r'

/-- Decimal digit test. -/
def isdigit (c : Char) : Bool := decide (48 ≤ c.toNat) && decide (c.toNat ≤ 57)

/-- Value of the longest prefix of decimal digits, continuing from `acc`. -/
def digits_value : Str → Nat → Nat
  | [], acc => acc
  | c :: cs, acc => if isdigit c then digits_value cs (acc * 10 + (c.toNat - 48)) else acc

/-- Signed decimal integer at the start of `s`: optional sign, then digits. -/
def signed_value (s : Str) : Int :=
  match s with
  | '-' :: cs => - (digits_value cs 0 : Int)
  | '+' :: cs => (digits_value cs 0 : Int)
  | _ => (digits_value s 0 : Int)

/-- The function `atoi`: white space is skipped, then an optionally signed run of
digits is converted; the result is an `int`. -/
def atoi (s : Str) : Int := wrap32 (signed_value (s.dropWhile isspace))

/-! ## tokenizer.h -/

/-- The function `parse_token(in_str, delim, &out_str, NULL)`: the result is
`none` for NULL (then `out_str` is left alone), otherwise the token and the new
`out_str`. -/
def parse_token (in_str delim : Str) : Option (Str × Str) :=
  let len := strspn in_str delim
  let ptr := in_str.drop len
  match strpbrk ptr delim with
  | none => none
  | some tptr =>
    let len := ptr.length - tptr.length
    some (ptr.take len, tptr.drop 1)

/-! ## Static tables of file_parser.c and assembler.c -/

/-- Register names and their five bit codes. -/
def registerMap : List (Str × Str) :=
  [ ("zero".toList, "00000".toList), ("at".toList, "00001".toList),
    ("v0".toList, "00010".toList), ("v1".toList, "00011".toList),
    ("a0".toList, "00100".toList), ("a1".toList, "00101".toList),
    ("a2".toList, "00110".toList), ("a3".toList, "00111".toList),
    ("t0".toList, "01000".toList), ("t1".toList, "01001".toList),
    ("t2".toList, "01010".toList), ("t3".toList, "01011".toList),
    ("t4".toList, "01100".toList), ("t5".toList, "01101".toList),
    ("t6".toList, "01110".toList), ("t7".toList, "01111".toList),
    ("s0".toList, "10000".toList), ("s1".toList, "10001".toList),
    ("s2".toList, "10010".toList), ("s3".toList, "10011".toList),
    ("s4".toList, "10100".toList), ("s5".toList, "10101".toList),
    ("s6".toList, "10110".toList), ("s7".toList, "10111".toList),
    ("t8".toList, "11000".toList), ("t9".toList, "11001".toList) ]

/-- Function codes of the R-type instructions. -/
def rMap : List (Str × Str) :=
  [ ("add".toList, "100000".toList), ("sub".toList, "100001".toList),
    ("and".toList, "100100".toList), ("or".toList, "100101".toList),
    ("sll".toList, "000000".toList), ("slt".toList, "101010".toList),
    ("srl".toList, "000010".toList), ("jr".toList, "001000".toList) ]

/-- Opcodes of the I-type instructions. -/
def iMap : List (Str × Str) :=
  [ ("lw".toList, "100011".toList), ("sw".toList, "101011".toList),
    ("andi".toList, "001100".toList), ("ori".toList, "001101".toList),
    ("lui".toList, "001111".toList), ("beq".toList, "000100".toList),
    ("slti".toList, "001010".toList), ("addi".toList, "001000".toList) ]

/-- Opcodes of the J-type instructions. -/
def jMap : List (Str × Str) :=
  [ ("j".toList, "000010".toList), ("jal".toList, "000011".toList) ]

/-- The supported mnemonics, in the order of the initialiser in `assembler.c`
(`main` sorts the array before use; `search` is linear and its result is only
compared with -1 and 0, so the order does not matter). -/
def instructions : List Str :=
  [ "la".toList, "lui".toList, "lw".toList, "sw".toList, "add".toList, "sub".toList,
    "addi".toList, "or".toList, "and".toList, "ori".toList, "andi".toList,
    "slt".toList, "slti".toList, "sll".toList, "srl".toList, "beq".toList,
    "j".toList, "jr".toList, "jal".toList ]

/-- Linear scan of `search`, starting at index `i`. -/
def search_from : List Str → Int → Str → Int
  | [], _, _ => -1
  | x :: xs, i, instruction => if instruction = x then i else search_from xs (i + 1) instruction

/-- The function `search`: index of the mnemonic in `instructions`, or -1. -/
def search (instruction : Str) : Int := search_from instructions 0 instruction

/-- The function `instruction_type`: one of `r`, `i`, `j`, or the zero character. -/
def instruction_type (instruction : Str) : Char :=
  if instruction = "add".toList || instruction = "sub".toList
      || instruction = "and".toList || instruction = "or".toList
      || instruction = "sll".toList || instruction = "slt".toList
      || instruction = "srl".toList || instruction = "jr".toList then 'r'
  else if instruction = "lw".toList || instruction = "sw".toList
      || instruction = "andi".toList || instruction = "ori".toList
      || instruction = "lui".toList || instruction = "beq".toList
      || instruction = "slti".toList || instruction = "addi".toList
      || instruction = "la".toList then 'i'
  else if instruction = "j".toList || instruction = "jal".toList then 'j'
  else Char.ofNat 0

/-- First entry of a table whose name matches (a loop that returns at the
first hit). -/
def first_match : List (Str × Str) → Str → Option Str
  | [], _ => none
  | e :: es, name => if name = e.1 then some e.2 else first_match es name

/-- Last entry of a table whose name matches (a loop that keeps assigning and
never leaves early); `none` is the initial NULL. -/
def last_match (table : List (Str × Str)) (name : Str) : Option Str :=
  table.foldl (fun found e => if name = e.1 then some e.2 else found) none

/-- The function `register_address`; `none` is NULL. -/
def register_address (registerName : Str) : Option Str := first_match registerMap registerName

/-- What `fprintf` prints for a `%s` argument; a NULL argument prints as
`(null)` (glibc). -/
def show_s : Option Str → Str
  | some s => s
  | none => "(null)".toList

/-! ## Binary conversion -/

/-- The start value `pos` of `getBin`; for any other width it is never
assigned. -/
def getBin_pos (padding : Nat) : Option Nat :=
  if padding = 5 then some 0x10
  else if padding = 16 then some 0x8000
  else if padding = 26 then some 0x2000000
  else if padding = 32 then some 0x80000000
  else none

/-- The loop `while (mask >>= 1) *str++ = !!(mask & num) + '0';` of `getBin`,
storing at index `i` of the buffer; `mask & num` is taken on 64 bit `long`s. -/
def getBin_loop : Nat → Nat → Int → List Char → Nat → Except Fault (List Char)
  | 0, _, _, _, _ => .error .out_of_fuel
  | fuel + 1, mask, num, buf, i =>
    let mask := mask >>> 1
    if mask = 0 then .ok buf
    else if i < buf.length then
      getBin_loop fuel mask num
        (buf.set i (if mask &&& (num % 2 ^ 64).toNat ≠ 0 then '1' else '0')) (i + 1)
    else .error .out_of_bounds

/-- The function `getBin(num, str, padding)`: the buffer `str` after the call.
The terminator is stored first, then the digits. -/
def getBin (ind : Indeterminate) (num : Int) (str : List Char) (padding : Nat) :
    Except Fault (List Char) :=
  if padding < str.length then
    let str := str.set padding (Char.ofNat 0)
    let pos : Nat := match getBin_pos padding with
      | some p => p
      | none => ind.int.toNat % 2 ^ 64
    let mask := (pos <<< 1) % 2 ^ 64
    getBin_loop 65 mask num str 0
  else .error .out_of_bounds

/-- The C string held by a buffer: its characters up to the first NUL. -/
def c_str (buf : List Char) : Str := buf.takeWhile (fun c => c ≠ Char.ofNat 0)

/-- A local `char` array of `n` elements before anything is stored in it. -/
def local_array (ind : Indeterminate) (n : Nat) : List Char := ind.array n

/-- The inner loop `for (b = 1, m = len; m > k; m--) b *= 2;` of `getDec`. -/
def getDec_pow : Nat → Int
  | 0 => 1
  | n + 1 => wrap32 (getDec_pow n * 2)

/-- The outer loop of `getDec` over the characters from index `k` on; `len` is
`strlen(bin) - 1`; `none` is the early `return 0`. -/
def getDec_loop : Str → Nat → Int → Option Int
  | [], _, sum => some sum
  | c :: cs, len, sum =>
    let n : Int := (c.toNat : Int) - 48
    if n > 1 ∨ n < 0 then none
    else getDec_loop cs (len - 1) (wrap32 (sum + wrap32 (n * getDec_pow len)))

/-- The function `getDec`: value of a string of binary digits, 0 when a
character is not a binary digit. -/
def getDec (bin : Str) : Int :=
  match getDec_loop bin (bin.length - 1) 0 with
  | some sum => sum
  | none => 0

/-! ## Encoders -/

/-- The register field of an encoder: the literal `00000` is passed through,
any other name goes through `register_address`. -/
def reg_bin (r : Str) : Option Str :=
  if r ≠ "00000".toList then register_address r else some "00000".toList

/-- The function `rtype_instruction(instruction, rs, rt, rd, shamt, Out)`: the
stream `Out` after the call. -/
def rtype_instruction (ind : Indeterminate) (instruction rs rt rd : Str) (shamt : Int)
    (Out : Str) : Except Fault Str :=
  let opcode := "000000".toList
  let rdBin := reg_bin rd
  let rsBin := reg_bin rs
  let rtBin := reg_bin rt
  match getBin ind shamt (local_array ind 6) 5 with
  | .error e => .error e
  | .ok shamtBin =>
    let func := last_match rMap instruction
    .ok (Out ++ (opcode ++ show_s rsBin ++ show_s rtBin ++ show_s rdBin ++ c_str shamtBin
      ++ show_s func ++ ['\n']))

/-- The function `itype_instruction(instruction, rs, rt, immediateNum, Out)`. -/
def itype_instruction (ind : Indeterminate) (instruction rs rt : Str) (immediateNum : Int)
    (Out : Str) : Except Fault Str :=
  let rsBin := reg_bin rs
  let rtBin := reg_bin rt
  let opcode := last_match iMap instruction
  match getBin ind immediateNum (local_array ind 17) 16 with
  | .error e => .error e
  | .ok immediate =>
    .ok (Out ++ (show_s opcode ++ show_s rsBin ++ show_s rtBin ++ c_str immediate ++ ['\n']))

/-- The function `jtype_instruction(instruction, immediate, Out)`. -/
def jtype_instruction (ind : Indeterminate) (instruction : Str) (immediate : Int)
    (Out : Str) : Except Fault Str :=
  let opcode := last_match jMap instruction
  match getBin ind immediate (local_array ind 27) 26 with
  | .error e => .error e
  | .ok immediateStr => .ok (Out ++ (show_s opcode ++ c_str immediateStr ++ ['\n']))

/-- The function `word_rep`: the 32 characters `(binary_rep & (1 << k)) ? 1 : 0`
for `k` from 31 down to 0, then a newline. -/
def word_rep (binary_rep : Int) (Out : Str) : Str :=
  Out ++ ((List.range 32).map (fun i =>
      if (binary_rep % 2 ^ 32).toNat &&& (1 <<< (31 - i)) ≠ 0 then '1' else '0')
    ++ ['\n'])

/-- The function `ascii_rep`: the string and its terminator are stored four
to a block, every block is reversed and printed, eight bits per character. -/
def ascii_rep (ind : Indeterminate) (string : Str) (Out : Str) : Str :=
  let str_length := string.length + 1
  let num_strs := str_length / 4 + (if str_length % 4 > 0 then 1 else 0)
  let bytes := string ++ [Char.ofNat 0]
  let sep_str : List (List Char) := (List.range num_strs).map (fun i =>
    (List.range 4).map (fun j =>
      if 4 * i + j < str_length then bytes.getD (4 * i + j) (Char.ofNat 0) else ind.byte i j))
  let reversed := sep_str.map List.reverse
  Out ++ (reversed.map (fun block =>
    (block.map (fun c => (List.range 8).map (fun i =>
      if c.toNat &&& (1 <<< (7 - i)) ≠ 0 then '1' else '0'))).flatten ++ ['\n'])).flatten

/-! ## hash_function.h and hash_table.h -/

/-- Truncation to the width of `ub4`, an `unsigned long`. -/
def ub4 (x : Nat) : Nat := x % 2 ^ 64

/-- The macro `mix(a,b,c,d)`. -/
def mix (a b c d : Nat) : Nat × Nat × Nat × Nat :=
  let a := ub4 (a + d); let d := ub4 (d + a); let a := a ^^^ (a >>> 7)
  let b := ub4 (b + a); let a := ub4 (a + b); let b := b ^^^ ub4 (b <<< 13)
  let c := ub4 (c + b); let b := ub4 (b + c); let c := c ^^^ (c >>> 17)
  let d := ub4 (d + c); let c := ub4 (c + d); let d := d ^^^ ub4 (d <<< 9)
  let a := ub4 (a + d); let d := ub4 (d + a); let a := a ^^^ (a >>> 3)
  let b := ub4 (b + a); let a := ub4 (a + b); let b := b ^^^ ub4 (b <<< 7)
  let c := ub4 (c + b); let b := ub4 (b + c); let c := c ^^^ (c >>> 15)
  let d := ub4 (d + c); let c := ub4 (c + d); let d := d ^^^ ub4 (d <<< 11)
  (a, b, c, d)

/-- Little-endian value of the four bytes of `k` from index `i`. -/
def le_word (k : List Nat) (i : Nat) : Nat :=
  k.getD i 0 + (k.getD (i + 1) 0 <<< 8) + (k.getD (i + 2) 0 <<< 16) + (k.getD (i + 3) 0 <<< 24)

/-- The loop `while (len >= 16)` of `hash`; the result is the rest of the key
and the four state words. -/
def hash_loop : Nat → List Nat → Nat → Nat → Nat → Nat → List Nat × Nat × Nat × Nat × Nat
  | 0, k, a, b, c, d => (k, a, b, c, d)
  | fuel + 1, k, a, b, c, d =>
    if k.length ≥ 16 then
      let m := mix (ub4 (a + le_word k 0)) (ub4 (b + le_word k 4)) (ub4 (c + le_word k 8))
        (ub4 (d + le_word k 12))
      hash_loop fuel (k.drop 16) m.1 m.2.1 m.2.2.1 m.2.2.2
    else (k, a, b, c, d)

/-- One arm of the fall-through `switch(len)` of `hash`: taken when `len`
is at least `n`. -/
def hash_arm (k : List Nat) (n shift : Nat) : Nat :=
  if k.length ≥ n then k.getD (n - 1) 0 <<< shift else 0

/-- The function `hash(k, length, level)` on the `length` bytes `k`. -/
def hash (k : List Nat) (level : Nat) : Nat :=
  let golden := 0x9e3779b9
  let (k', a, b, c, d) := hash_loop k.length k golden golden golden (ub4 level)
  let d := ub4 (d + k.length)
  let d := ub4 (d + hash_arm k' 15 24); let d := ub4 (d + hash_arm k' 14 16)
  let d := ub4 (d + hash_arm k' 13 8)
  let c := ub4 (c + hash_arm k' 12 24); let c := ub4 (c + hash_arm k' 11 16)
  let c := ub4 (c + hash_arm k' 10 8); let c := ub4 (c + hash_arm k' 9 0)
  let b := ub4 (b + hash_arm k' 8 24); let b := ub4 (b + hash_arm k' 7 16)
  let b := ub4 (b + hash_arm k' 6 8); let b := ub4 (b + hash_arm k' 5 0)
  let a := ub4 (a + hash_arm k' 4 24); let a := ub4 (a + hash_arm k' 3 16)
  let a := ub4 (a + hash_arm k' 2 8); let a := ub4 (a + hash_arm k' 1 0)
  (mix a b c d).2.2.2

/-- An entry of a bucket: the key bytes, the stored value and the key length. -/
structure hash_entry_t where
  key : List Nat
  data : Int
  key_len : Nat
  deriving DecidableEq, Repr

/-- The table: `row[t]` is the chain of bucket `t` from head to tail. -/
structure hash_table_t where
  row : List (List hash_entry_t)
  size : Nat
  deriving DecidableEq, Repr

/-- The function `create_hash_table`. -/
def create_hash_table (hash_table_size : Nat) : hash_table_t :=
  { row := List.replicate hash_table_size [], size := hash_table_size }

/-- The `strlen(s) + 1` bytes of a string key, terminator included. -/
def key_bytes (s : Str) : List Nat := s.map Char.toNat ++ [0]

/-- The function `hash_insert(hash_table, key, key_len, data)`: the new entry
is linked behind the tail of its bucket; the result is TRUE. -/
def hash_insert (hash_table : hash_table_t) (key : List Nat) (data : Int) :
    Int × hash_table_t :=
  let hash_key := hash key 7 % hash_table.size
  let new_entry : hash_entry_t := { key := key, data := data, key_len := key.length }
  (1, { hash_table with
        row := hash_table.row.modify (fun chain => chain ++ [new_entry]) hash_key })

/-- The scan of one bucket in `hash_find`. -/
def hash_find_chain : List hash_entry_t → List Nat → Option Int
  | [], _ => none
  | e :: es, key =>
    if key.length = e.key_len ∧ e.key.take key.length = key then some e.data
    else hash_find_chain es key

/-- The function `hash_find(hash_table, key, key_len)`; `none` is NULL. -/
def hash_find (hash_table : hash_table_t) (key : List Nat) : Option Int :=
  hash_find_chain (hash_table.row.getD (hash key 7 % hash_table.size) []) key

/-! ## file_parser.c: `parse_file` -/

/-- The local state of `parse_file` together with the table and the output
stream it is handed. -/
structure State where
  instruction_count : Int
  data_reached : Bool
  line_num : Int
  hash_table : hash_table_t
  Out : Str
  deriving DecidableEq, Repr

/-- The delimiters of the token loop of `parse_file`. -/
def line_delim : Str := [' ', '\n', '\t', '$', ',']

/-- The delimiters of the operand loops. -/
def operand_delim : Str := [' ', '$', ',', '\n', '\t']

/-- The delimiters of the operand loop of `lw` and `sw`. -/
def memory_delim : Str := [' ', '$', ',', '\n', '\t', '(', ')']

/-- The operand loop `while (1) ... strcpy(reg_store[count], reg); count++;`:
tokens are copied into the slots of `reg_store` until no token is left or a
token starts with the comment character. -/
def operand_loop (delim : Str) : Nat → Str → List Str → Nat → Except Fault (List Str)
  | 0, _, _, _ => .error .out_of_fuel
  | fuel + 1, inst_ptr, reg_store, count =>
    match parse_token inst_ptr delim with
    | none => .ok reg_store
    | some (reg, inst_ptr) =>
      if reg.head? = some '#' then .ok reg_store
      else if count < reg_store.length then
        operand_loop delim fuel inst_ptr (reg_store.set count reg) (count + 1)
      else .error .out_of_bounds

/-- The operand loop of `beq`, which also stops once two operands are stored;
the cursor is returned with the slots. -/
def beq_operand_loop : Nat → Str → List Str → Nat → Except Fault (List Str × Str)
  | 0, _, _, _ => .error .out_of_fuel
  | fuel + 1, inst_ptr, reg_store, count =>
    match parse_token inst_ptr operand_delim with
    | none => .ok (reg_store, inst_ptr)
    | some (reg, inst_ptr) =>
      if reg.head? = some '#' then .ok (reg_store, inst_ptr)
      else if count < reg_store.length then
        if count + 1 = 2 then .ok (reg_store.set count reg, inst_ptr)
        else beq_operand_loop fuel inst_ptr (reg_store.set count reg) (count + 1)
      else .error .out_of_bounds

/-- Fresh operand slots: `n` buffers nobody has written yet. -/
def fresh_slots (ind : Indeterminate) (n : Nat) : List Str := List.replicate n ind.buffer

/-- Slot `i` of the operand array. -/
def slot (ind : Indeterminate) (reg_store : List Str) (i : Nat) : Str :=
  reg_store.getD i ind.buffer

/-- Pass 2, mnemonics `add sub and or slt` (operands `rd, rs, rt`). -/
def encode_three_registers (ind : Indeterminate) (token tok_ptr : Str) (Out : Str) :
    Except Fault Str :=
  match operand_loop operand_delim (tok_ptr.length + 1) tok_ptr (fresh_slots ind 3) 0 with
  | .error e => .error e
  | .ok reg_store =>
    rtype_instruction ind token (slot ind reg_store 1) (slot ind reg_store 2)
      (slot ind reg_store 0) 0 Out

/-- Pass 2, mnemonics `sll srl` (operands `rd, rs, shamt`). -/
def encode_shift (ind : Indeterminate) (token tok_ptr : Str) (Out : Str) :
    Except Fault Str :=
  match operand_loop operand_delim (tok_ptr.length + 1) tok_ptr (fresh_slots ind 3) 0 with
  | .error e => .error e
  | .ok reg_store =>
    rtype_instruction ind token "00000".toList (slot ind reg_store 1) (slot ind reg_store 0)
      (atoi (slot ind reg_store 2)) Out

/-- Pass 2, mnemonic `jr`. -/
def encode_jr (ind : Indeterminate) (token tok_ptr : Str) (Out : Str) : Except Fault Str :=
  match parse_token tok_ptr operand_delim with
  | none => .error .null_deref
  | some (reg, _) => rtype_instruction ind token reg "00000".toList "00000".toList 0 Out

/-- Pass 2, pseudo-instruction `la`.  The text of the 32 bit address is split
by the loop `if (i < 16) lowerBits[i] = addressBinary[i]; else
upperBits[i-16] = addressBinary[i];`, then `lui` is emitted with
`getDec(upperBits)` and `ori` with `getDec(lowerBits)`.  Both arrays have 16
elements and are filled completely; `getDec` is applied to these 16
characters. -/
def encode_la (ind : Indeterminate) (tok_ptr : Str) (hash_table : hash_table_t) (Out : Str) :
    Except Fault Str :=
  match operand_loop operand_delim (tok_ptr.length + 1) tok_ptr (fresh_slots ind 2) 0 with
  | .error e => .error e
  | .ok reg_store =>
    match hash_find hash_table (key_bytes (slot ind reg_store 1)) with
    | none => .error .null_deref
    | some address =>
      match getBin ind address (local_array ind 33) 32 with
      | .error e => .error e
      | .ok addressBinary =>
        let lowerBits := addressBinary.take 16
        let upperBits := (addressBinary.drop 16).take 16
        let immediate := getDec upperBits
        match itype_instruction ind "lui".toList "00000".toList (slot ind reg_store 0)
            immediate Out with
        | .error e => .error e
        | .ok Out =>
          let immediate := getDec lowerBits
          itype_instruction ind "ori".toList (slot ind reg_store 0) (slot ind reg_store 0)
            immediate Out

/-- Pass 2, mnemonics `lw sw` (operands `rt, imm(rs)`). -/
def encode_memory (ind : Indeterminate) (token tok_ptr : Str) (Out : Str) :
    Except Fault Str :=
  match operand_loop memory_delim (tok_ptr.length + 1) tok_ptr (fresh_slots ind 3) 0 with
  | .error e => .error e
  | .ok reg_store =>
    let immediate := atoi (slot ind reg_store 1)
    itype_instruction ind token (slot ind reg_store 2) (slot ind reg_store 0) immediate Out

/-- Pass 2, mnemonics `andi ori slti addi` (operands `rt, rs, imm`). -/
def encode_immediate (ind : Indeterminate) (token tok_ptr : Str) (Out : Str) :
    Except Fault Str :=
  match operand_loop operand_delim (tok_ptr.length + 1) tok_ptr (fresh_slots ind 3) 0 with
  | .error e => .error e
  | .ok reg_store =>
    let immediate := atoi (slot ind reg_store 2)
    itype_instruction ind token (slot ind reg_store 1) (slot ind reg_store 0) immediate Out

/-- Pass 2, mnemonic `lui` (operands `rt, imm`). -/
def encode_lui (ind : Indeterminate) (token tok_ptr : Str) (Out : Str) : Except Fault Str :=
  match operand_loop operand_delim (tok_ptr.length + 1) tok_ptr (fresh_slots ind 2) 0 with
  | .error e => .error e
  | .ok reg_store =>
    let immediate := atoi (slot ind reg_store 1)
    itype_instruction ind token "00000".toList (slot ind reg_store 0) immediate Out

/-- Pass 2, mnemonic `beq` (operands `rs, rt, label`); `instruction_count` is
the counter at the time of the call. -/
def encode_beq (ind : Indeterminate) (token tok_ptr : Str) (instruction_count : Int)
    (hash_table : hash_table_t) (Out : Str) : Except Fault Str :=
  match beq_operand_loop (tok_ptr.length + 1) tok_ptr (fresh_slots ind 2) 0 with
  | .error e => .error e
  | .ok (reg_store, inst_ptr) =>
    match parse_token inst_ptr operand_delim with
    | none => .error .null_deref
    | some (reg, _) =>
      match hash_find hash_table (key_bytes reg) with
      | none => .error .null_deref
      | some address =>
        let immediate := address + instruction_count
        itype_instruction ind token (slot ind reg_store 0) (slot ind reg_store 1) immediate Out

/-- Pass 2, J-type: the rest of the line after it has been cut in place: at
the first space when the line has a comment (`strcpy(inst_ptr, new_label)`),
else by its last character (`inst_ptr[strlen(inst_ptr)-1] = 0`). -/
def jump_label (tok_ptr : Str) : Str :=
  match strchr tok_ptr '#' with
  | some _ => tok_ptr.takeWhile (fun c => c ≠ ' ')
  | none => tok_ptr.dropLast

/-- Pass 2, J-type: the cut rest of the line is looked up and encoded.  The
result also holds the rest of the line as it is left in the buffer. -/
def encode_jump (ind : Indeterminate) (token tok_ptr : Str) (hash_table : hash_table_t)
    (Out : Str) : Except Fault (Str × Str) :=
  match hash_find hash_table (key_bytes (jump_label tok_ptr)) with
  | none => .error .null_deref
  | some address =>
    (jtype_instruction ind token address Out).map (fun o => (jump_label tok_ptr, o))

/-- Pass 2 in the text segment: the body of `if (data_reached == 0)`. -/
def pass2_text (ind : Indeterminate) (token tok_ptr : Str) (st : State) :
    Except Fault (Str × State) :=
  let encoded : Except Fault (Str × Str) :=
    if search token ≠ -1 then
      let inst_type := instruction_type token
      if inst_type = 'r' then
        if token = "add".toList || token = "sub".toList || token = "and".toList
            || token = "or".toList || token = "slt".toList then
          (encode_three_registers ind token tok_ptr st.Out).map (fun o => (tok_ptr, o))
        else if token = "sll".toList || token = "srl".toList then
          (encode_shift ind token tok_ptr st.Out).map (fun o => (tok_ptr, o))
        else if token = "jr".toList then
          (encode_jr ind token tok_ptr st.Out).map (fun o => (tok_ptr, o))
        else .ok (tok_ptr, st.Out)
      else if inst_type = 'i' then
        if token = "la".toList then
          (encode_la ind tok_ptr st.hash_table st.Out).map (fun o => (tok_ptr, o))
        else if token = "lw".toList || token = "sw".toList then
          (encode_memory ind token tok_ptr st.Out).map (fun o => (tok_ptr, o))
        else if token = "andi".toList || token = "ori".toList || token = "slti".toList
            || token = "addi".toList then
          (encode_immediate ind token tok_ptr st.Out).map (fun o => (tok_ptr, o))
        else if token = "lui".toList then
          (encode_lui ind token tok_ptr st.Out).map (fun o => (tok_ptr, o))
        else if token = "beq".toList then
          (encode_beq ind token tok_ptr st.instruction_count st.hash_table st.Out).map
            (fun o => (tok_ptr, o))
        else .ok (tok_ptr, st.Out)
      else if inst_type = 'j' then
        encode_jump ind token tok_ptr st.hash_table st.Out
      else .ok (tok_ptr, st.Out)
    else .ok (tok_ptr, st.Out)
  match encoded with
  | .error e => .error e
  | .ok (tok_ptr, Out) =>
    if token = "nop".toList then
      .ok (tok_ptr, { st with Out := Out ++ "00000000000000000000000000000000\n".toList })
    else .ok (tok_ptr, { st with Out := Out })

/-- The conversion `%d` of `sscanf`: white space, an optional sign and at
least one digit; `none` when nothing is converted. -/
def scan_d (s : Str) : Option Int :=
  match s.dropWhile isspace with
  | '-' :: c :: cs => if isdigit c then some (wrap32 (- (digits_value (c :: cs) 0 : Int))) else none
  | '+' :: c :: cs => if isdigit c then some (wrap32 (digits_value (c :: cs) 0 : Int)) else none
  | c :: cs => if isdigit c then some (wrap32 (digits_value (c :: cs) 0 : Int)) else none
  | [] => none

/-- The directive `%*s` of `sscanf`: white space is skipped, then a non-empty
run of other characters; `none` when the input ends first. -/
def scan_skip_s (s : Str) : Option Str :=
  match s.dropWhile isspace with
  | [] => none
  | c :: cs => some ((c :: cs).dropWhile (fun x => !isspace x))

/-- The call `sscanf(s, "%*s %d", &v)`: the value stored in `v`, if any. -/
def sscanf_s_d (s : Str) : Option Int :=
  match scan_skip_s s with
  | none => none
  | some rest => scan_d rest

/-- The call `sscanf(s, "%*s, %d", &v)`: the value stored in `v`, if any. -/
def sscanf_s_comma_d (s : Str) : Option Int :=
  match scan_skip_s s with
  | some (',' :: rest) => scan_d rest
  | _ => none

/-- The statements `token[strlen(token) - 1] = 0; hash_insert(hash_table,
token, strlen(token)+1, inst_count)` of pass 1, with the check of the result. -/
def bind_label (token : Str) (st : State) : Except Fault State :=
  let token := token.dropLast
  let r := hash_insert st.hash_table (key_bytes token) st.instruction_count
  if r.1 = 1 then .ok { st with hash_table := r.2 } else .error .exit_1

/-- Pass 1: the body of `if (pass == 1)`. -/
def pass1 (token tok_ptr : Str) (st : State) : Except Fault State :=
  if (strstr token [':']).isSome && st.data_reached = false then
    bind_label token st
  else
    if (strstr tok_ptr ".word".toList).isSome then
      if (strstr tok_ptr [':']).isSome then
        match parse_token tok_ptr [':'] with
        | none => .error .null_deref
        | some (_, var_tok_ptr) =>
          let freq := atoi var_tok_ptr
          bind_label token { st with instruction_count := st.instruction_count + freq * 4 }
      else
        bind_label token { st with instruction_count := st.instruction_count + 4 }
    else if (strstr tok_ptr ".asciiz".toList).isSome then
      if tok_ptr.length < 8 then .error .out_of_bounds
      else
        match parse_token (tok_ptr.drop 8) ['"'] with
        | none => .error .null_deref
        | some (var_tok, _) =>
          bind_label token
            { st with instruction_count := st.instruction_count + (var_tok.length : Int) }
    else .ok st

/-- The loop `for (int i = 0; i < freq; i++) word_rep(var_value, Out);`. -/
def word_rep_times : Nat → Int → Str → Str
  | 0, _, Out => Out
  | n + 1, var_value, Out => word_rep_times n var_value (word_rep var_value Out)

/-- Pass 2 in the data segment: the `else` of `if (data_reached == 0)`. -/
def pass2_data (ind : Indeterminate) (tok_ptr : Str) (st : State) : Except Fault State :=
  if (strstr tok_ptr ".word".toList).isSome then
    if (strstr tok_ptr [':']).isSome then
      match parse_token tok_ptr [':'] with
      | none => .error .null_deref
      | some (var_tok, var_tok_ptr) =>
        let freq := atoi var_tok_ptr
        let var_value := (sscanf_s_d var_tok).getD ind.int
        .ok { st with Out := word_rep_times freq.toNat var_value st.Out }
    else
      let var_value := (sscanf_s_comma_d tok_ptr).getD ind.int
      .ok { st with Out := word_rep var_value st.Out }
  else if (strstr tok_ptr ".asciiz".toList).isSome then
    if ".asciiz ".toList = tok_ptr.take 8 then
      if tok_ptr.length < 9 then .error .out_of_bounds
      else
        match parse_token (tok_ptr.drop 9) ['"'] with
        | none => .error .null_deref
        | some (var_tok, _) => .ok { st with Out := ascii_rep ind var_tok st.Out }
    else .ok st
  else .ok st

/-- The address accounting at the head of the token loop. -/
def account (token : Str) (st : State) : State :=
  if search token ≥ 0 then
    if token = "la".toList then { st with instruction_count := st.instruction_count + 8 }
    else { st with instruction_count := st.instruction_count + 4 }
  else if token = ".data".toList then
    { st with instruction_count := 0x00002000, data_reached := true }
  else st

/-- One round of the token loop of `parse_file` after the token has been
read: address accounting, then the work of the pass.  The result holds the
rest of the line as the round leaves it. -/
def process_token (ind : Indeterminate) (pass : Int) (token tok_ptr : Str) (st : State) :
    Except Fault (Str × State) :=
  let st := account token st
  if pass = 1 then
    (pass1 token tok_ptr st).map (fun st => (tok_ptr, st))
  else if pass = 2 then
    if st.data_reached = false then pass2_text ind token tok_ptr st
    else (pass2_data ind tok_ptr st).map (fun st => (tok_ptr, st))
  else .ok (tok_ptr, st)

/-- The token loop `while (1)` over one line. -/
def token_loop (ind : Indeterminate) (pass : Int) : Nat → Str → State → Except Fault State
  | 0, _, _ => .error .out_of_fuel
  | fuel + 1, tok_ptr, st =>
    match parse_token tok_ptr line_delim with
    | none => .ok { st with line_num := st.line_num + 1 }
    | some (token, tok_ptr) =>
      if token.head? = some '#' then .ok { st with line_num := st.line_num + 1 }
      else
        match process_token ind pass token tok_ptr st with
        | .error e => .error e
        | .ok (tok_ptr, st) => token_loop ind pass fuel tok_ptr st

/-- The constant `MAX_LINE_LENGTH` of file_parser.h. -/
def MAX_LINE_LENGTH : Nat := 256

/-- The characters `fgets` stores when at most `n` may be read: up to and
including the first newline; the second component is the rest of the file. -/
def fgets_chars : Nat → Str → Str × Str
  | 0, s => ([], s)
  | _ + 1, [] => ([], [])
  | n + 1, c :: cs =>
    if c = '\n' then ([c], cs)
    else ((fgets_chars n cs).1.cons c, (fgets_chars n cs).2)

/-- The function `fgets(line, size, fptr)` on the unread part of the file;
`none` is NULL (end of file). -/
def fgets (size : Nat) (fptr : Str) : Option (Str × Str) :=
  if fptr = [] then none else some (fgets_chars (size - 1) fptr)

/-- Decimal digits of a natural number, most significant first. -/
def nat_text_aux : Nat → Nat → Str → Str
  | 0, _, acc => acc
  | fuel + 1, n, acc =>
    if n < 10 then Char.ofNat (48 + n) :: acc
    else nat_text_aux fuel (n / 10) (Char.ofNat (48 + n % 10) :: acc)

/-- Decimal numeral of a natural number. -/
def nat_text (n : Nat) : Str := nat_text_aux (n + 1) n []

/-- Decimal numeral of an integer, as `%d` prints it and as it is written
in a source line. -/
def int_text (i : Int) : Str :=
  if i < 0 then '-' :: nat_text i.natAbs else nat_text i.natAbs

/-- One line handed to the body of the line loop of `parse_file`. -/
def parse_line (ind : Indeterminate) (pass : Int) (line : Str) (st : State) :
    Except Fault State :=
  if line.length = MAX_LINE_LENGTH then
    .ok { st with
          Out := st.Out ++ ("line ".toList ++ int_text st.line_num
            ++ ": line is too long. ignoring line ...\n".toList),
          line_num := st.line_num + 1 }
  else token_loop ind pass (line.length + 1) line st

/-- The line loop `while (1)` of `parse_file`. -/
def line_loop (ind : Indeterminate) (pass : Int) : Nat → Str → State → Except Fault State
  | 0, _, _ => .error .out_of_fuel
  | fuel + 1, fptr, st =>
    match fgets MAX_LINE_LENGTH fptr with
    | none => .ok st
    | some (line, fptr) =>
      match parse_line ind pass line st with
      | .error e => .error e
      | .ok st => line_loop ind pass fuel fptr st

/-- The function `parse_file(fptr, pass, instructions, inst_len, hash_table,
Out)` on the text of the file: the state when the function returns. -/
def parse_file (ind : Indeterminate) (fptr : Str) (pass : Int) (hash_table : hash_table_t)
    (Out : Str) : Except Fault State :=
  line_loop ind pass (fptr.length + 1) fptr
    { instruction_count := 0, data_reached := false, line_num := 1,
      hash_table := hash_table, Out := Out }

/-- The two passes of `main` over the source text `src`: the text of the
output file. -/
def assemble (ind : Indeterminate) (src : Str) : Except Fault Str :=
  match parse_file ind src 1 (create_hash_table 127) [] with
  | .error e => .error e
  | .ok st =>
    match parse_file ind src 2 st.hash_table st.Out with
    | .error e => .error e
    | .ok st => .ok st.Out

/-! ## Vocabulary of the statements -/

/-- A piece of text cut into tokens: every item is the run of delimiters in
front of a token, the token, and the delimiter that ends it; `tail` is what
follows the last token. -/
def render : List (Str × Str × Char) → Str → Str
  | [], tail => tail
  | (pre, tok, d) :: xs, tail => pre ++ (tok ++ d :: render xs tail)

/-- Every character of `s` is a delimiter. -/
def all_in (s delim : Str) : Bool := s.all (fun c => decide (c ∈ delim))

/-- No character of `s` is a delimiter. -/
def none_in (s delim : Str) : Bool := s.all (fun c => !decide (c ∈ delim))

/-- An operand token for the delimiter set `delim`: not empty, free of
delimiters, not the start of a comment. -/
def is_operand (delim tok : Str) : Bool :=
  !tok.isEmpty && none_in tok delim && !(tok.head? = some '#')

/-- The items of a rendering are well formed for `delim`. -/
def well_cut (delim : Str) (items : List (Str × Str × Char)) : Bool :=
  items.all (fun it => all_in it.1 delim && is_operand delim it.2.1 && decide (it.2.2 ∈ delim))

/-- The slots after the tokens `toks` have been stored from index `count` on. -/
def store_from : List Str → Nat → List Str → List Str
  | slots, _, [] => slots
  | slots, count, t :: ts => store_from (slots.set count t) (count + 1) ts

/-- The `w` digit binary numeral of the natural number `m`, most significant
digit first (the digits of `m` modulo `2 ^ w`). -/
def binary_numeral : Nat → Nat → Str
  | 0, _ => []
  | w + 1, m => binary_numeral w (m / 2) ++ [if m % 2 = 1 then '1' else '0']

/-- The `w` bit two's complement rendering of the integer `n`: the binary
numeral of `n` modulo `2 ^ w`. -/
def twos_complement (w : Nat) (n : Int) : Str := binary_numeral w (n % 2 ^ w).toNat

/-- A sample of indeterminate values. -/
def sample_ind : Indeterminate :=
  { buffer := [], int := 0, byte := fun _ _ => 'x', array := fun n => List.replicate n 'x',
    array_length := fun n => List.length_replicate n 'x' }

/-- The state of `parse_file` when it starts on an empty table of 127 buckets. -/
def start_state : State :=
  { instruction_count := 0, data_reached := false, line_num := 1,
    hash_table := create_hash_table 127, Out := [] }

/-- A character of a decimal numeral: a digit or the minus sign. -/
def numeral_char (c : Char) : Bool := isdigit c || c = '-'

/-- The operand text `$a, $b, $c` followed by a newline, cut for the scanner. -/
def three_operands (a b c : Str) : List (Str × Str × Char) :=
  [(['$'], a, ','), ([' ', '$'], b, ','), ([' ', '$'], c, '\n')]

/-- A token the text segment of pass 2 passes over: no mnemonic, not `.data`,
not `nop`. -/
def is_inert (tok : Str) : Bool :=
  decide (search tok = -1) && !decide (tok = ".data".toList) && !decide (tok = "nop".toList)

/-- The operand text `$a, $b, n` followed by a newline, cut for the scanner. -/
def two_and_number (a b n : Str) : List (Str × Str × Char) :=
  [(['$'], a, ','), ([' ', '$'], b, ','), ([' '], n, '\n')]

/-- The operand text `$a, n` followed by a newline, cut for the scanner. -/
def register_and_word (a n : Str) : List (Str × Str × Char) :=
  [(['$'], a, ','), ([' '], n, '\n')]

/-- The table of 127 buckets after one insertion. -/
def table_with (name : Str) (address : Int) : hash_table_t :=
  (hash_insert (create_hash_table 127) (key_bytes name) address).2

/-- A label operand: a token free of delimiters that does not start a comment,
is none of the words the token loop acts on (a mnemonic, `.data`, `nop`) and
leaves the line within the line buffer. -/
def is_label (lab : Str) : Bool :=
  is_operand operand_delim lab && is_operand line_delim lab && is_inert lab
    && decide (lab.length ≤ 200)

/-- The operand text `$a, n($b)` followed by a newline, as the token loop of
`parse_file` cuts it. -/
def memory_operands_outer (a n b : Str) : List (Str × Str × Char) :=
  [(['$'], a, ','), ([' '], n ++ ['('], '$'), ([], b ++ [')'], '\n')]

/-- The operand text `$a, n($b)`, as the operand loop of `lw` and `sw` cuts it;
the newline is left over. -/
def memory_operands_inner (a n b : Str) : List (Str × Str × Char) :=
  [(['$'], a, ','), ([' '], n, '('), (['$'], b, ')')]

/-- A table as `create_hash_table` and `hash_insert` make it: `size` buckets,
and at least one. -/
def valid_table (t : hash_table_t) : Bool :=
  decide (t.row.length = t.size) && decide (0 < t.size)

/-- A run of insertions, in order. -/
def insert_all : hash_table_t → List (List Nat × Int) → hash_table_t
  | t, [] => t
  | t, (k, d) :: rest => insert_all (hash_insert t k d).2 rest

/-- A token the accounting step passes over: no mnemonic and not `.data`. -/
def is_idle (tok : Str) : Bool :=
  decide (search tok = -1) && !decide (tok = ".data".toList)

/-- No token of the items holds a colon. -/
def colon_free (items : List (Str × Str × Char)) : Bool :=
  items.all (fun it => !decide (':' ∈ it.2.1))

/-- The line `name: .word v` followed by a newline, cut for the token loop. -/
def word_line (name v : Str) : List (Str × Str × Char) :=
  [([], name ++ [':'], ' '), ([], ".word".toList, ' '), ([], v, '\n')]

/-- Every token of the rest of a line, up to a comment, is idle.  The fuel
bounds the number of tokens. -/
def idle_rest : Nat → Str → Bool
  | 0, _ => false
  | fuel + 1, s =>
    match parse_token s line_delim with
    | none => true
    | some (tok, rest) => tok.head? = some '#' || (is_idle tok && idle_rest fuel rest)

/-- The line `name: .word v:c` followed by a newline, cut for the token loop. -/
def array_line (name v c : Str) : List (Str × Str × Char) :=
  [([], name ++ [':'], ' '), ([], ".word".toList, ' '), ([], v ++ ':' :: c, '\n')]

/-- A source text of one line of 268 characters: the instruction
`add $t0, $t1, $t2`, 250 blanks and a newline. -/
def long_source : Str := "add $t0, $t1, $t2".toList ++ List.replicate 250 ' ' ++ "\n".toList

/-- Byte `j` of block `g` of `ascii_rep` after the string `s` and its terminator
have been stored: a byte no store reaches keeps the value it had. -/
def ascii_cell (ind : Indeterminate) (s : Str) (g j : Nat) : Char :=
  if 4 * g + j < s.length + 1 then (s ++ [Char.ofNat 0]).getD (4 * g + j) (Char.ofNat 0)
  else ind.byte g j

/-- The 32 digits `ascii_rep` prints for block `g`: the four bytes of the block
from the last to the first, eight digits each. -/
def ascii_line (ind : Indeterminate) (s : Str) (g : Nat) : Str :=
  binary_numeral 8 (ascii_cell ind s g 3).toNat ++ binary_numeral 8 (ascii_cell ind s g 2).toNat
    ++ binary_numeral 8 (ascii_cell ind s g 1).toNat
    ++ binary_numeral 8 (ascii_cell ind s g 0).toNat

theorem strspn_all_in (pre rest delim : Str) (h : all_in pre delim = true)
    (hr : ∀ c r, rest = c :: r → c ∉ delim) :
    strspn (pre ++ rest) delim = pre.length := by
  induction pre with
  | nil =>
    cases rest with
    | nil => rfl
    | cons c r => simp [strspn, hr c r rfl]
  | cons a pre ih =>
    simp only [all_in, List.all_cons, Bool.and_eq_true, decide_eq_true_eq] at h
    have ih := ih (by simpa [all_in] using h.2)
    simp [strspn, h.1, ih]

theorem strpbrk_none_in (tok : Str) (d : Char) (rest delim : Str)
    (h : none_in tok delim = true) (hd : d ∈ delim) :
    strpbrk (tok ++ d :: rest) delim = some (d :: rest) := by
  induction tok with
  | nil => simp [strpbrk, hd]
  | cons a tok ih =>
    simp only [none_in, List.all_cons, Bool.and_eq_true, Bool.not_eq_true', decide_eq_false_iff_not] at h
    have ih := ih (by simpa [none_in] using h.2)
    simp [strpbrk, h.1, ih]

theorem strpbrk_no_delim (s delim : Str) (h : none_in s delim = true) :
    strpbrk s delim = none := by
  induction s with
  | nil => rfl
  | cons a s ih =>
    simp only [none_in, List.all_cons, Bool.and_eq_true, Bool.not_eq_true', decide_eq_false_iff_not] at h
    have ih := ih (by simpa [none_in] using h.2)
    simp [strpbrk, h.1, ih]

theorem parse_token_cut (pre tok : Str) (d : Char) (rest delim : Str)
    (hpre : all_in pre delim = true) (htok : is_operand delim tok = true) (hd : d ∈ delim) :
    parse_token (pre ++ (tok ++ d :: rest)) delim = some (tok, rest) := by
  simp only [is_operand, Bool.and_eq_true, Bool.not_eq_true'] at htok
  obtain ⟨⟨hne, hno⟩, _⟩ := htok
  have hsp : strspn (pre ++ (tok ++ d :: rest)) delim = pre.length := by
    apply strspn_all_in _ _ _ hpre
    intro c r hcr
    cases tok with
    | nil => simp at hne
    | cons a t =>
      simp only [List.cons_append, List.cons.injEq] at hcr
      simp only [none_in, List.all_cons, Bool.and_eq_true, Bool.not_eq_true', decide_eq_false_iff_not] at hno
      rw [← hcr.1]; exact hno.1
  unfold parse_token
  simp only [hsp, List.drop_left, strpbrk_none_in tok d rest delim hno hd]
  simp

theorem strpbrk_length (s delim r : Str) (h : strpbrk s delim = some r) :
    r.length ≤ s.length ∧ 0 < r.length := by
  induction s with
  | nil => simp [strpbrk] at h
  | cons a s ih =>
    simp only [strpbrk] at h
    split at h
    · simp only [Option.some.injEq] at h; subst h; simp
    · have := ih h; simp; omega

theorem parse_token_length (s delim tok r : Str) (h : parse_token s delim = some (tok, r)) :
    r.length < s.length := by
  unfold parse_token at h
  simp only at h
  split at h
  · simp at h
  · rename_i tptr heq
    simp only [Option.some.injEq, Prod.mk.injEq] at h
    have hl := strpbrk_length _ _ _ heq
    rw [← h.2]
    simp only [List.length_drop] at hl ⊢
    omega

theorem parse_token_render (delim pre tok : Str) (d : Char) (xs : List (Str × Str × Char))
    (tail : Str) (h : well_cut delim ((pre, tok, d) :: xs) = true) :
    parse_token (render ((pre, tok, d) :: xs) tail) delim = some (tok, render xs tail) := by
  simp only [well_cut, List.all_cons, Bool.and_eq_true, decide_eq_true_eq] at h
  exact parse_token_cut pre tok d _ delim h.1.1.1 h.1.1.2 h.1.2

theorem parse_token_tail (delim tail : Str) (h : all_in tail delim = true) :
    parse_token tail delim = none := by
  have hsp : strspn tail delim = tail.length := by
    have := strspn_all_in tail [] delim h (by simp)
    simpa using this
  unfold parse_token
  simp [hsp, strpbrk]

theorem well_cut_tail (delim : Str) (it : Str × Str × Char) (xs : List (Str × Str × Char))
    (h : well_cut delim (it :: xs) = true) : well_cut delim xs = true := by
  simp only [well_cut, List.all_cons, Bool.and_eq_true] at h ⊢
  exact h.2

theorem well_cut_head (delim pre tok : Str) (d : Char) (xs : List (Str × Str × Char))
    (h : well_cut delim ((pre, tok, d) :: xs) = true) : tok.head? ≠ some '#' := by
  simp only [well_cut, List.all_cons, Bool.and_eq_true, is_operand, Bool.not_eq_true',
    decide_eq_false_iff_not] at h
  exact h.1.1.2.2

theorem render_length (xs : List (Str × Str × Char)) (tail : Str) :
    tail.length ≤ (render xs tail).length := by
  induction xs with
  | nil => simp [render]
  | cons it xs ih =>
    obtain ⟨pre, tok, d⟩ := it
    simp only [render, List.length_append, List.length_cons]
    omega

/-- The operand loop on cut text stores the tokens in order. -/
theorem operand_loop_render (delim : Str) (xs : List (Str × Str × Char)) :
    ∀ (tail : Str) (fuel : Nat) (slots : List Str) (count : Nat),
      well_cut delim xs = true → all_in tail delim = true →
      (render xs tail).length < fuel → count + xs.length ≤ slots.length →
      operand_loop delim fuel (render xs tail) slots count
        = .ok (store_from slots count (xs.map (fun it => it.2.1))) := by
  induction xs with
  | nil =>
    intro tail fuel slots count _ ht hf _
    cases fuel with
    | zero => omega
    | succ f => simp [operand_loop, render, parse_token_tail delim tail ht, store_from]
  | cons it xs ih =>
    intro tail fuel slots count hw ht hf hc
    obtain ⟨pre, tok, d⟩ := it
    cases fuel with
    | zero => omega
    | succ f =>
      have hlen := parse_token_length _ _ _ _ (parse_token_render delim pre tok d xs tail hw)
      simp only [List.length_cons] at hc
      simp only [operand_loop, parse_token_render delim pre tok d xs tail hw,
        well_cut_head delim pre tok d xs hw, if_false]
      rw [if_pos (by omega)]
      rw [ih tail f _ (count + 1) (well_cut_tail _ _ _ hw) ht (by omega)
        (by simp only [List.length_set]; omega)]
      simp [store_from]

/-! ## The token loop -/

theorem jump_label_length (tok_ptr : Str) : (jump_label tok_ptr).length ≤ tok_ptr.length := by
  unfold jump_label
  split
  · exact (List.takeWhile_sublist _).length_le
  · simp

theorem map_pair_length {ε : Type} (r : Except ε Str) (q tok_ptr p o : Str)
    (hq : q.length ≤ tok_ptr.length)
    (h : r.map (fun o => (q, o)) = .ok (p, o)) : p.length ≤ tok_ptr.length := by
  cases r with
  | error e => simp [Except.map] at h
  | ok a =>
    simp only [Except.map, Except.ok.injEq, Prod.mk.injEq] at h
    rw [← h.1]; exact hq

theorem encode_jump_length (ind : Indeterminate) (token tok_ptr : Str) (t : hash_table_t)
    (Out p o : Str) (h : encode_jump ind token tok_ptr t Out = .ok (p, o)) :
    p.length ≤ tok_ptr.length := by
  unfold encode_jump at h
  split at h
  · simp at h
  · exact map_pair_length _ _ _ _ _ (jump_label_length tok_ptr) h

theorem pass2_text_length (ind : Indeterminate) (token tok_ptr : Str) (st : State)
    (p : Str) (st1 : State) (h : pass2_text ind token tok_ptr st = .ok (p, st1)) :
    p.length ≤ tok_ptr.length := by
  unfold pass2_text at h
  simp only at h
  split at h
  · simp at h
  · rename_i q o heq
    have hq : q.length ≤ tok_ptr.length := by
      repeat' split at heq
      all_goals first
        | exact encode_jump_length _ _ _ _ _ _ _ heq
        | exact map_pair_length _ _ _ _ _ (le_refl _) heq
        | (simp only [Except.ok.injEq, Prod.mk.injEq] at heq; rw [← heq.1])
    split at h <;> simp only [Except.ok.injEq, Prod.mk.injEq] at h <;> rw [← h.1] <;> exact hq

theorem map_state_length {ε : Type} (r : Except ε State) (tok_ptr p : Str) (st1 : State)
    (h : r.map (fun st => (tok_ptr, st)) = .ok (p, st1)) : p.length ≤ tok_ptr.length := by
  cases r with
  | error e => simp [Except.map] at h
  | ok a =>
    simp only [Except.map, Except.ok.injEq, Prod.mk.injEq] at h
    rw [← h.1]

theorem process_token_length (ind : Indeterminate) (pass : Int) (token tok_ptr : Str)
    (st : State) (p : Str) (st1 : State)
    (h : process_token ind pass token tok_ptr st = .ok (p, st1)) :
    p.length ≤ tok_ptr.length := by
  unfold process_token at h
  simp only at h
  split at h
  · exact map_state_length _ _ _ _ h
  · split at h
    · split at h
      · exact pass2_text_length _ _ _ _ _ _ h
      · exact map_state_length _ _ _ _ h
    · simp only [Except.ok.injEq, Prod.mk.injEq] at h; rw [← h.1]

/-- Fuel beyond the length of the rest of the line does not change the token loop. -/
theorem token_loop_fuel (ind : Indeterminate) (pass : Int) :
    ∀ (fuel : Nat) (tok_ptr : Str) (st : State), tok_ptr.length < fuel →
      token_loop ind pass fuel tok_ptr st
        = token_loop ind pass (tok_ptr.length + 1) tok_ptr st := by
  intro fuel
  induction fuel using Nat.strong_induction_on with
  | _ fuel ih =>
    intro tok_ptr st hf
    cases fuel with
    | zero => omega
    | succ f =>
      simp only [token_loop]
      cases hp : parse_token tok_ptr line_delim with
      | none => rfl
      | some r =>
        obtain ⟨token, p⟩ := r
        have hlen := parse_token_length _ _ _ _ hp
        simp only
        split
        · rfl
        · cases hq : process_token ind pass token p st with
          | error e => rfl
          | ok r2 =>
            obtain ⟨p2, st2⟩ := r2
            have h2 := process_token_length _ _ _ _ _ _ _ hq
            simp only
            rw [ih f (by omega) p2 st2 (by omega)]
            rw [ih tok_ptr.length (by omega) p2 st2 (by omega)]

/-- In the text segment pass 2 passes over an inert token. -/
theorem process_token_inert (ind : Indeterminate) (token tok_ptr : Str) (st : State)
    (hi : is_inert token = true) (hd : st.data_reached = false) :
    process_token ind 2 token tok_ptr st = .ok (tok_ptr, st) := by
  simp only [is_inert, Bool.and_eq_true, decide_eq_true_eq, Bool.not_eq_true',
    decide_eq_false_iff_not] at hi
  obtain ⟨⟨hs, hdata⟩, hnop⟩ := hi
  have hacc : account token st = st := by
    unfold account
    rw [if_neg (by rw [hs]; decide), if_neg hdata]
  unfold process_token
  simp only [hacc, hd]
  unfold pass2_text
  simp only [hs, ne_eq, not_true_eq_false, if_false, if_neg hnop]
  rfl

/-- The token loop of pass 2 over a run of inert tokens in the text segment
only counts the line. -/
theorem token_loop_inert (ind : Indeterminate) (xs : List (Str × Str × Char)) :
    ∀ (tail : Str) (fuel : Nat) (st : State),
      well_cut line_delim xs = true → (xs.all (fun it => is_inert it.2.1)) = true →
      all_in tail line_delim = true → st.data_reached = false →
      (render xs tail).length < fuel →
      token_loop ind 2 fuel (render xs tail) st
        = .ok { st with line_num := st.line_num + 1 } := by
  induction xs with
  | nil =>
    intro tail fuel st _ _ ht _ hf
    cases fuel with
    | zero => omega
    | succ f => simp [token_loop, render, parse_token_tail line_delim tail ht]
  | cons it xs ih =>
    intro tail fuel st hw hi ht hd hf
    obtain ⟨pre, tok, d⟩ := it
    cases fuel with
    | zero => omega
    | succ f =>
      have hlen := parse_token_length _ _ _ _ (parse_token_render line_delim pre tok d xs tail hw)
      simp only [List.all_cons, Bool.and_eq_true] at hi
      simp only [token_loop, parse_token_render line_delim pre tok d xs tail hw,
        well_cut_head line_delim pre tok d xs hw, if_false,
        process_token_inert ind tok _ st hi.1 hd]
      exact ih tail f st (well_cut_tail _ _ _ hw) hi.2 ht hd (by omega)

/-! ## Binary conversion -/

/-- The digit `getBin` stores for the mask `2 ^ j`. -/
theorem mask_digit (j : Nat) (x : Nat) :
    (2 ^ j &&& x ≠ 0) ↔ x / 2 ^ j % 2 = 1 := by
  rw [Nat.and_comm, Nat.and_two_pow, ← Nat.toNat_testBit]
  cases x.testBit j <;> simp

theorem binary_numeral_length (w m : Nat) : (binary_numeral w m).length = w := by
  induction w generalizing m with
  | zero => rfl
  | succ w ih => simp [binary_numeral, ih]

/-- Digit `i` of the numeral is the bit of weight `2 ^ (w - 1 - i)`. -/
theorem binary_numeral_digit (w : Nat) : ∀ (m i : Nat), i < w →
    (binary_numeral w m)[i]? = some (if m / 2 ^ (w - 1 - i) % 2 = 1 then '1' else '0') := by
  induction w with
  | zero => intro m i h; omega
  | succ w ih =>
    intro m i h
    simp only [binary_numeral]
    by_cases hi : i < w
    · rw [List.getElem?_append_left (by rw [binary_numeral_length]; exact hi), ih (m / 2) i hi]
      have : w + 1 - 1 - i = (w - 1 - i) + 1 := by omega
      rw [this, pow_succ, Nat.mul_comm, Nat.div_div_eq_div_mul]
    · have hiw : i = w := by omega
      subst hiw
      rw [List.getElem?_append_right (by rw [binary_numeral_length])]
      simp [binary_numeral_length]

/-- The numeral as the list of its digits by weight. -/
theorem binary_numeral_eq_map (w m : Nat) :
    binary_numeral w m
      = (List.range w).map (fun i => if m / 2 ^ (w - 1 - i) % 2 = 1 then '1' else '0') := by
  apply List.ext_getElem?
  intro i
  by_cases hi : i < w
  · rw [binary_numeral_digit w m i hi]
    simp [List.getElem?_map, List.getElem?_range hi]
  · rw [List.getElem?_eq_none (by rw [binary_numeral_length]; omega),
      List.getElem?_eq_none (by simp; omega)]

/-- The loop of `getBin` started with the mask `2 ^ k` stores the `k` low
digits at the cursor. -/
theorem getBin_loop_spec (num : Int) : ∀ (k fuel : Nat) (pre mid post : List Char),
    k < fuel → mid.length = k →
    getBin_loop fuel (2 ^ k) num (pre ++ (mid ++ post)) pre.length
      = .ok (pre ++ ((List.range k).map (fun i =>
          if (num % 2 ^ 64).toNat / 2 ^ (k - 1 - i) % 2 = 1 then '1' else '0') ++ post)) := by
  intro k
  induction k with
  | zero =>
    intro fuel pre mid post hf hm
    cases fuel with
    | zero => omega
    | succ f =>
      have : mid = [] := List.length_eq_zero.mp hm
      subst this
      simp [getBin_loop]
  | succ k ih =>
    intro fuel pre mid post hf hm
    cases fuel with
    | zero => omega
    | succ f =>
      cases mid with
      | nil => simp at hm
      | cons m mid =>
        simp only [List.length_cons, Nat.add_right_cancel_iff] at hm
        have hsh : 2 ^ (k + 1) >>> 1 = 2 ^ k := by
          rw [Nat.shiftRight_eq_div_pow, pow_succ]; simp
        have hne : (2 : Nat) ^ k ≠ 0 := by positivity
        have hset : ∀ c : Char, (pre ++ (m :: mid ++ post)).set pre.length c
            = (pre ++ [c]) ++ (mid ++ post) := by
          intro c
          simp [List.set_append]
        simp only [getBin_loop, hsh, if_neg hne]
        rw [if_pos (by simp)]
        rw [hset]
        have hl : pre.length + 1 = (pre ++ [if 2 ^ k &&& (num % 2 ^ 64).toNat ≠ 0 then '1' else '0']).length := by
          simp
        rw [hl, ih f _ mid post (by omega) hm]
        congr 1
        simp only [List.append_assoc, List.singleton_append, List.cons_append, List.nil_append]
        congr 1
        rw [List.range_succ_eq_map]
        simp only [List.map_cons, List.map_map]
        congr 1
        · simp only [mask_digit]
          simp
        · congr 1
          apply List.map_congr_left
          intro i hi
          simp only [Function.comp]
          have : k + 1 - 1 - (i + 1) = k - 1 - i := by omega
          rw [this]

theorem low_bits (n : Int) (w j : Nat) (hw : w ≤ 64) (hj : j < w) :
    (n % 2 ^ 64).toNat / 2 ^ j % 2 = (n % 2 ^ w).toNat / 2 ^ j % 2 := by
  have h64 : (0 : Int) ≤ n % 2 ^ 64 := Int.emod_nonneg _ (by positivity)
  obtain ⟨m, hm⟩ := Int.eq_ofNat_of_zero_le h64
  have hdvd : ((2 : Int) ^ w) ∣ 2 ^ 64 := pow_dvd_pow 2 hw
  have h1 : n % 2 ^ w = ((m % 2 ^ w : Nat) : Int) := by
    rw [← Int.emod_emod_of_dvd n hdvd, hm]
    push_cast
    rfl
  rw [hm, h1]
  simp only [Int.toNat_ofNat]
  rw [← Nat.toNat_testBit, ← Nat.toNat_testBit, Nat.testBit_mod_two_pow]
  simp [hj]

theorem c_str_digits (ds rest : List Char) (h : ∀ c ∈ ds, c = '0' ∨ c = '1') :
    c_str (ds ++ Char.ofNat 0 :: rest) = ds := by
  unfold c_str
  induction ds with
  | nil => simp
  | cons d ds ih =>
    have hd := h d (by simp)
    have : d ≠ Char.ofNat 0 := by
      rcases hd with rfl | rfl <;> decide
    simp only [List.cons_append, List.takeWhile_cons, this, ne_eq, not_false_eq_true,
      decide_True, if_true]
    rw [ih (fun c hc => h c (by simp [hc]))]

theorem binary_numeral_chars (w m : Nat) : ∀ c ∈ binary_numeral w m, c = '0' ∨ c = '1' := by
  induction w generalizing m with
  | zero => simp [binary_numeral]
  | succ w ih =>
    intro c hc
    simp only [binary_numeral, List.mem_append, List.mem_singleton] at hc
    rcases hc with hc | hc
    · exact ih _ c hc
    · split at hc <;> simp [hc]

/-- What `getBin` leaves in the buffer, for the four widths it knows. -/
theorem getBin_ok (ind : Indeterminate) (n : Int) (str : List Char) (w : Nat)
    (hw : w = 5 ∨ w = 16 ∨ w = 26 ∨ w = 32) (hlen : w < str.length) :
    getBin ind n str w = .ok (twos_complement w n ++ Char.ofNat 0 :: str.drop (w + 1)) := by
  have hw64 : w ≤ 64 := by omega
  have hmask : (match getBin_pos w with
      | some p => p
      | none => ind.int.toNat % 2 ^ 64) <<< 1 % 2 ^ 64 = 2 ^ w := by
    rcases hw with rfl | rfl | rfl | rfl <;> simp [getBin_pos, Nat.shiftLeft_eq]
  unfold getBin
  simp only [hlen, if_true, hmask]
  rw [List.set_eq_take_append_cons_drop, if_pos hlen]
  have := getBin_loop_spec n w 65 [] (str.take w) (Char.ofNat 0 :: str.drop (w + 1))
    (by omega) (by simp; omega)
  simp only [List.nil_append, List.length_nil] at this
  rw [this]
  congr 2
  unfold twos_complement
  rw [binary_numeral_eq_map]
  apply List.map_congr_left
  intro i hi
  simp only [List.mem_range] at hi
  rw [low_bits n w (w - 1 - i) hw64 (by omega)]

/-- The string an encoder reads back from the buffer of `getBin`. -/
theorem getBin_c_str (ind : Indeterminate) (n : Int) (w k : Nat)
    (hw : w = 5 ∨ w = 16 ∨ w = 26 ∨ w = 32) (hk : w < k) :
    ∃ buf, getBin ind n (local_array ind k) w = .ok buf ∧ c_str buf = twos_complement w n := by
  refine ⟨_, getBin_ok ind n _ w hw (by simp [local_array, ind.array_length]; exact hk), ?_⟩
  exact c_str_digits _ _ (binary_numeral_chars _ _)

/-! ## The encoders in closed form -/

theorem rtype_instruction_eq (ind : Indeterminate) (instruction rs rt rd : Str) (shamt : Int)
    (Out : Str) :
    rtype_instruction ind instruction rs rt rd shamt Out
      = .ok (Out ++ ("000000".toList ++ show_s (reg_bin rs) ++ show_s (reg_bin rt)
          ++ show_s (reg_bin rd) ++ twos_complement 5 shamt
          ++ show_s (last_match rMap instruction) ++ ['\n'])) := by
  obtain ⟨buf, hb, hc⟩ := getBin_c_str ind shamt 5 6 (by simp) (by omega)
  unfold rtype_instruction
  simp only [hb, hc]

theorem itype_instruction_eq (ind : Indeterminate) (instruction rs rt : Str) (imm : Int)
    (Out : Str) :
    itype_instruction ind instruction rs rt imm Out
      = .ok (Out ++ (show_s (last_match iMap instruction) ++ show_s (reg_bin rs)
          ++ show_s (reg_bin rt) ++ twos_complement 16 imm ++ ['\n'])) := by
  obtain ⟨buf, hb, hc⟩ := getBin_c_str ind imm 16 17 (by simp) (by omega)
  unfold itype_instruction
  simp only [hb, hc]

theorem jtype_instruction_eq (ind : Indeterminate) (instruction : Str) (imm : Int)
    (Out : Str) :
    jtype_instruction ind instruction imm Out
      = .ok (Out ++ (show_s (last_match jMap instruction) ++ twos_complement 26 imm ++ ['\n'])) := by
  obtain ⟨buf, hb, hc⟩ := getBin_c_str ind imm 26 27 (by simp) (by omega)
  unfold jtype_instruction
  simp only [hb, hc]

/-- What the tables and the scanner know of a register name. -/
theorem register_facts (r c : Str) (h : (r, c) ∈ registerMap) :
    reg_bin r = some c ∧ is_operand operand_delim r = true ∧ is_operand line_delim r = true
      ∧ is_operand memory_delim r = true ∧ is_inert r = true ∧ r.length ≤ 4
      ∧ is_inert (r ++ [')']) = true ∧ is_operand line_delim (r ++ [')']) = true := by
  simp only [registerMap, List.mem_cons, Prod.mk.injEq, List.mem_singleton, List.not_mem_nil,
    or_false] at h
  rcases h with h | h | h | h | h | h | h | h | h | h | h | h | h | h | h | h | h | h | h | h
    | h | h | h | h | h | h <;> obtain ⟨rfl, rfl⟩ := h <;> decide

/-! ## Decimal numerals -/

theorem nat_text_aux_eq : ∀ (n fuel : Nat) (acc : Str), n < fuel →
    nat_text_aux fuel n acc = nat_text_aux (n + 1) n [] ++ acc := by
  intro n
  induction n using Nat.strong_induction_on with
  | _ n ih =>
    intro fuel acc hf
    cases fuel with
    | zero => omega
    | succ f =>
      by_cases h10 : n < 10
      · simp [nat_text_aux, h10]
      · have hdiv : n / 10 < n := Nat.div_lt_self (by omega) (by omega)
        simp only [nat_text_aux, h10, if_false]
        rw [ih (n / 10) hdiv f _ (by omega), ih (n / 10) hdiv n _ hdiv]
        simp

theorem nat_text_small (n : Nat) (h : n < 10) : nat_text n = [Char.ofNat (48 + n)] := by
  simp [nat_text, nat_text_aux, h]

theorem nat_text_step (n : Nat) (h : ¬ n < 10) :
    nat_text n = nat_text (n / 10) ++ [Char.ofNat (48 + n % 10)] := by
  have hdiv : n / 10 < n := Nat.div_lt_self (by omega) (by omega)
  show nat_text_aux (n + 1) n [] = nat_text_aux (n / 10 + 1) (n / 10) [] ++ _
  rw [nat_text_aux]
  simp only [h, if_false]
  rw [nat_text_aux_eq (n / 10) n _ hdiv]

theorem digit_char_facts (d : Nat) (h : d < 10) :
    isdigit (Char.ofNat (48 + d)) = true ∧ (Char.ofNat (48 + d)).toNat - 48 = d := by
  interval_cases d <;> decide

theorem nat_text_digits (n : Nat) : ∀ c ∈ nat_text n, isdigit c = true := by
  induction n using Nat.strong_induction_on with
  | _ n ih =>
    by_cases h10 : n < 10
    · rw [nat_text_small n h10]
      intro c hc
      simp only [List.mem_singleton] at hc
      rw [hc]; exact (digit_char_facts n h10).1
    · rw [nat_text_step n h10]
      intro c hc
      simp only [List.mem_append, List.mem_singleton] at hc
      rcases hc with hc | hc
      · exact ih (n / 10) (Nat.div_lt_self (by omega) (by omega)) c hc
      · rw [hc]; exact (digit_char_facts (n % 10) (Nat.mod_lt _ (by omega))).1

theorem nat_text_ne_nil (n : Nat) : nat_text n ≠ [] := by
  by_cases h10 : n < 10
  · rw [nat_text_small n h10]; simp
  · rw [nat_text_step n h10]; simp

theorem digits_value_snoc (s : Str) (c : Char) (hs : ∀ x ∈ s, isdigit x = true)
    (hc : isdigit c = true) : ∀ acc,
    digits_value (s ++ [c]) acc = digits_value s acc * 10 + (c.toNat - 48) := by
  induction s with
  | nil => intro acc; simp [digits_value, hc]
  | cons a s ih =>
    intro acc
    have ha := hs a (by simp)
    simp only [List.cons_append, digits_value, ha, if_true]
    exact ih (fun x hx => hs x (by simp [hx])) _

theorem digits_value_nat_text (n : Nat) : digits_value (nat_text n) 0 = n := by
  induction n using Nat.strong_induction_on with
  | _ n ih =>
    by_cases h10 : n < 10
    · rw [nat_text_small n h10]
      simp [digits_value, (digit_char_facts n h10).1, (digit_char_facts n h10).2]
    · rw [nat_text_step n h10,
        digits_value_snoc _ _ (nat_text_digits _)
          (digit_char_facts (n % 10) (Nat.mod_lt _ (by omega))).1,
        ih (n / 10) (Nat.div_lt_self (by omega) (by omega)),
        (digit_char_facts (n % 10) (Nat.mod_lt _ (by omega))).2]
      omega

theorem nat_text_length (k : Nat) : ∀ n, n < 10 ^ (k + 1) → (nat_text n).length ≤ k + 1 := by
  induction k with
  | zero =>
    intro n h
    rw [nat_text_small n (by simpa using h)]
    simp
  | succ k ih =>
    intro n h
    by_cases h10 : n < 10
    · rw [nat_text_small n h10]; simp
    · rw [nat_text_step n h10]
      have : n / 10 < 10 ^ (k + 1) := by
        rw [Nat.div_lt_iff_lt_mul (by omega)]
        rw [pow_succ] at h
        exact h
      have := ih (n / 10) this
      simp only [List.length_append, List.length_singleton]
      omega

theorem int_text_chars (i : Int) : ∀ c ∈ int_text i, numeral_char c = true := by
  intro c hc
  unfold int_text at hc
  split at hc
  · simp only [List.mem_cons] at hc
    rcases hc with hc | hc
    · rw [hc]; decide
    · simp [numeral_char, nat_text_digits _ c hc]
  · simp [numeral_char, nat_text_digits _ c hc]

theorem int_text_ne_nil (i : Int) : int_text i ≠ [] := by
  unfold int_text
  split
  · simp
  · exact nat_text_ne_nil _

theorem isdigit_not_space (c : Char) (h : isdigit c = true) : isspace c = false := by
  simp only [isdigit, Bool.and_eq_true, decide_eq_true_eq] at h
  simp only [isspace, Bool.or_eq_false_iff, decide_eq_false_iff_not]
  refine ⟨⟨⟨⟨⟨?_, ?_⟩, ?_⟩, ?_⟩, ?_⟩, ?_⟩ <;> intro hc <;> rw [hc] at h <;> revert h <;> decide

theorem isdigit_not_sign (c : Char) (h : isdigit c = true) : c ≠ '-' ∧ c ≠ '+' := by
  simp only [isdigit, Bool.and_eq_true, decide_eq_true_eq] at h
  constructor <;> intro hc <;> rw [hc] at h <;> revert h <;> decide

/-- The function `atoi` reads a decimal numeral back. -/
theorem atoi_int_text (i : Int) : atoi (int_text i) = wrap32 i := by
  unfold atoi int_text
  split
  · rename_i hneg
    have : List.dropWhile isspace ('-' :: nat_text i.natAbs) = '-' :: nat_text i.natAbs := by
      rw [List.dropWhile_cons_of_neg]; decide
    rw [this]
    simp only [signed_value, digits_value_nat_text]
    congr 1
    omega
  · rename_i hpos
    obtain ⟨c, cs, hcs⟩ := List.exists_cons_of_ne_nil (nat_text_ne_nil i.natAbs)
    have hd : isdigit c = true := nat_text_digits i.natAbs c (by rw [hcs]; simp)
    have hsp := isdigit_not_space c hd
    have hsg := isdigit_not_sign c hd
    have : List.dropWhile isspace (nat_text i.natAbs) = nat_text i.natAbs := by
      rw [hcs, List.dropWhile_cons_of_neg]; simp [hsp]
    rw [this]
    have hv : signed_value (nat_text i.natAbs) = (digits_value (nat_text i.natAbs) 0 : Int) := by
      rw [hcs]
      unfold signed_value
      split
      · rename_i h; simp only [List.cons.injEq] at h; exact absurd h.1 hsg.1
      · rename_i h; simp only [List.cons.injEq] at h; exact absurd h.1 hsg.2
      · rfl
    rw [hv, digits_value_nat_text]
    congr 1
    omega

theorem numeral_char_facts (c : Char) (h : numeral_char c = true) :
    c ∉ memory_delim ∧ c ≠ '#' ∧ c ≠ 'l' ∧ c ≠ 's' ∧ c ≠ 'a' ∧ c ≠ 'o' ∧ c ≠ 'b' ∧ c ≠ 'j'
      ∧ c ≠ '.' ∧ c ≠ 'n' := by
  simp only [numeral_char, Bool.or_eq_true, decide_eq_true_eq, isdigit, Bool.and_eq_true] at h
  simp only [memory_delim, List.mem_cons, List.mem_singleton, List.not_mem_nil, or_false, not_or]
  rcases h with h | h
  · refine ⟨⟨?_, ?_, ?_, ?_, ?_, ?_, ?_⟩, ?_, ?_, ?_, ?_, ?_, ?_, ?_, ?_, ?_⟩ <;> intro hc <;>
      rw [hc] at h <;> revert h <;> decide
  · subst h; decide

theorem none_in_of_forall (s delim : Str) (h : ∀ c ∈ s, c ∉ delim) : none_in s delim = true := by
  simp only [none_in, List.all_eq_true, Bool.not_eq_true', decide_eq_false_iff_not]
  exact h

theorem not_mem_of_memory (c : Char) (h : c ∉ memory_delim) :
    c ∉ operand_delim ∧ c ∉ line_delim := by
  simp only [memory_delim, operand_delim, line_delim, List.mem_cons, List.mem_singleton,
    List.not_mem_nil, or_false, not_or] at h ⊢
  tauto

/-- A token that starts like a numeral is passed over by pass 2. -/
theorem inert_of_head (c : Char) (t : Str) (hc : numeral_char c = true) :
    is_inert (c :: t) = true := by
  obtain ⟨_, _, h1, h2, h3, h4, h5, h6, h7, h8⟩ := numeral_char_facts c hc
  simp [is_inert, search, instructions, search_from, h1, h2, h3, h4, h5, h6, h7, h8]

/-- What the scanner knows of a decimal numeral. -/
theorem numeral_facts (i : Int) :
    is_operand operand_delim (int_text i) = true ∧ is_operand line_delim (int_text i) = true
      ∧ is_operand memory_delim (int_text i) = true ∧ is_inert (int_text i) = true
      ∧ is_operand line_delim (int_text i ++ ['(']) = true
      ∧ is_inert (int_text i ++ ['(']) = true := by
  obtain ⟨c, t, hct⟩ := List.exists_cons_of_ne_nil (int_text_ne_nil i)
  have hall := int_text_chars i
  have hc : numeral_char c = true := hall c (by rw [hct]; simp)
  have hhead : (int_text i).head? ≠ some '#' := by
    rw [hct]; simp only [List.head?_cons, ne_eq, Option.some.injEq]
    exact (numeral_char_facts c hc).2.1
  have hop : ∀ delim : Str, (∀ x, x ∉ memory_delim → x ∉ delim) →
      is_operand delim (int_text i) = true := by
    intro delim hd
    have hn := none_in_of_forall (int_text i) delim
      (fun x hx => hd x (numeral_char_facts x (hall x hx)).1)
    simp only [is_operand, hn, Bool.and_eq_true, Bool.not_eq_true', decide_eq_false_iff_not,
      List.isEmpty_eq_false, ne_eq]
    exact ⟨⟨int_text_ne_nil i, trivial⟩, hhead⟩
  refine ⟨hop _ (fun x hx => (not_mem_of_memory x hx).1),
    hop _ (fun x hx => (not_mem_of_memory x hx).2), hop _ (fun x hx => hx), ?_, ?_, ?_⟩
  · rw [hct]; exact inert_of_head c t hc
  · have hn := none_in_of_forall (int_text i ++ ['(']) line_delim (by
      intro x hx
      simp only [List.mem_append, List.mem_singleton] at hx
      rcases hx with hx | hx
      · exact (not_mem_of_memory x (numeral_char_facts x (hall x hx)).1).2
      · rw [hx]; decide)
    simp only [is_operand, hn, Bool.and_eq_true, Bool.not_eq_true', decide_eq_false_iff_not,
      List.isEmpty_eq_false, ne_eq]
    refine ⟨⟨by simp, trivial⟩, ?_⟩
    rw [hct]; simp only [List.cons_append, List.head?_cons, Option.some.injEq]
    exact (numeral_char_facts c hc).2.1
  · rw [hct]; exact inert_of_head c _ hc

/-- The numeral of a 32 bit integer has at most eleven characters. -/
theorem int_text_length (i : Int) (h : -2 ^ 31 ≤ i ∧ i < 2 ^ 31) : (int_text i).length ≤ 11 := by
  have hb : i.natAbs < 10 ^ 10 := by omega
  have := nat_text_length 9 i.natAbs hb
  unfold int_text
  split <;> simp <;> omega

/-! ## Instruction lines in pass 2 -/

theorem well_cut_cons (delim pre tok : Str) (d : Char) (xs : List (Str × Str × Char)) :
    well_cut delim ((pre, tok, d) :: xs) = true ↔
      all_in pre delim = true ∧ is_operand delim tok = true ∧ d ∈ delim
        ∧ well_cut delim xs = true := by
  simp only [well_cut, List.all_cons, Bool.and_eq_true, decide_eq_true_eq]
  tauto

theorem well_cut_nil (delim : Str) : well_cut delim [] = true := rfl

/-- A line of the text segment that starts with a mnemonic and goes on with
inert tokens: pass 2 does the work of the mnemonic and counts the line. -/
theorem parse_line_mnemonic (ind : Indeterminate) (m : Str) (items : List (Str × Str × Char))
    (st st1 : State)
    (hm : is_operand line_delim m = true)
    (hw : well_cut line_delim items = true)
    (hi : (items.all (fun it => is_inert it.2.1)) = true)
    (hp : process_token ind 2 m (render items []) st = .ok (render items [], st1))
    (hd : st1.data_reached = false)
    (hlen : (render (([], m, ' ') :: items) []).length < 256) :
    parse_line ind 2 (render (([], m, ' ') :: items) []) st
      = .ok { st1 with line_num := st1.line_num + 1 } := by
  have hcut : well_cut line_delim (([], m, ' ') :: items) = true := by
    rw [well_cut_cons]
    exact ⟨rfl, hm, by decide, hw⟩
  have hpt := parse_token_render line_delim [] m ' ' items [] hcut
  have hl := parse_token_length _ _ _ _ hpt
  unfold parse_line
  rw [if_neg (by simp only [MAX_LINE_LENGTH]; omega)]
  simp only [token_loop, hpt, well_cut_head line_delim [] m ' ' items hcut, if_false, hp]
  exact token_loop_inert ind items [] _ st1 hw hi rfl hd hl

theorem slot_store_3 (ind : Indeterminate) (a b c : Str) :
    store_from (fresh_slots ind 3) 0 [a, b, c] = [a, b, c] := by
  simp [store_from, fresh_slots, List.replicate]

theorem slot_store_2 (ind : Indeterminate) (a b : Str) :
    store_from (fresh_slots ind 2) 0 [a, b] = [a, b] := by
  simp [store_from, fresh_slots, List.replicate]

theorem mnemonic_facts_three (m f : Str)
    (hm : m ∈ ["add".toList, "sub".toList, "and".toList, "or".toList, "slt".toList])
    (hf : (m, f) ∈ rMap) :
    search m ≥ 0 ∧ search m ≠ -1 ∧ m ≠ "la".toList ∧ instruction_type m = 'r'
      ∧ (m = "add".toList || m = "sub".toList || m = "and".toList || m = "or".toList
          || m = "slt".toList) = true
      ∧ last_match rMap m = some f ∧ m ≠ "nop".toList ∧ is_operand line_delim m = true
      ∧ m.length ≤ 4 := by
  simp only [List.mem_cons, List.mem_singleton, List.not_mem_nil, or_false] at hm
  simp only [rMap, List.mem_cons, Prod.mk.injEq, List.mem_singleton, List.not_mem_nil,
    or_false] at hf
  rcases hm with rfl | rfl | rfl | rfl | rfl <;>
    rcases hf with h | h | h | h | h | h | h | h <;>
    first
      | exact absurd h.1 (by decide)
      | (obtain ⟨_, rfl⟩ := h; decide)

theorem encode_three_registers_eq (ind : Indeterminate) (m f rd rs rt crd crs crt Out : Str)
    (hlast : last_match rMap m = some f)
    (hrd : (rd, crd) ∈ registerMap) (hrs : (rs, crs) ∈ registerMap)
    (hrt : (rt, crt) ∈ registerMap) :
    encode_three_registers ind m (render (three_operands rd rs rt) []) Out
      = .ok (Out ++ ("000000".toList ++ crs ++ crt ++ crd ++ "00000".toList ++ f
          ++ "\n".toList)) := by
  obtain ⟨hbd, hod, _⟩ := register_facts rd crd hrd
  obtain ⟨hbs, hos, _⟩ := register_facts rs crs hrs
  obtain ⟨hbt, hot, _⟩ := register_facts rt crt hrt
  have hw : well_cut operand_delim (three_operands rd rs rt) = true := by
    simp only [three_operands, well_cut_cons, well_cut_nil, hod, hos, hot]
    decide
  unfold encode_three_registers
  rw [operand_loop_render operand_delim _ [] _ _ 0 hw rfl (by omega)
    (by simp [three_operands, fresh_slots])]
  simp only [three_operands, List.map_cons, List.map_nil, slot_store_3, slot, List.getD_cons_zero,
    List.getD_cons_succ, rtype_instruction_eq, hbd, hbs, hbt, hlast, show_s]
  rfl

theorem process_three_registers (ind : Indeterminate) (st : State)
    (m f rd rs rt crd crs crt : Str)
    (hm : m ∈ ["add".toList, "sub".toList, "and".toList, "or".toList, "slt".toList])
    (hf : (m, f) ∈ rMap)
    (hrd : (rd, crd) ∈ registerMap) (hrs : (rs, crs) ∈ registerMap)
    (hrt : (rt, crt) ∈ registerMap) (htext : st.data_reached = false) :
    process_token ind 2 m (render (three_operands rd rs rt) []) st
      = .ok (render (three_operands rd rs rt) [],
          { st with
            instruction_count := st.instruction_count + 4,
            Out := st.Out ++ ("000000".toList ++ crs ++ crt ++ crd ++ "00000".toList ++ f
              ++ "\n".toList) }) := by
  obtain ⟨h1, h2, h3, h4, h5, h6, h7, _, _⟩ := mnemonic_facts_three m f hm hf
  unfold process_token account
  simp only [h1, if_true, if_neg h3, htext]
  unfold pass2_text
  simp only [h2, ne_eq, not_false_eq_true, if_true, h4, h5,
    encode_three_registers_eq ind m f rd rs rt crd crs crt _ h6 hrd hrs hrt, Except.map,
    if_neg h7]
  rw [if_neg (by decide)]

theorem three_register_general (ind : Indeterminate) (st : State)
    (htext : st.data_reached = false) (m f rd rs rt crd crs crt : Str)
    (hm : m ∈ ["add".toList, "sub".toList, "and".toList, "or".toList, "slt".toList])
    (hf : (m, f) ∈ rMap) (hrd : (rd, crd) ∈ registerMap) (hrs : (rs, crs) ∈ registerMap)
    (hrt : (rt, crt) ∈ registerMap) :
    parse_line ind 2
        (m ++ " $".toList ++ rd ++ ", $".toList ++ rs ++ ", $".toList ++ rt ++ "\n".toList) st
      = .ok { st with
          instruction_count := st.instruction_count + 4,
          line_num := st.line_num + 1,
          Out := st.Out ++ ("000000".toList ++ crs ++ crt ++ crd ++ "00000".toList ++ f
            ++ "\n".toList) } := by
  obtain ⟨_, _, _, _, _, _, _, hop, hml⟩ := mnemonic_facts_three m f hm hf
  obtain ⟨_, _, hld, _, hid, hnd, _⟩ := register_facts rd crd hrd
  obtain ⟨_, _, hls, _, his, hns, _⟩ := register_facts rs crs hrs
  obtain ⟨_, _, hlt, _, hit, hnt, _⟩ := register_facts rt crt hrt
  have hline : m ++ " $".toList ++ rd ++ ", $".toList ++ rs ++ ", $".toList ++ rt
      ++ "\n".toList = render (([], m, ' ') :: three_operands rd rs rt) [] := by
    simp [render, three_operands]
  rw [hline]
  rw [parse_line_mnemonic ind m (three_operands rd rs rt) st _ hop
    (by simp only [three_operands, well_cut_cons, well_cut_nil, hld, hls, hlt]; decide)
    (by simp [three_operands, hid, his, hit])
    (process_three_registers ind st m f rd rs rt crd crs crt hm hf hrd hrs hrt htext)
    htext
    (by simp [render, three_operands]; omega)]

theorem add_t0_t1_t2 (ind : Indeterminate) (st : State) (htext : st.data_reached = false) :
    parse_line ind 2 "add $t0, $t1, $t2\n".toList st
      = .ok { st with
          instruction_count := st.instruction_count + 4,
          line_num := st.line_num + 1,
          Out := st.Out ++ "00000001001010100100000000100000\n".toList } := by
  have h := three_register_general ind st htext "add".toList "100000".toList "t0".toList
    "t1".toList "t2".toList "01000".toList "01001".toList "01010".toList (by decide) (by decide)
    (by decide) (by decide) (by decide)
  have e1 : "add".toList ++ " $".toList ++ "t0".toList ++ ", $".toList ++ "t1".toList
      ++ ", $".toList ++ "t2".toList ++ "\n".toList = "add $t0, $t1, $t2\n".toList := by decide
  have e2 : "000000".toList ++ "01001".toList ++ "01010".toList ++ "01000".toList
      ++ "00000".toList ++ "100000".toList ++ "\n".toList
      = "00000001001010100100000000100000\n".toList := by decide
  rw [e1, e2] at h
  exact h

/-- C1 (as amended): in pass 2, in the text segment, the line `m $rd, $rs, $rt`
with `m` one of `add sub and or slt` and three names of the register table
appends exactly one line to the output, `000000 ++ code(rs) ++ code(rt) ++
code(rd) ++ 00000 ++ funct(m)`, advances the counter by 4 and counts the line;
for `add $t0, $t1, $t2` the line is `00000001001010100100000000100000`. -/
theorem three_register_line (ind : Indeterminate) (st : State)
    (htext : st.data_reached = false) :
    (∀ m f rd rs rt crd crs crt : Str,
      m ∈ ["add".toList, "sub".toList, "and".toList, "or".toList, "slt".toList] →
      (m, f) ∈ rMap → (rd, crd) ∈ registerMap → (rs, crs) ∈ registerMap →
      (rt, crt) ∈ registerMap →
      parse_line ind 2
          (m ++ " $".toList ++ rd ++ ", $".toList ++ rs ++ ", $".toList ++ rt ++ "\n".toList) st
        = .ok { st with
            instruction_count := st.instruction_count + 4,
            line_num := st.line_num + 1,
            Out := st.Out ++ ("000000".toList ++ crs ++ crt ++ crd ++ "00000".toList ++ f
              ++ "\n".toList) })
    ∧ parse_line ind 2 "add $t0, $t1, $t2\n".toList st
        = .ok { st with
            instruction_count := st.instruction_count + 4,
            line_num := st.line_num + 1,
            Out := st.Out ++ "00000001001010100100000000100000\n".toList } :=
  ⟨fun m f rd rs rt crd crs crt hm hf hrd hrs hrt =>
      three_register_general ind st htext m f rd rs rt crd crs crt hm hf hrd hrs hrt,
    add_t0_t1_t2 ind st htext⟩

theorem three_register_line_witness :
    start_state.data_reached = false
    ∧ "slt".toList ∈ ["add".toList, "sub".toList, "and".toList, "or".toList, "slt".toList]
    ∧ ("slt".toList, "101010".toList) ∈ rMap
    ∧ ("v0".toList, "00010".toList) ∈ registerMap ∧ ("zero".toList, "00000".toList) ∈ registerMap
    ∧ ("t9".toList, "11001".toList) ∈ registerMap
    ∧ parse_line sample_ind 2
          ("slt".toList ++ " $".toList ++ "v0".toList ++ ", $".toList ++ "zero".toList
            ++ ", $".toList ++ "t9".toList ++ "\n".toList) start_state
        = .ok { start_state with
            instruction_count := start_state.instruction_count + 4,
            line_num := start_state.line_num + 1,
            Out := start_state.Out ++ ("000000".toList ++ "00000".toList ++ "11001".toList
              ++ "00010".toList ++ "00000".toList ++ "101010".toList ++ "\n".toList) } :=
  ⟨rfl, by decide, by decide, by decide, by decide, by decide,
    (three_register_line sample_ind start_state rfl).1 "slt".toList "101010".toList
      "v0".toList "zero".toList "t9".toList "00010".toList "00000".toList "11001".toList
      (by decide) (by decide) (by decide) (by decide) (by decide)⟩

/-- C1, the instance as the claim words it: the line the claim gives for
`add $t0, $t1, $t2`, `00000001001010101000000000100000`, is not the line pass 2
writes (the claimed text carries `10000` in the `rd` field, the code of `s0`). -/
theorem three_register_line_counterexample :
    ∃ s : State, parse_line sample_ind 2 "add $t0, $t1, $t2\n".toList start_state = .ok s
      ∧ s.Out = "00000001001010100100000000100000\n".toList
      ∧ s.Out ≠ "00000001001010101000000000100000\n".toList :=
  ⟨_, add_t0_t1_t2 sample_ind start_state rfl, by decide, by decide⟩

theorem wrap32_mod_16 (x : Int) : wrap32 x % 2 ^ 16 = x % 2 ^ 16 := by
  unfold wrap32
  omega

theorem wrap32_mod_5 (x : Int) : wrap32 x % 2 ^ 5 = x % 2 ^ 5 := by
  unfold wrap32
  omega

theorem twos_complement_16_wrap (x : Int) :
    twos_complement 16 (wrap32 x) = twos_complement 16 x := by
  unfold twos_complement
  rw [wrap32_mod_16]

theorem twos_complement_5_wrap (x : Int) :
    twos_complement 5 (wrap32 x) = twos_complement 5 x := by
  unfold twos_complement
  rw [wrap32_mod_5]

theorem mnemonic_facts_immediate (m op : Str)
    (hm : m ∈ ["andi".toList, "ori".toList, "slti".toList, "addi".toList])
    (hf : (m, op) ∈ iMap) :
    search m ≥ 0 ∧ search m ≠ -1 ∧ m ≠ "la".toList ∧ instruction_type m = 'i'
      ∧ (m = "lw".toList || m = "sw".toList) = false
      ∧ (m = "andi".toList || m = "ori".toList || m = "slti".toList || m = "addi".toList) = true
      ∧ last_match iMap m = some op ∧ m ≠ "nop".toList ∧ is_operand line_delim m = true
      ∧ m.length ≤ 4 := by
  simp only [List.mem_cons, List.mem_singleton, List.not_mem_nil, or_false] at hm
  simp only [iMap, List.mem_cons, Prod.mk.injEq, List.mem_singleton, List.not_mem_nil,
    or_false] at hf
  rcases hm with rfl | rfl | rfl | rfl <;>
    rcases hf with h | h | h | h | h | h | h | h <;>
    first
      | exact absurd h.1 (by decide)
      | (obtain ⟨_, rfl⟩ := h; decide)

theorem encode_immediate_eq (ind : Indeterminate) (m op rt rs crt crs Out : Str) (imm : Int)
    (hlast : last_match iMap m = some op)
    (hrt : (rt, crt) ∈ registerMap) (hrs : (rs, crs) ∈ registerMap) :
    encode_immediate ind m (render (two_and_number rt rs (int_text imm)) []) Out
      = .ok (Out ++ (op ++ crs ++ crt ++ twos_complement 16 imm ++ "\n".toList)) := by
  obtain ⟨hbt, hot, _⟩ := register_facts rt crt hrt
  obtain ⟨hbs, hos, _⟩ := register_facts rs crs hrs
  obtain ⟨hon, _⟩ := numeral_facts imm
  have hw : well_cut operand_delim (two_and_number rt rs (int_text imm)) = true := by
    simp only [two_and_number, well_cut_cons, well_cut_nil, hot, hos, hon]
    decide
  unfold encode_immediate
  rw [operand_loop_render operand_delim _ [] _ _ 0 hw rfl (by omega)
    (by simp [two_and_number, fresh_slots])]
  simp only [two_and_number, List.map_cons, List.map_nil, slot_store_3, slot,
    List.getD_cons_zero, List.getD_cons_succ, itype_instruction_eq, hbt, hbs, hlast, show_s,
    atoi_int_text, twos_complement_16_wrap]
  rfl

theorem process_immediate (ind : Indeterminate) (st : State)
    (m op rt rs crt crs : Str) (imm : Int)
    (hm : m ∈ ["andi".toList, "ori".toList, "slti".toList, "addi".toList])
    (hf : (m, op) ∈ iMap)
    (hrt : (rt, crt) ∈ registerMap) (hrs : (rs, crs) ∈ registerMap)
    (htext : st.data_reached = false) :
    process_token ind 2 m (render (two_and_number rt rs (int_text imm)) []) st
      = .ok (render (two_and_number rt rs (int_text imm)) [],
          { st with
            instruction_count := st.instruction_count + 4,
            Out := st.Out ++ (op ++ crs ++ crt ++ twos_complement 16 imm ++ "\n".toList) }) := by
  obtain ⟨h1, h2, h3, h4, h5, h6, h7, h8, _, _⟩ := mnemonic_facts_immediate m op hm hf
  unfold process_token account
  simp only [h1, if_true, if_neg h3, htext]
  unfold pass2_text
  simp only [h2, ne_eq, not_false_eq_true, if_true, h4, h5, h6,
    encode_immediate_eq ind m op rt rs crt crs _ imm h7 hrt hrs, Except.map,
    if_neg h8, if_neg h3]
  rw [if_neg (by decide), if_neg (by decide)]
  simp

theorem immediate_general (ind : Indeterminate) (st : State)
    (htext : st.data_reached = false) (m op rt rs crt crs : Str) (imm : Int)
    (hm : m ∈ ["andi".toList, "ori".toList, "slti".toList, "addi".toList])
    (hf : (m, op) ∈ iMap) (hrt : (rt, crt) ∈ registerMap) (hrs : (rs, crs) ∈ registerMap)
    (himm : -2 ^ 31 ≤ imm ∧ imm < 2 ^ 31) :
    parse_line ind 2
        (m ++ " $".toList ++ rt ++ ", $".toList ++ rs ++ ", ".toList ++ int_text imm
          ++ "\n".toList) st
      = .ok { st with
          instruction_count := st.instruction_count + 4,
          line_num := st.line_num + 1,
          Out := st.Out ++ (op ++ crs ++ crt ++ twos_complement 16 imm ++ "\n".toList) } := by
  obtain ⟨_, _, _, _, _, _, _, _, hop, hml⟩ := mnemonic_facts_immediate m op hm hf
  obtain ⟨_, _, hlt, _, hit, hnt, _⟩ := register_facts rt crt hrt
  obtain ⟨_, _, hls, _, his, hns, _⟩ := register_facts rs crs hrs
  obtain ⟨_, hln, _, hin, _⟩ := numeral_facts imm
  have hnl := int_text_length imm himm
  have hline : m ++ " $".toList ++ rt ++ ", $".toList ++ rs ++ ", ".toList ++ int_text imm
      ++ "\n".toList = render (([], m, ' ') :: two_and_number rt rs (int_text imm)) [] := by
    simp [render, two_and_number]
  rw [hline]
  rw [parse_line_mnemonic ind m (two_and_number rt rs (int_text imm)) st _ hop
    (by simp only [two_and_number, well_cut_cons, well_cut_nil, hlt, hls, hln]; decide)
    (by simp [two_and_number, hit, his, hin])
    (process_immediate ind st m op rt rs crt crs imm hm hf hrt hrs htext)
    htext
    (by simp [render, two_and_number]; omega)]

theorem addi_t0_t1_5 (ind : Indeterminate) (st : State) (htext : st.data_reached = false) :
    parse_line ind 2 "addi $t0, $t1, 5\n".toList st
      = .ok { st with
          instruction_count := st.instruction_count + 4,
          line_num := st.line_num + 1,
          Out := st.Out ++ "00100001001010000000000000000101\n".toList } := by
  have h := immediate_general ind st htext "addi".toList "001000".toList "t0".toList
    "t1".toList "01000".toList "01001".toList 5 (by decide) (by decide) (by decide) (by decide)
    (by decide)
  have e1 : "addi".toList ++ " $".toList ++ "t0".toList ++ ", $".toList ++ "t1".toList
      ++ ", ".toList ++ int_text 5 ++ "\n".toList = "addi $t0, $t1, 5\n".toList := by decide
  have e2 : "001000".toList ++ "01001".toList ++ "01000".toList ++ twos_complement 16 5
      ++ "\n".toList = "00100001001010000000000000000101\n".toList := by decide
  rw [e1, e2] at h
  exact h

theorem addi_t0_t1_minus_1 (ind : Indeterminate) (st : State)
    (htext : st.data_reached = false) :
    parse_line ind 2 "addi $t0, $t1, -1\n".toList st
      = .ok { st with
          instruction_count := st.instruction_count + 4,
          line_num := st.line_num + 1,
          Out := st.Out ++ "00100001001010001111111111111111\n".toList } := by
  have h := immediate_general ind st htext "addi".toList "001000".toList "t0".toList
    "t1".toList "01000".toList "01001".toList (-1) (by decide) (by decide) (by decide)
    (by decide) (by decide)
  have e1 : "addi".toList ++ " $".toList ++ "t0".toList ++ ", $".toList ++ "t1".toList
      ++ ", ".toList ++ int_text (-1) ++ "\n".toList = "addi $t0, $t1, -1\n".toList := by decide
  have e2 : "001000".toList ++ "01001".toList ++ "01000".toList ++ twos_complement 16 (-1)
      ++ "\n".toList = "00100001001010001111111111111111\n".toList := by decide
  rw [e1, e2] at h
  exact h

/-- C2: in pass 2, in the text segment, the line `m $rt, $rs, imm` with `m` one
of `andi ori slti addi`, two names of the register table and the decimal
numeral of a 32 bit integer `imm` appends exactly one line to the output,
`opcode(m) ++ code(rs) ++ code(rt)` followed by the 16 bit two's complement
binary of `imm` (the numeral of `imm mod 2^16`, most significant bit first),
advances the counter by 4 and counts the line; `addi $t0, $t1, 5` gives
`001000 01001 01000 0000000000000101`, and the immediate -1 gives sixteen 1
bits. -/
theorem immediate_line (ind : Indeterminate) (st : State)
    (htext : st.data_reached = false) :
    (∀ (m op rt rs crt crs : Str) (imm : Int),
      m ∈ ["andi".toList, "ori".toList, "slti".toList, "addi".toList] →
      (m, op) ∈ iMap → (rt, crt) ∈ registerMap → (rs, crs) ∈ registerMap →
      -2 ^ 31 ≤ imm ∧ imm < 2 ^ 31 →
      parse_line ind 2
          (m ++ " $".toList ++ rt ++ ", $".toList ++ rs ++ ", ".toList ++ int_text imm
            ++ "\n".toList) st
        = .ok { st with
            instruction_count := st.instruction_count + 4,
            line_num := st.line_num + 1,
            Out := st.Out ++ (op ++ crs ++ crt ++ binary_numeral 16 (imm % 2 ^ 16).toNat
              ++ "\n".toList) })
    ∧ parse_line ind 2 "addi $t0, $t1, 5\n".toList st
        = .ok { st with
            instruction_count := st.instruction_count + 4,
            line_num := st.line_num + 1,
            Out := st.Out ++ "00100001001010000000000000000101\n".toList }
    ∧ parse_line ind 2 "addi $t0, $t1, -1\n".toList st
        = .ok { st with
            instruction_count := st.instruction_count + 4,
            line_num := st.line_num + 1,
            Out := st.Out ++ "00100001001010001111111111111111\n".toList } :=
  ⟨fun m op rt rs crt crs imm hm hf hrt hrs himm =>
      immediate_general ind st htext m op rt rs crt crs imm hm hf hrt hrs himm,
    addi_t0_t1_5 ind st htext, addi_t0_t1_minus_1 ind st htext⟩

theorem immediate_line_witness :
    start_state.data_reached = false
    ∧ "ori".toList ∈ ["andi".toList, "ori".toList, "slti".toList, "addi".toList]
    ∧ ("ori".toList, "001101".toList) ∈ iMap
    ∧ ("s0".toList, "10000".toList) ∈ registerMap ∧ ("a1".toList, "00101".toList) ∈ registerMap
    ∧ (-2 ^ 31 ≤ (-32768 : Int) ∧ (-32768 : Int) < 2 ^ 31)
    ∧ parse_line sample_ind 2
          ("ori".toList ++ " $".toList ++ "s0".toList ++ ", $".toList ++ "a1".toList
            ++ ", ".toList ++ int_text (-32768) ++ "\n".toList) start_state
        = .ok { start_state with
            instruction_count := start_state.instruction_count + 4,
            line_num := start_state.line_num + 1,
            Out := start_state.Out ++ ("001101".toList ++ "00101".toList ++ "10000".toList
              ++ binary_numeral 16 ((-32768 : Int) % 2 ^ 16).toNat ++ "\n".toList) } :=
  ⟨rfl, by decide, by decide, by decide, by decide, by decide,
    (immediate_line sample_ind start_state rfl).1 "ori".toList "001101".toList "s0".toList
      "a1".toList "10000".toList "00101".toList (-32768) (by decide) (by decide) (by decide)
      (by decide) (by decide)⟩

/-! ## `getDec` on binary numerals -/

theorem wrap32_id (x : Int) (h : -2 ^ 31 ≤ x ∧ x < 2 ^ 31) : wrap32 x = x := by
  unfold wrap32
  omega

theorem getDec_pow_eq (k : Nat) (h : k ≤ 30) : getDec_pow k = 2 ^ k := by
  induction k with
  | zero => rfl
  | succ k ih =>
    have hk := ih (by omega)
    have hb : (2 : Int) ^ k ≤ 2 ^ 29 := pow_le_pow_right₀ (by norm_num) (by omega)
    have hp : (0 : Int) < 2 ^ k := by positivity
    simp only [getDec_pow, hk]
    rw [wrap32_id _ (by constructor <;> omega), pow_succ]

theorem binary_numeral_split (a : Nat) : ∀ (b m : Nat),
    binary_numeral (a + b) m = binary_numeral a (m / 2 ^ b) ++ binary_numeral b m := by
  intro b
  induction b with
  | zero => intro m; simp [binary_numeral]
  | succ b ih =>
    intro m
    have : a + (b + 1) = (a + b) + 1 := by omega
    rw [this]
    simp only [binary_numeral]
    rw [ih (m / 2), Nat.div_div_eq_div_mul, ← pow_succ']
    simp

theorem binary_numeral_one (m : Nat) :
    binary_numeral 1 m = [if m % 2 = 1 then '1' else '0'] := by
  simp [binary_numeral]

theorem binary_numeral_cons (w m : Nat) :
    binary_numeral (w + 1) m
      = (if m / 2 ^ w % 2 = 1 then '1' else '0') :: binary_numeral w m := by
  have := binary_numeral_split 1 w m
  rw [Nat.add_comm] at this
  rw [this, binary_numeral_one]
  rfl

theorem binary_numeral_mod (w : Nat) : ∀ m, binary_numeral w (m % 2 ^ w) = binary_numeral w m := by
  induction w with
  | zero => intro m; rfl
  | succ w ih =>
    intro m
    simp only [binary_numeral]
    have h1 : m % 2 ^ (w + 1) / 2 = (m / 2) % 2 ^ w := by
      rw [pow_succ', Nat.mod_mul_right_div_self]
    have h2 : m % 2 ^ (w + 1) % 2 = m % 2 := by
      rw [pow_succ']
      exact Nat.mod_mul_right_mod m 2 (2 ^ w)
    rw [h1, h2, ih]

theorem getDec_loop_step (c : Char) (cs : Str) (len : Nat) (sum b : Int)
    (hb : (c.toNat : Int) - 48 = b) (h01 : b = 0 ∨ b = 1) :
    getDec_loop (c :: cs) len sum
      = getDec_loop cs (len - 1) (wrap32 (sum + wrap32 (b * getDec_pow len))) := by
  simp only [getDec_loop, hb]
  rw [if_neg (by omega)]

/-- The loop of `getDec` adds up the digits of a numeral of at most 31 digits. -/
theorem getDec_loop_numeral (w : Nat) : ∀ (m : Nat) (sum : Int),
    0 ≤ sum → sum + 2 ^ w ≤ 2 ^ 31 →
    getDec_loop (binary_numeral w m) (w - 1) sum = some (sum + ((m % 2 ^ w : Nat) : Int)) := by
  induction w with
  | zero =>
    intro m sum _ _
    simp [binary_numeral, getDec_loop, Nat.mod_one]
  | succ w ih =>
    intro m sum h0 hs
    have hw : w ≤ 30 := by
      by_contra hc
      have h31 : (2 : Int) ^ 31 ≤ 2 ^ w := pow_le_pow_right₀ (by norm_num) (by omega)
      have : (2 : Int) ^ (w + 1) = 2 ^ w * 2 := pow_succ 2 w
      omega
    have hp : (0 : Int) < 2 ^ w := by positivity
    have hsucc : (2 : Int) ^ (w + 1) = 2 ^ w * 2 := pow_succ 2 w
    have hmod : ((m % 2 ^ (w + 1) : Nat) : Int)
        = ((m / 2 ^ w % 2 : Nat) : Int) * 2 ^ w + ((m % 2 ^ w : Nat) : Int) := by
      rw [Nat.mod_pow_succ]
      push_cast
      ring
    have hbit : m / 2 ^ w % 2 = 0 ∨ m / 2 ^ w % 2 = 1 := by omega
    have hchar : (((if m / 2 ^ w % 2 = 1 then '1' else '0' : Char).toNat : Int) - 48)
        = ((m / 2 ^ w % 2 : Nat) : Int) := by
      rcases hbit with hb | hb <;> simp [hb]
    rw [binary_numeral_cons, getDec_loop_step _ _ _ _ _ hchar (by omega), Nat.add_sub_cancel,
      getDec_pow_eq w hw]
    have hprod : (0 : Int) ≤ ((m / 2 ^ w % 2 : Nat) : Int) * 2 ^ w
        ∧ ((m / 2 ^ w % 2 : Nat) : Int) * 2 ^ w ≤ 2 ^ w := by
      rcases hbit with hb | hb <;> simp [hb]
    have e1 : wrap32 (((m / 2 ^ w % 2 : Nat) : Int) * 2 ^ w)
        = ((m / 2 ^ w % 2 : Nat) : Int) * 2 ^ w := wrap32_id _ (by constructor <;> omega)
    rw [e1, wrap32_id _ (by constructor <;> omega), ih m _ (by omega) (by omega), hmod]
    congr 1
    ring

/-- The function `getDec` reads a binary numeral of at most 31 digits back. -/
theorem getDec_numeral (w m : Nat) (hw : w ≤ 31) :
    getDec (binary_numeral w m) = ((m % 2 ^ w : Nat) : Int) := by
  have hp : (2 : Int) ^ w ≤ 2 ^ 31 := pow_le_pow_right₀ (by norm_num) hw
  unfold getDec
  rw [binary_numeral_length, getDec_loop_numeral w m 0 (le_refl 0) (by omega)]
  simp

theorem twos_complement_16_nat (m : Nat) :
    twos_complement 16 ((m % 2 ^ 16 : Nat) : Int) = binary_numeral 16 m := by
  unfold twos_complement
  have : (((m % 2 ^ 16 : Nat) : Int) % 2 ^ 16).toNat = m % 2 ^ 16 := by
    have h : m % 2 ^ 16 < 2 ^ 16 := Nat.mod_lt _ (by norm_num)
    omega
  rw [this, binary_numeral_mod]

theorem twos_complement_32_halves (A : Int) (rest : List Char) :
    ((twos_complement 32 A ++ rest).take 16 = binary_numeral 16 ((A % 2 ^ 32).toNat / 2 ^ 16))
    ∧ (((twos_complement 32 A ++ rest).drop 16).take 16
        = binary_numeral 16 (A % 2 ^ 32).toNat) := by
  unfold twos_complement
  have hs := binary_numeral_split 16 16 (A % 2 ^ 32).toNat
  have e : 16 + 16 = 32 := rfl
  rw [e] at hs
  have hl : (binary_numeral 16 ((A % 2 ^ 32).toNat / 2 ^ 16)).length = 16 :=
    binary_numeral_length _ _
  have hl2 : (binary_numeral 16 (A % 2 ^ 32).toNat).length = 16 := binary_numeral_length _ _
  constructor
  · rw [hs, List.append_assoc, List.take_append_of_le_length (by omega),
      List.take_of_length_le (by omega)]
  · rw [hs, List.append_assoc, List.drop_append_of_le_length (by omega),
      List.drop_of_length_le (by omega), List.nil_append,
      List.take_append_of_le_length (by omega), List.take_of_length_le (by omega)]

/-- The two lines of `la`: `lui` carries the last 16 digits of the 32 digit
rendering of the address, `ori` the first 16. -/
theorem encode_la_eq (ind : Indeterminate) (rt crt lab Out : Str) (t : hash_table_t)
    (A : Int) (hrt : (rt, crt) ∈ registerMap)
    (hlab : is_operand operand_delim lab = true)
    (hfind : hash_find t (key_bytes lab) = some A) :
    encode_la ind (render (register_and_word rt lab) []) t Out
      = .ok (Out ++ ("001111".toList ++ "00000".toList ++ crt
            ++ binary_numeral 16 (A % 2 ^ 32).toNat ++ "\n".toList)
          ++ ("001101".toList ++ crt ++ crt
            ++ binary_numeral 16 ((A % 2 ^ 32).toNat / 2 ^ 16) ++ "\n".toList)) := by
  obtain ⟨hbt, hot, _⟩ := register_facts rt crt hrt
  have hw : well_cut operand_delim (register_and_word rt lab) = true := by
    simp only [register_and_word, well_cut_cons, well_cut_nil, hot, hlab]
    decide
  have hgb := getBin_ok ind A (local_array ind 33) 32 (by simp)
    (by simp [local_array, ind.array_length])
  obtain ⟨htake, hdrop⟩ := twos_complement_32_halves A
    (Char.ofNat 0 :: (local_array ind 33).drop (32 + 1))
  have hz : reg_bin "00000".toList = some "00000".toList := by decide
  have hlui : last_match iMap "lui".toList = some "001111".toList := by decide
  have hori : last_match iMap "ori".toList = some "001101".toList := by decide
  unfold encode_la
  rw [operand_loop_render operand_delim _ [] _ _ 0 hw rfl (by omega)
    (by simp [register_and_word, fresh_slots])]
  simp only [register_and_word, List.map_cons, List.map_nil, slot_store_2, slot,
    List.getD_cons_zero, List.getD_cons_succ, hfind, hgb, htake, hdrop, itype_instruction_eq,
    hbt, hz, hlui, hori, show_s, getDec_numeral 16 _ (by omega), twos_complement_16_nat]
  simp

theorem process_la (ind : Indeterminate) (st : State) (rt crt lab : Str) (A : Int)
    (hrt : (rt, crt) ∈ registerMap) (hlab : is_operand operand_delim lab = true)
    (hfind : hash_find st.hash_table (key_bytes lab) = some A)
    (htext : st.data_reached = false) :
    process_token ind 2 "la".toList (render (register_and_word rt lab) []) st
      = .ok (render (register_and_word rt lab) [],
          { st with
            instruction_count := st.instruction_count + 8,
            Out := st.Out ++ ("001111".toList ++ "00000".toList ++ crt
                ++ binary_numeral 16 (A % 2 ^ 32).toNat ++ "\n".toList)
              ++ ("001101".toList ++ crt ++ crt
                ++ binary_numeral 16 ((A % 2 ^ 32).toNat / 2 ^ 16) ++ "\n".toList) }) := by
  have h1 : search "la".toList ≥ 0 := by decide
  have h2 : search "la".toList ≠ -1 := by decide
  have h4 : instruction_type "la".toList = 'i' := by decide
  have h8 : "la".toList ≠ "nop".toList := by decide
  unfold process_token account
  simp only [h1, if_true, htext]
  unfold pass2_text
  simp only [h2, ne_eq, not_false_eq_true, if_true, h4,
    encode_la_eq ind rt crt lab _ _ A hrt hlab hfind, Except.map, if_neg h8]
  rw [if_neg (by decide), if_neg (by decide)]

/-- The line `la $rt, label` in pass 2: two lines are written, `lui` with the
last 16 digits of the 32 digit rendering of the address of the label and
`ori` with the first 16. -/
theorem la_general (ind : Indeterminate) (st : State) (htext : st.data_reached = false)
    (rt crt lab : Str) (A : Int) (hrt : (rt, crt) ∈ registerMap)
    (ho : is_operand operand_delim lab = true) (hl : is_operand line_delim lab = true)
    (hi : is_inert lab = true) (hlen : lab.length ≤ 200)
    (hfind : hash_find st.hash_table (key_bytes lab) = some A) :
    parse_line ind 2 ("la".toList ++ " $".toList ++ rt ++ ", ".toList ++ lab ++ "\n".toList) st
      = .ok { st with
          instruction_count := st.instruction_count + 8,
          line_num := st.line_num + 1,
          Out := st.Out ++ ("001111".toList ++ "00000".toList ++ crt
              ++ binary_numeral 16 (A % 2 ^ 32).toNat ++ "\n".toList)
            ++ ("001101".toList ++ crt ++ crt
              ++ binary_numeral 16 ((A % 2 ^ 32).toNat / 2 ^ 16) ++ "\n".toList) } := by
  obtain ⟨_, _, hlt, _, hit, hnt, _⟩ := register_facts rt crt hrt
  have hline : "la".toList ++ " $".toList ++ rt ++ ", ".toList ++ lab ++ "\n".toList
      = render (([], "la".toList, ' ') :: register_and_word rt lab) [] := by
    simp [render, register_and_word]
  rw [hline]
  rw [parse_line_mnemonic ind "la".toList (register_and_word rt lab) st _ (by decide)
    (by simp only [register_and_word, well_cut_cons, well_cut_nil, hlt, hl]; decide)
    (by simp [register_and_word, hit, hi])
    (process_la ind st rt crt lab A hrt ho hfind htext)
    htext
    (by simp [render, register_and_word]; omega)]

/-- C3, the code at `la $t0, X` with `X` bound to 0x00002000: the `lui` line
carries the immediate 0010000000000000 and the `ori` line the immediate
0000000000000000, the halves the claim expects the other way round. -/
theorem la_halves_swapped (ind : Indeterminate) :
    parse_line ind 2 "la $t0, X\n".toList
        { start_state with hash_table := table_with "X".toList 0x00002000 }
      = .ok { start_state with
          hash_table := table_with "X".toList 0x00002000,
          instruction_count := 8,
          line_num := 2,
          Out := "00111100000010000010000000000000\n".toList
            ++ "00110101000010000000000000000000\n".toList } := by
  have h := la_general ind { start_state with hash_table := table_with "X".toList 0x00002000 }
    rfl "t0".toList "01000".toList "X".toList 0x00002000 (by decide) (by decide) (by decide)
    (by decide) (by decide) (by decide)
  have e1 : "la".toList ++ " $".toList ++ "t0".toList ++ ", ".toList ++ "X".toList
      ++ "\n".toList = "la $t0, X\n".toList := by decide
  rw [e1] at h
  rw [h]
  exact congrArg Except.ok (by decide)

theorem beq_operand_loop_two (p1 a p2 b : Str) (d1 d2 : Char) (xs : List (Str × Str × Char))
    (tail : Str) (fuel : Nat) (s0 s1 : Str)
    (hw : well_cut operand_delim ((p1, a, d1) :: (p2, b, d2) :: xs) = true) :
    beq_operand_loop (fuel + 2) (render ((p1, a, d1) :: (p2, b, d2) :: xs) tail) [s0, s1] 0
      = .ok ([a, b], render xs tail) := by
  have hw2 := well_cut_tail _ _ _ hw
  simp only [beq_operand_loop, parse_token_render operand_delim p1 a d1 _ tail hw,
    well_cut_head operand_delim p1 a d1 _ hw, if_false,
    parse_token_render operand_delim p2 b d2 _ tail hw2,
    well_cut_head operand_delim p2 b d2 _ hw2]
  simp

theorem encode_beq_eq (ind : Indeterminate) (rs rt crs crt lab Out : Str) (t : hash_table_t)
    (A pc : Int) (hrs : (rs, crs) ∈ registerMap) (hrt : (rt, crt) ∈ registerMap)
    (hlab : is_operand operand_delim lab = true)
    (hfind : hash_find t (key_bytes lab) = some A) :
    encode_beq ind "beq".toList (render (two_and_number rs rt lab) []) pc t Out
      = .ok (Out ++ ("000100".toList ++ crs ++ crt ++ twos_complement 16 (A + pc)
          ++ "\n".toList)) := by
  obtain ⟨hbs, hos, _⟩ := register_facts rs crs hrs
  obtain ⟨hbt, hot, _⟩ := register_facts rt crt hrt
  have hw : well_cut operand_delim (two_and_number rs rt lab) = true := by
    simp only [two_and_number, well_cut_cons, well_cut_nil, hos, hot, hlab]
    decide
  have hw3 : well_cut operand_delim [([' '], lab, '\n')] = true :=
    well_cut_tail _ _ _ (well_cut_tail _ _ _ hw)
  have hfuel : (render (two_and_number rs rt lab) []).length + 1
      = ((render (two_and_number rs rt lab) []).length - 1) + 2 := by
    simp [render, two_and_number]
  have hbeq : last_match iMap "beq".toList = some "000100".toList := by decide
  unfold encode_beq
  rw [hfuel]
  simp only [two_and_number, fresh_slots, List.replicate]
  rw [beq_operand_loop_two _ _ _ _ _ _ _ _ _ _ _ hw]
  simp only [parse_token_render operand_delim [' '] lab '\n' [] [] hw3, hfind, slot,
    List.getD_cons_zero, List.getD_cons_succ, itype_instruction_eq, hbs, hbt, hbeq, show_s]
  rfl

theorem process_beq (ind : Indeterminate) (st : State) (rs rt crs crt lab : Str) (A : Int)
    (hrs : (rs, crs) ∈ registerMap) (hrt : (rt, crt) ∈ registerMap)
    (hlab : is_operand operand_delim lab = true)
    (hfind : hash_find st.hash_table (key_bytes lab) = some A)
    (htext : st.data_reached = false) :
    process_token ind 2 "beq".toList (render (two_and_number rs rt lab) []) st
      = .ok (render (two_and_number rs rt lab) [],
          { st with
            instruction_count := st.instruction_count + 4,
            Out := st.Out ++ ("000100".toList ++ crs ++ crt
              ++ twos_complement 16 (A + (st.instruction_count + 4)) ++ "\n".toList) }) := by
  have h1 : search "beq".toList ≥ 0 := by decide
  have h2 : search "beq".toList ≠ -1 := by decide
  have h3 : "beq".toList ≠ "la".toList := by decide
  have h4 : instruction_type "beq".toList = 'i' := by decide
  have h8 : "beq".toList ≠ "nop".toList := by decide
  have h5 : ("beq".toList = "lw".toList || "beq".toList = "sw".toList) = false := by decide
  have h6 : ("beq".toList = "andi".toList || "beq".toList = "ori".toList
      || "beq".toList = "slti".toList || "beq".toList = "addi".toList) = false := by decide
  have h7 : "beq".toList ≠ "lui".toList := by decide
  unfold process_token account
  simp only [h1, if_true, if_neg h3, htext]
  unfold pass2_text
  simp only [h2, ne_eq, not_false_eq_true, if_true, h4, h5, h6, if_neg h3, if_neg h7,
    encode_beq_eq ind rs rt crs crt lab _ _ A _ hrs hrt hlab hfind, Except.map, if_neg h8]
  rw [if_neg (by decide), if_neg (by decide)]
  simp

theorem beq_general (ind : Indeterminate) (st : State) (htext : st.data_reached = false)
    (rs rt crs crt lab : Str) (A : Int)
    (hrs : (rs, crs) ∈ registerMap) (hrt : (rt, crt) ∈ registerMap)
    (ho : is_operand operand_delim lab = true) (hl : is_operand line_delim lab = true)
    (hi : is_inert lab = true) (hlen : lab.length ≤ 200)
    (hfind : hash_find st.hash_table (key_bytes lab) = some A) :
    parse_line ind 2
        ("beq".toList ++ " $".toList ++ rs ++ ", $".toList ++ rt ++ ", ".toList ++ lab
          ++ "\n".toList) st
      = .ok { st with
          instruction_count := st.instruction_count + 4,
          line_num := st.line_num + 1,
          Out := st.Out ++ ("000100".toList ++ crs ++ crt
            ++ twos_complement 16 (A + (st.instruction_count + 4)) ++ "\n".toList) } := by
  obtain ⟨_, _, hls, _, his, hns, _⟩ := register_facts rs crs hrs
  obtain ⟨_, _, hlt, _, hit, hnt, _⟩ := register_facts rt crt hrt
  have hline : "beq".toList ++ " $".toList ++ rs ++ ", $".toList ++ rt ++ ", ".toList ++ lab
      ++ "\n".toList = render (([], "beq".toList, ' ') :: two_and_number rs rt lab) [] := by
    simp [render, two_and_number]
  rw [hline]
  rw [parse_line_mnemonic ind "beq".toList (two_and_number rs rt lab) st _ (by decide)
    (by simp only [two_and_number, well_cut_cons, well_cut_nil, hls, hlt, hl]; decide)
    (by simp [two_and_number, his, hit, hi])
    (process_beq ind st rs rt crs crt lab A hrs hrt ho hfind htext)
    htext
    (by simp [render, two_and_number]; omega)]

/-- C4 (as amended): in pass 2, in the text segment, the line
`beq $rs, $rt, label` with two names of the register table and a label bound
to the address `A` appends exactly one line, `000100 ++ code(rs) ++ code(rt)`
followed by the 16 bit binary of `(A + P + 4) mod 2^16`, where `P` is the
counter at the start of the line, the address of the `beq` itself: the
counter has been advanced by 4 before the immediate is formed. -/
theorem beq_line (ind : Indeterminate) (st : State) (rs rt crs crt lab : Str) (A : Int)
    (htext : st.data_reached = false)
    (hrs : (rs, crs) ∈ registerMap) (hrt : (rt, crt) ∈ registerMap)
    (hlab : is_label lab = true)
    (hfind : hash_find st.hash_table (key_bytes lab) = some A) :
    parse_line ind 2
        ("beq".toList ++ " $".toList ++ rs ++ ", $".toList ++ rt ++ ", ".toList ++ lab
          ++ "\n".toList) st
      = .ok { st with
          instruction_count := st.instruction_count + 4,
          line_num := st.line_num + 1,
          Out := st.Out ++ ("000100".toList ++ crs ++ crt
            ++ binary_numeral 16 ((A + (st.instruction_count + 4)) % 2 ^ 16).toNat
            ++ "\n".toList) } := by
  simp only [is_label, Bool.and_eq_true, decide_eq_true_eq] at hlab
  obtain ⟨⟨⟨ho, hl⟩, hi⟩, hlen⟩ := hlab
  exact beq_general ind st htext rs rt crs crt lab A hrs hrt ho hl hi hlen hfind

theorem beq_line_witness :
    ({ start_state with
        hash_table := table_with "L1".toList 0, instruction_count := 4 } : State).data_reached
      = false
    ∧ ("t1".toList, "01001".toList) ∈ registerMap ∧ ("t2".toList, "01010".toList) ∈ registerMap
    ∧ is_label "L1".toList = true
    ∧ hash_find (table_with "L1".toList 0) (key_bytes "L1".toList) = some 0
    ∧ parse_line sample_ind 2
        ("beq".toList ++ " $".toList ++ "t1".toList ++ ", $".toList ++ "t2".toList
          ++ ", ".toList ++ "L1".toList ++ "\n".toList)
        { start_state with hash_table := table_with "L1".toList 0, instruction_count := 4 }
      = .ok { ({ start_state with
                  hash_table := table_with "L1".toList 0, instruction_count := 4 } : State) with
          instruction_count := 4 + 4,
          line_num := 1 + 1,
          Out := [] ++ ("000100".toList ++ "01001".toList ++ "01010".toList
            ++ binary_numeral 16 (((0 : Int) + (4 + 4)) % 2 ^ 16).toNat ++ "\n".toList) } :=
  ⟨rfl, by decide, by decide, by decide, by decide,
    beq_line sample_ind
      { start_state with hash_table := table_with "L1".toList 0, instruction_count := 4 }
      "t1".toList "t2".toList "01001".toList "01010".toList "L1".toList 0 rfl (by decide)
      (by decide) (by decide) (by decide)⟩

/-- C4 as the claim words it fails: for the one-line program
`L1: beq $t1, $t2, L1` pass 1 binds `L1` to the address of the `beq`, so
`A = P = 0`, and pass 2 writes the immediate 4, not `(A + P) mod 2^16 = 0`. -/
theorem beq_line_counterexample :
    ∃ s1 s2 : State,
      parse_file sample_ind "L1: beq $t1, $t2, L1\n".toList 1 (create_hash_table 127) [] = .ok s1
      ∧ hash_find s1.hash_table (key_bytes "L1".toList) = some 0
      ∧ parse_file sample_ind "L1: beq $t1, $t2, L1\n".toList 2 s1.hash_table [] = .ok s2
      ∧ s2.Out = "00010001001010100000000000000100\n".toList
      ∧ s2.Out ≠ "00010001001010100000000000000000\n".toList := by
  refine ⟨_, _, rfl, ?_, rfl, ?_, ?_⟩ <;> decide

theorem mnemonic_facts_shift (m f : Str)
    (hm : m ∈ ["sll".toList, "srl".toList]) (hf : (m, f) ∈ rMap) :
    search m ≥ 0 ∧ search m ≠ -1 ∧ m ≠ "la".toList ∧ instruction_type m = 'r'
      ∧ (m = "add".toList || m = "sub".toList || m = "and".toList || m = "or".toList
          || m = "slt".toList) = false
      ∧ (m = "sll".toList || m = "srl".toList) = true
      ∧ last_match rMap m = some f ∧ m ≠ "nop".toList ∧ is_operand line_delim m = true
      ∧ m.length ≤ 4 := by
  simp only [List.mem_cons, List.mem_singleton, List.not_mem_nil, or_false] at hm
  simp only [rMap, List.mem_cons, Prod.mk.injEq, List.mem_singleton, List.not_mem_nil,
    or_false] at hf
  rcases hm with rfl | rfl <;>
    rcases hf with h | h | h | h | h | h | h | h <;>
    first
      | exact absurd h.1 (by decide)
      | (obtain ⟨_, rfl⟩ := h; decide)

theorem encode_shift_eq (ind : Indeterminate) (m f rd rs crd crs Out : Str) (sh : Int)
    (hlast : last_match rMap m = some f)
    (hrd : (rd, crd) ∈ registerMap) (hrs : (rs, crs) ∈ registerMap) :
    encode_shift ind m (render (two_and_number rd rs (int_text sh)) []) Out
      = .ok (Out ++ ("000000".toList ++ "00000".toList ++ crs ++ crd ++ twos_complement 5 sh
          ++ f ++ "\n".toList)) := by
  obtain ⟨hbd, hod, _⟩ := register_facts rd crd hrd
  obtain ⟨hbs, hos, _⟩ := register_facts rs crs hrs
  obtain ⟨hon, _⟩ := numeral_facts sh
  have hw : well_cut operand_delim (two_and_number rd rs (int_text sh)) = true := by
    simp only [two_and_number, well_cut_cons, well_cut_nil, hod, hos, hon]
    decide
  have hz : reg_bin "00000".toList = some "00000".toList := by decide
  unfold encode_shift
  rw [operand_loop_render operand_delim _ [] _ _ 0 hw rfl (by omega)
    (by simp [two_and_number, fresh_slots])]
  simp only [two_and_number, List.map_cons, List.map_nil, slot_store_3, slot,
    List.getD_cons_zero, List.getD_cons_succ, rtype_instruction_eq, hbd, hbs, hz, hlast, show_s,
    atoi_int_text, twos_complement_5_wrap]
  rfl

theorem process_shift (ind : Indeterminate) (st : State)
    (m f rd rs crd crs : Str) (sh : Int)
    (hm : m ∈ ["sll".toList, "srl".toList]) (hf : (m, f) ∈ rMap)
    (hrd : (rd, crd) ∈ registerMap) (hrs : (rs, crs) ∈ registerMap)
    (htext : st.data_reached = false) :
    process_token ind 2 m (render (two_and_number rd rs (int_text sh)) []) st
      = .ok (render (two_and_number rd rs (int_text sh)) [],
          { st with
            instruction_count := st.instruction_count + 4,
            Out := st.Out ++ ("000000".toList ++ "00000".toList ++ crs ++ crd
              ++ twos_complement 5 sh ++ f ++ "\n".toList) }) := by
  obtain ⟨h1, h2, h3, h4, h5, h6, h7, h8, _, _⟩ := mnemonic_facts_shift m f hm hf
  unfold process_token account
  simp only [h1, if_true, if_neg h3, htext]
  unfold pass2_text
  simp only [h2, ne_eq, not_false_eq_true, if_true, h4, h5, h6,
    encode_shift_eq ind m f rd rs crd crs _ sh h7 hrd hrs, Except.map, if_neg h8]
  rw [if_neg (by decide)]
  simp

theorem shift_general (ind : Indeterminate) (st : State)
    (htext : st.data_reached = false) (m f rd rs crd crs : Str) (sh : Int)
    (hm : m ∈ ["sll".toList, "srl".toList]) (hf : (m, f) ∈ rMap)
    (hrd : (rd, crd) ∈ registerMap) (hrs : (rs, crs) ∈ registerMap)
    (hsh : -2 ^ 31 ≤ sh ∧ sh < 2 ^ 31) :
    parse_line ind 2
        (m ++ " $".toList ++ rd ++ ", $".toList ++ rs ++ ", ".toList ++ int_text sh
          ++ "\n".toList) st
      = .ok { st with
          instruction_count := st.instruction_count + 4,
          line_num := st.line_num + 1,
          Out := st.Out ++ ("000000".toList ++ "00000".toList ++ crs ++ crd
            ++ twos_complement 5 sh ++ f ++ "\n".toList) } := by
  obtain ⟨_, _, _, _, _, _, _, _, hop, hml⟩ := mnemonic_facts_shift m f hm hf
  obtain ⟨_, _, hld, _, hid, hnd, _⟩ := register_facts rd crd hrd
  obtain ⟨_, _, hls, _, his, hns, _⟩ := register_facts rs crs hrs
  obtain ⟨_, hln, _, hin, _⟩ := numeral_facts sh
  have hnl := int_text_length sh hsh
  have hline : m ++ " $".toList ++ rd ++ ", $".toList ++ rs ++ ", ".toList ++ int_text sh
      ++ "\n".toList = render (([], m, ' ') :: two_and_number rd rs (int_text sh)) [] := by
    simp [render, two_and_number]
  rw [hline]
  rw [parse_line_mnemonic ind m (two_and_number rd rs (int_text sh)) st _ hop
    (by simp only [two_and_number, well_cut_cons, well_cut_nil, hld, hls, hln]; decide)
    (by simp [two_and_number, hid, his, hin])
    (process_shift ind st m f rd rs crd crs sh hm hf hrd hrs htext)
    htext
    (by simp [render, two_and_number]; omega)]

/-- C5 (as amended): in pass 2, in the text segment, the line `m $rd, $rs, sh`
with `m` one of `sll srl`, two names of the register table and the decimal
numeral of a 32 bit integer `sh` appends exactly one line,
`000000 ++ 00000 ++ code(rs) ++ code(rd)` followed by the 5 bit binary of `sh`
and `funct(m)`: the `rs` field is forced to `00000` and the second source
operand is placed in the `rt` field. -/
theorem shift_line (ind : Indeterminate) (st : State) (m f rd rs crd crs : Str) (sh : Int)
    (htext : st.data_reached = false)
    (hm : m ∈ ["sll".toList, "srl".toList]) (hf : (m, f) ∈ rMap)
    (hrd : (rd, crd) ∈ registerMap) (hrs : (rs, crs) ∈ registerMap)
    (hsh : -2 ^ 31 ≤ sh ∧ sh < 2 ^ 31) :
    parse_line ind 2
        (m ++ " $".toList ++ rd ++ ", $".toList ++ rs ++ ", ".toList ++ int_text sh
          ++ "\n".toList) st
      = .ok { st with
          instruction_count := st.instruction_count + 4,
          line_num := st.line_num + 1,
          Out := st.Out ++ ("000000".toList ++ "00000".toList ++ crs ++ crd
            ++ binary_numeral 5 (sh % 2 ^ 5).toNat ++ f ++ "\n".toList) } :=
  shift_general ind st htext m f rd rs crd crs sh hm hf hrd hrs hsh

theorem shift_line_witness :
    start_state.data_reached = false
    ∧ "srl".toList ∈ ["sll".toList, "srl".toList] ∧ ("srl".toList, "000010".toList) ∈ rMap
    ∧ ("s1".toList, "10001".toList) ∈ registerMap ∧ ("a0".toList, "00100".toList) ∈ registerMap
    ∧ (-2 ^ 31 ≤ (31 : Int) ∧ (31 : Int) < 2 ^ 31)
    ∧ parse_line sample_ind 2
          ("srl".toList ++ " $".toList ++ "s1".toList ++ ", $".toList ++ "a0".toList
            ++ ", ".toList ++ int_text 31 ++ "\n".toList) start_state
        = .ok { start_state with
            instruction_count := start_state.instruction_count + 4,
            line_num := start_state.line_num + 1,
            Out := start_state.Out ++ ("000000".toList ++ "00000".toList ++ "00100".toList
              ++ "10001".toList ++ binary_numeral 5 ((31 : Int) % 2 ^ 5).toNat
              ++ "000010".toList ++ "\n".toList) } :=
  ⟨rfl, by decide, by decide, by decide, by decide, by decide,
    shift_line sample_ind start_state "srl".toList "000010".toList "s1".toList "a0".toList
      "10001".toList "00100".toList 31 rfl (by decide) (by decide) (by decide) (by decide)
      (by decide)⟩

/-- C5 as the claim words it fails: `sll $t0, $t1, 2` gives
`000000 00000 01001 01000 00010 000000`, with `code(t1)` in the `rt` field, not
`000000 01001 00000 01000 00010 000000`. -/
theorem shift_line_counterexample :
    ∃ s : State, parse_line sample_ind 2 "sll $t0, $t1, 2\n".toList start_state = .ok s
      ∧ s.Out = "00000000000010010100000010000000\n".toList
      ∧ s.Out ≠ "00000001001000000100000010000000\n".toList := by
  have h := shift_general sample_ind start_state rfl "sll".toList "000000".toList "t0".toList
    "t1".toList "01000".toList "01001".toList 2 (by decide) (by decide) (by decide) (by decide)
    (by decide)
  have e1 : "sll".toList ++ " $".toList ++ "t0".toList ++ ", $".toList ++ "t1".toList
      ++ ", ".toList ++ int_text 2 ++ "\n".toList = "sll $t0, $t1, 2\n".toList := by decide
  rw [e1] at h
  exact ⟨_, h, by decide, by decide⟩

theorem memory_operands_render (a n b : Str) :
    render (memory_operands_outer a n b) [] = render (memory_operands_inner a n b) ['\n'] := by
  simp [render, memory_operands_outer, memory_operands_inner]

theorem mnemonic_facts_memory (m op : Str)
    (hm : m ∈ ["lw".toList, "sw".toList]) (hf : (m, op) ∈ iMap) :
    search m ≥ 0 ∧ search m ≠ -1 ∧ m ≠ "la".toList ∧ instruction_type m = 'i'
      ∧ (m = "lw".toList || m = "sw".toList) = true
      ∧ last_match iMap m = some op ∧ m ≠ "nop".toList ∧ is_operand line_delim m = true
      ∧ m.length ≤ 4 := by
  simp only [List.mem_cons, List.mem_singleton, List.not_mem_nil, or_false] at hm
  simp only [iMap, List.mem_cons, Prod.mk.injEq, List.mem_singleton, List.not_mem_nil,
    or_false] at hf
  rcases hm with rfl | rfl <;>
    rcases hf with h | h | h | h | h | h | h | h <;>
    first
      | exact absurd h.1 (by decide)
      | (obtain ⟨_, rfl⟩ := h; decide)

theorem encode_memory_eq (ind : Indeterminate) (m op rt rs crt crs Out : Str) (imm : Int)
    (hlast : last_match iMap m = some op)
    (hrt : (rt, crt) ∈ registerMap) (hrs : (rs, crs) ∈ registerMap) :
    encode_memory ind m (render (memory_operands_outer rt (int_text imm) rs) []) Out
      = .ok (Out ++ (op ++ crs ++ crt ++ twos_complement 16 imm ++ "\n".toList)) := by
  obtain ⟨hbt, _, _, hot, _⟩ := register_facts rt crt hrt
  obtain ⟨hbs, _, _, hos, _⟩ := register_facts rs crs hrs
  obtain ⟨_, _, hon, _⟩ := numeral_facts imm
  have hw : well_cut memory_delim (memory_operands_inner rt (int_text imm) rs) = true := by
    simp only [memory_operands_inner, well_cut_cons, well_cut_nil, hot, hos, hon]
    decide
  unfold encode_memory
  rw [memory_operands_render]
  rw [operand_loop_render memory_delim _ ['\n'] _ _ 0 hw rfl (by omega)
    (by simp [memory_operands_inner, fresh_slots])]
  simp only [memory_operands_inner, List.map_cons, List.map_nil, slot_store_3, slot,
    List.getD_cons_zero, List.getD_cons_succ, itype_instruction_eq, hbt, hbs, hlast, show_s,
    atoi_int_text, twos_complement_16_wrap]
  rfl

theorem process_memory (ind : Indeterminate) (st : State)
    (m op rt rs crt crs : Str) (imm : Int)
    (hm : m ∈ ["lw".toList, "sw".toList]) (hf : (m, op) ∈ iMap)
    (hrt : (rt, crt) ∈ registerMap) (hrs : (rs, crs) ∈ registerMap)
    (htext : st.data_reached = false) :
    process_token ind 2 m (render (memory_operands_outer rt (int_text imm) rs) []) st
      = .ok (render (memory_operands_outer rt (int_text imm) rs) [],
          { st with
            instruction_count := st.instruction_count + 4,
            Out := st.Out ++ (op ++ crs ++ crt ++ twos_complement 16 imm ++ "\n".toList) }) := by
  obtain ⟨h1, h2, h3, h4, h5, h7, h8, _, _⟩ := mnemonic_facts_memory m op hm hf
  unfold process_token account
  simp only [h1, if_true, if_neg h3, htext]
  unfold pass2_text
  simp only [h2, ne_eq, not_false_eq_true, if_true, h4, h5,
    encode_memory_eq ind m op rt rs crt crs _ imm h7 hrt hrs, Except.map,
    if_neg h8, if_neg h3]
  rw [if_neg (by decide), if_neg (by decide)]

theorem memory_general (ind : Indeterminate) (st : State)
    (htext : st.data_reached = false) (m op rt rs crt crs : Str) (imm : Int)
    (hm : m ∈ ["lw".toList, "sw".toList])
    (hf : (m, op) ∈ iMap) (hrt : (rt, crt) ∈ registerMap) (hrs : (rs, crs) ∈ registerMap)
    (himm : -2 ^ 31 ≤ imm ∧ imm < 2 ^ 31) :
    parse_line ind 2
        (m ++ " $".toList ++ rt ++ ", ".toList ++ int_text imm ++ "($".toList ++ rs
          ++ ")\n".toList) st
      = .ok { st with
          instruction_count := st.instruction_count + 4,
          line_num := st.line_num + 1,
          Out := st.Out ++ (op ++ crs ++ crt ++ twos_complement 16 imm ++ "\n".toList) } := by
  obtain ⟨_, _, _, _, _, _, _, hop, hml⟩ := mnemonic_facts_memory m op hm hf
  obtain ⟨_, _, hlt, _, hit, hnt, _⟩ := register_facts rt crt hrt
  obtain ⟨_, _, _, _, _, hns, hip, hlp⟩ := register_facts rs crs hrs
  obtain ⟨_, _, _, _, hln, hin⟩ := numeral_facts imm
  have hnl := int_text_length imm himm
  have hline : m ++ " $".toList ++ rt ++ ", ".toList ++ int_text imm ++ "($".toList ++ rs
      ++ ")\n".toList
      = render (([], m, ' ') :: memory_operands_outer rt (int_text imm) rs) [] := by
    simp [render, memory_operands_outer]
  rw [hline]
  rw [parse_line_mnemonic ind m (memory_operands_outer rt (int_text imm) rs) st _ hop
    (by simp only [memory_operands_outer, well_cut_cons, well_cut_nil, hlt, hlp, hln]; decide)
    (by simp [memory_operands_outer, hit, hip, hin])
    (process_memory ind st m op rt rs crt crs imm hm hf hrt hrs htext)
    htext
    (by simp [render, memory_operands_outer]; omega)]

/-- C6: in pass 2, in the text segment, the line `m $rt, imm($rs)` with `m` one
of `lw sw`, two names of the register table and the decimal numeral of a 32
bit integer `imm` appends exactly one line, `opcode(m) ++ code(rs) ++ code(rt)`
followed by the 16 bit two's complement binary of `imm`, advances the counter
by 4 and counts the line. -/
theorem memory_line (ind : Indeterminate) (st : State) (m op rt rs crt crs : Str) (imm : Int)
    (htext : st.data_reached = false)
    (hm : m ∈ ["lw".toList, "sw".toList])
    (hf : (m, op) ∈ iMap) (hrt : (rt, crt) ∈ registerMap) (hrs : (rs, crs) ∈ registerMap)
    (himm : -2 ^ 31 ≤ imm ∧ imm < 2 ^ 31) :
    parse_line ind 2
        (m ++ " $".toList ++ rt ++ ", ".toList ++ int_text imm ++ "($".toList ++ rs
          ++ ")\n".toList) st
      = .ok { st with
          instruction_count := st.instruction_count + 4,
          line_num := st.line_num + 1,
          Out := st.Out ++ (op ++ crs ++ crt ++ binary_numeral 16 (imm % 2 ^ 16).toNat
            ++ "\n".toList) } :=
  memory_general ind st htext m op rt rs crt crs imm hm hf hrt hrs himm

theorem memory_line_witness :
    start_state.data_reached = false
    ∧ "sw".toList ∈ ["lw".toList, "sw".toList] ∧ ("sw".toList, "101011".toList) ∈ iMap
    ∧ ("t0".toList, "01000".toList) ∈ registerMap ∧ ("s7".toList, "10111".toList) ∈ registerMap
    ∧ (-2 ^ 31 ≤ (-4 : Int) ∧ (-4 : Int) < 2 ^ 31)
    ∧ parse_line sample_ind 2
          ("sw".toList ++ " $".toList ++ "t0".toList ++ ", ".toList ++ int_text (-4)
            ++ "($".toList ++ "s7".toList ++ ")\n".toList) start_state
        = .ok { start_state with
            instruction_count := start_state.instruction_count + 4,
            line_num := start_state.line_num + 1,
            Out := start_state.Out ++ ("101011".toList ++ "10111".toList ++ "01000".toList
              ++ binary_numeral 16 ((-4 : Int) % 2 ^ 16).toNat ++ "\n".toList) } :=
  ⟨rfl, by decide, by decide, by decide, by decide, by decide,
    memory_line sample_ind start_state "sw".toList "101011".toList "t0".toList "s7".toList
      "01000".toList "10111".toList (-4) rfl (by decide) (by decide) (by decide) (by decide)
      (by decide)⟩

/-- C7: for `j` and `jal` and every address `A`, `jtype_instruction(m, A, Out)`
appends exactly one line to `Out`: the opcode of `m` followed by the 26 digit
binary numeral of `A mod 2^26`, most significant bit first; the address is
neither shifted nor scaled.  The opcode of `j` is `000010`, that of `jal` is
`000011`. -/
theorem jtype_instruction_line (ind : Indeterminate) (A : Int) (Out : Str) :
    jtype_instruction ind "j".toList A Out
        = .ok (Out ++ ("000010".toList ++ binary_numeral 26 (A % 2 ^ 26).toNat ++ "\n".toList))
    ∧ jtype_instruction ind "jal".toList A Out
        = .ok (Out ++ ("000011".toList ++ binary_numeral 26 (A % 2 ^ 26).toNat ++ "\n".toList))
    ∧ (∀ m op : Str, (m, op) ∈ jMap →
        jtype_instruction ind m A Out
          = .ok (Out ++ (op ++ binary_numeral 26 (A % 2 ^ 26).toNat ++ "\n".toList))) := by
  have hj : last_match jMap "j".toList = some "000010".toList := by decide
  have hjal : last_match jMap "jal".toList = some "000011".toList := by decide
  refine ⟨?_, ?_, ?_⟩
  · rw [jtype_instruction_eq, hj]; rfl
  · rw [jtype_instruction_eq, hjal]; rfl
  · intro m op hm
    simp only [jMap, List.mem_cons, Prod.mk.injEq, List.mem_singleton, List.not_mem_nil,
      or_false] at hm
    rcases hm with ⟨rfl, rfl⟩ | ⟨rfl, rfl⟩
    · rw [jtype_instruction_eq, hj]; rfl
    · rw [jtype_instruction_eq, hjal]; rfl

theorem encode_jr_eq (ind : Indeterminate) (rs crs Out : Str) (hrs : (rs, crs) ∈ registerMap) :
    encode_jr ind "jr".toList (render [(['$'], rs, '\n')] []) Out
      = .ok (Out ++ ("000000".toList ++ crs ++ "00000".toList ++ "00000".toList
          ++ "00000".toList ++ "001000".toList ++ "\n".toList)) := by
  obtain ⟨hbs, hos, _⟩ := register_facts rs crs hrs
  have hw : well_cut operand_delim [(['$'], rs, '\n')] = true := by
    simp only [well_cut_cons, well_cut_nil, hos]
    decide
  have hz : reg_bin "00000".toList = some "00000".toList := by decide
  have hjr : last_match rMap "jr".toList = some "001000".toList := by decide
  have h0 : twos_complement 5 0 = "00000".toList := by decide
  unfold encode_jr
  simp only [parse_token_render operand_delim ['$'] rs '\n' [] [] hw, rtype_instruction_eq,
    hbs, hz, hjr, show_s, h0]
  rfl

theorem process_jr (ind : Indeterminate) (st : State) (rs crs : Str)
    (hrs : (rs, crs) ∈ registerMap) (htext : st.data_reached = false) :
    process_token ind 2 "jr".toList (render [(['$'], rs, '\n')] []) st
      = .ok (render [(['$'], rs, '\n')] [],
          { st with
            instruction_count := st.instruction_count + 4,
            Out := st.Out ++ ("000000".toList ++ crs ++ "00000".toList ++ "00000".toList
              ++ "00000".toList ++ "001000".toList ++ "\n".toList) }) := by
  have h1 : search "jr".toList ≥ 0 := by decide
  have h2 : search "jr".toList ≠ -1 := by decide
  have h3 : "jr".toList ≠ "la".toList := by decide
  have h4 : instruction_type "jr".toList = 'r' := by decide
  have h8 : "jr".toList ≠ "nop".toList := by decide
  have h5 : ("jr".toList = "add".toList || "jr".toList = "sub".toList
      || "jr".toList = "and".toList || "jr".toList = "or".toList
      || "jr".toList = "slt".toList) = false := by decide
  have h6 : ("jr".toList = "sll".toList || "jr".toList = "srl".toList) = false := by decide
  unfold process_token account
  simp only [h1, if_true, if_neg h3, htext]
  unfold pass2_text
  simp only [h2, ne_eq, not_false_eq_true, if_true, h4, h5, h6,
    encode_jr_eq ind rs crs _ hrs, Except.map, if_neg h8]
  rw [if_neg (by decide)]
  simp

theorem jr_general (ind : Indeterminate) (st : State) (htext : st.data_reached = false)
    (rs crs : Str) (hrs : (rs, crs) ∈ registerMap) :
    parse_line ind 2 ("jr".toList ++ " $".toList ++ rs ++ "\n".toList) st
      = .ok { st with
          instruction_count := st.instruction_count + 4,
          line_num := st.line_num + 1,
          Out := st.Out ++ ("000000".toList ++ crs ++ "00000".toList ++ "00000".toList
            ++ "00000".toList ++ "001000".toList ++ "\n".toList) } := by
  obtain ⟨_, _, hls, _, his, hns, _⟩ := register_facts rs crs hrs
  have hline : "jr".toList ++ " $".toList ++ rs ++ "\n".toList
      = render (([], "jr".toList, ' ') :: [(['$'], rs, '\n')]) [] := by
    simp [render]
  rw [hline]
  rw [parse_line_mnemonic ind "jr".toList [(['$'], rs, '\n')] st _ (by decide)
    (by simp only [well_cut_cons, well_cut_nil, hls]; decide)
    (by simp [his])
    (process_jr ind st rs crs hrs htext)
    htext
    (by simp [render]; omega)]

/-- C9: in pass 2, in the text segment, the line `jr $rs` with a name of the
register table appends exactly one line,
`000000 ++ code(rs) ++ 00000 ++ 00000 ++ 00000 ++ 001000`: `rt`, `rd` and the
shift amount are all zero. -/
theorem jr_line (ind : Indeterminate) (st : State) (rs crs : Str)
    (htext : st.data_reached = false) (hrs : (rs, crs) ∈ registerMap) :
    parse_line ind 2 ("jr".toList ++ " $".toList ++ rs ++ "\n".toList) st
      = .ok { st with
          instruction_count := st.instruction_count + 4,
          line_num := st.line_num + 1,
          Out := st.Out ++ ("000000".toList ++ crs ++ "00000".toList ++ "00000".toList
            ++ "00000".toList ++ "001000".toList ++ "\n".toList) } :=
  jr_general ind st htext rs crs hrs

theorem jr_line_witness :
    start_state.data_reached = false ∧ ("t3".toList, "01011".toList) ∈ registerMap
    ∧ parse_line sample_ind 2 ("jr".toList ++ " $".toList ++ "t3".toList ++ "\n".toList)
          start_state
        = .ok { start_state with
            instruction_count := start_state.instruction_count + 4,
            line_num := start_state.line_num + 1,
            Out := start_state.Out ++ ("000000".toList ++ "01011".toList ++ "00000".toList
              ++ "00000".toList ++ "00000".toList ++ "001000".toList ++ "\n".toList) } :=
  ⟨rfl, by decide, jr_line sample_ind start_state "t3".toList "01011".toList rfl (by decide)⟩

/-- C10: for a width `w` among 5, 16, 26, 32, every integer `n` and every
buffer `str` of more than `w` characters, `getBin(n, str, w)` leaves in the
buffer exactly `w` characters, each `0` or `1`, then the terminator, then the
rest of the buffer untouched; the character at position `i` is the bit of
weight `2^(w-1-i)` of `n mod 2^w`, that is, the `w` characters are the `w`
digit binary numeral of `n mod 2^w`, and they are the string read back from
the buffer. -/
theorem getBin_writes_numeral (ind : Indeterminate) (n : Int) (str : List Char) (w : Nat)
    (hw : w = 5 ∨ w = 16 ∨ w = 26 ∨ w = 32) (hlen : w < str.length) :
    ∃ digits : Str,
      getBin ind n str w = .ok (digits ++ Char.ofNat 0 :: str.drop (w + 1))
      ∧ digits.length = w
      ∧ (∀ c ∈ digits, c = '0' ∨ c = '1')
      ∧ (∀ i, i < w →
          digits[i]? = some (if (n % 2 ^ w).toNat / 2 ^ (w - 1 - i) % 2 = 1 then '1' else '0'))
      ∧ digits = binary_numeral w (n % 2 ^ w).toNat
      ∧ c_str (digits ++ Char.ofNat 0 :: str.drop (w + 1)) = digits :=
  ⟨twos_complement w n, getBin_ok ind n str w hw hlen, binary_numeral_length _ _,
    binary_numeral_chars _ _, fun i hi => binary_numeral_digit w _ i hi, rfl,
    c_str_digits _ _ (binary_numeral_chars _ _)⟩

theorem getBin_writes_numeral_witness :
    ((16 : Nat) = 5 ∨ (16 : Nat) = 16 ∨ (16 : Nat) = 26 ∨ (16 : Nat) = 32)
    ∧ 16 < (List.replicate 17 'x').length
    ∧ ∃ digits : Str,
      getBin sample_ind (-1) (List.replicate 17 'x') 16
        = .ok (digits ++ Char.ofNat 0 :: (List.replicate 17 'x').drop (16 + 1))
      ∧ digits.length = 16
      ∧ (∀ c ∈ digits, c = '0' ∨ c = '1')
      ∧ (∀ i, i < 16 →
          digits[i]? = some (if ((-1 : Int) % 2 ^ 16).toNat / 2 ^ (16 - 1 - i) % 2 = 1
            then '1' else '0'))
      ∧ digits = binary_numeral 16 ((-1 : Int) % 2 ^ 16).toNat
      ∧ c_str (digits ++ Char.ofNat 0 :: (List.replicate 17 'x').drop (16 + 1)) = digits :=
  ⟨by decide, by decide,
    getBin_writes_numeral sample_ind (-1) (List.replicate 17 'x') 16 (by decide) (by decide)⟩

/-! ## hash_table.h -/

theorem hash_find_chain_append (chain : List hash_entry_t) (e : hash_entry_t) (key : List Nat) :
    hash_find_chain (chain ++ [e]) key
      = match hash_find_chain chain key with
        | some a => some a
        | none => if key.length = e.key_len ∧ e.key.take key.length = key then some e.data
                  else none := by
  induction chain with
  | nil => simp [hash_find_chain]
  | cons c chain ih =>
    simp only [List.cons_append, hash_find_chain]
    split
    · rfl
    · exact ih

theorem valid_table_iff (t : hash_table_t) :
    valid_table t = true ↔ t.row.length = t.size ∧ 0 < t.size := by
  simp [valid_table]

theorem hash_insert_valid (t : hash_table_t) (k : List Nat) (d : Int)
    (h : valid_table t = true) : valid_table (hash_insert t k d).2 = true := by
  rw [valid_table_iff] at h ⊢
  simp only [hash_insert, List.length_modify]
  exact h

theorem hash_insert_row (t : hash_table_t) (k : List Nat) (d : Int) (i : Nat) :
    (hash_insert t k d).2.row.getD i []
      = if hash k 7 % t.size = i ∧ i < t.row.length then
          t.row.getD i [] ++ [{ key := k, data := d, key_len := k.length }]
        else t.row.getD i [] := by
  simp only [hash_insert, List.getD_eq_getElem?_getD, List.getElem?_modify]
  by_cases hi : i < t.row.length
  · rw [List.getElem?_eq_getElem hi]
    by_cases he : hash k 7 % t.size = i
    · simp [he, hi]
    · simp [he]
  · rw [List.getElem?_eq_none (by omega)]
    simp [hi]

/-- An insertion does not change what `hash_find` returns for a bound key. -/
theorem hash_find_insert_bound (t : hash_table_t) (k k1 : List Nat) (d a : Int)
    (hf : hash_find t k1 = some a) : hash_find (hash_insert t k d).2 k1 = some a := by
  unfold hash_find at hf ⊢
  have hs : (hash_insert t k d).2.size = t.size := rfl
  rw [hs, hash_insert_row]
  split
  · rw [hash_find_chain_append, hf]
  · exact hf

/-- An insertion binds a key that was not bound. -/
theorem hash_find_insert_fresh (t : hash_table_t) (k : List Nat) (d : Int)
    (hv : valid_table t = true) (hf : hash_find t k = none) :
    hash_find (hash_insert t k d).2 k = some d := by
  rw [valid_table_iff] at hv
  unfold hash_find at hf ⊢
  have hs : (hash_insert t k d).2.size = t.size := rfl
  have hlt : hash k 7 % t.size < t.row.length := by
    rw [hv.1]; exact Nat.mod_lt _ hv.2
  rw [hs, hash_insert_row, if_pos ⟨rfl, hlt⟩, hash_find_chain_append, hf]
  simp

theorem insert_all_valid (others : List (List Nat × Int)) : ∀ t : hash_table_t,
    valid_table t = true → valid_table (insert_all t others) = true := by
  induction others with
  | nil => intro t h; exact h
  | cons x xs ih =>
    intro t h
    obtain ⟨k, d⟩ := x
    exact ih _ (hash_insert_valid t k d h)

theorem hash_find_insert_all (others : List (List Nat × Int)) : ∀ (t : hash_table_t)
    (k1 : List Nat) (a : Int), hash_find t k1 = some a →
    hash_find (insert_all t others) k1 = some a := by
  induction others with
  | nil => intro t k1 a h; exact h
  | cons x xs ih =>
    intro t k1 a h
    obtain ⟨k, d⟩ := x
    exact ih _ k1 a (hash_find_insert_bound t k k1 d a h)

theorem earliest_wins_general (t : hash_table_t) (k : List Nat) (a1 a2 : Int)
    (others : List (List Nat × Int))
    (hv : valid_table t = true) (hfresh : hash_find t k = none) :
    (hash_insert t k a1).1 = 1
    ∧ (hash_insert (insert_all (hash_insert t k a1).2 others) k a2).1 = 1
    ∧ hash_find (hash_insert (insert_all (hash_insert t k a1).2 others) k a2).2 k = some a1 :=
  ⟨rfl, rfl, hash_find_insert_bound _ _ _ _ _
    (hash_find_insert_all others _ k a1 (hash_find_insert_fresh t k a1 hv hfresh))⟩

/-- C18 (as amended): for every table `t` with its `size` buckets in which the
key `k` is not bound, after `hash_insert(t, k, a1)`, any run of further
insertions and `hash_insert(t, k, a2)`, both insertions of `k` report TRUE and
`hash_find(t, k)` returns `a1`; and for every table an insertion leaves the
result of `hash_find` as it was for every key that was bound. -/
theorem earliest_definition_wins (t : hash_table_t) (k : List Nat) (a1 a2 : Int)
    (others : List (List Nat × Int))
    (hv : valid_table t = true) (hfresh : hash_find t k = none) :
    ((hash_insert t k a1).1 = 1
      ∧ (hash_insert (insert_all (hash_insert t k a1).2 others) k a2).1 = 1
      ∧ hash_find (hash_insert (insert_all (hash_insert t k a1).2 others) k a2).2 k = some a1)
    ∧ (∀ (u : hash_table_t) (key bound : List Nat) (d a : Int),
        hash_find u bound = some a → hash_find (hash_insert u key d).2 bound = some a) :=
  ⟨earliest_wins_general t k a1 a2 others hv hfresh,
    fun u key bound d a h => hash_find_insert_bound u key bound d a h⟩

set_option maxRecDepth 20000 in
theorem earliest_definition_wins_witness :
    valid_table (create_hash_table 127) = true
    ∧ hash_find (create_hash_table 127) (key_bytes "L1".toList) = none
    ∧ ((hash_insert (create_hash_table 127) (key_bytes "L1".toList) 4).1 = 1
      ∧ (hash_insert (insert_all (hash_insert (create_hash_table 127)
            (key_bytes "L1".toList) 4).2 [(key_bytes "L2".toList, 8)])
          (key_bytes "L1".toList) 12).1 = 1
      ∧ hash_find (hash_insert (insert_all (hash_insert (create_hash_table 127)
            (key_bytes "L1".toList) 4).2 [(key_bytes "L2".toList, 8)])
          (key_bytes "L1".toList) 12).2 (key_bytes "L1".toList) = some 4)
    ∧ (∀ (u : hash_table_t) (key bound : List Nat) (d a : Int),
        hash_find u bound = some a → hash_find (hash_insert u key d).2 bound = some a) :=
  ⟨by decide, by decide,
    earliest_definition_wins (create_hash_table 127) (key_bytes "L1".toList) 4 12
      [(key_bytes "L2".toList, 8)] (by decide) (by decide)⟩

set_option maxRecDepth 20000 in
/-- C18 as the claim words it, for every table, fails on a table that binds
the key already: with `x` bound to 0, inserting `x` with 4 and then with 8
leaves `hash_find` at 0, not at the first of the two addresses. -/
theorem earliest_definition_wins_counterexample :
    valid_table (table_with "x".toList 0) = true
    ∧ (4 : Int) ≠ 8
    ∧ hash_find (hash_insert (hash_insert (table_with "x".toList 0)
          (key_bytes "x".toList) 4).2 (key_bytes "x".toList) 8).2 (key_bytes "x".toList)
        = some 0
    ∧ hash_find (hash_insert (hash_insert (table_with "x".toList 0)
          (key_bytes "x".toList) 4).2 (key_bytes "x".toList) 8).2 (key_bytes "x".toList)
        ≠ some 4 := by
  refine ⟨?_, ?_, ?_, ?_⟩ <;> decide

/-! ## What a round of the token loop may change -/

theorem pass2_text_frame (ind : Indeterminate) (token tok_ptr : Str) (st : State)
    (p : Str) (st1 : State) (h : pass2_text ind token tok_ptr st = .ok (p, st1)) :
    st1.instruction_count = st.instruction_count ∧ st1.data_reached = st.data_reached
      ∧ st1.hash_table = st.hash_table ∧ st1.line_num = st.line_num := by
  unfold pass2_text at h
  simp only at h
  split at h
  · simp at h
  · split at h <;> simp only [Except.ok.injEq, Prod.mk.injEq] at h <;> rw [← h.2] <;> simp

theorem pass2_data_frame (ind : Indeterminate) (tok_ptr : Str) (st st1 : State)
    (h : pass2_data ind tok_ptr st = .ok st1) :
    st1.instruction_count = st.instruction_count ∧ st1.data_reached = st.data_reached
      ∧ st1.hash_table = st.hash_table ∧ st1.line_num = st.line_num := by
  unfold pass2_data at h
  repeat' split at h
  all_goals first
    | (simp at h; done)
    | (simp only [Except.ok.injEq] at h; rw [← h]; simp)

theorem bind_label_frame (token : Str) (st st1 : State) (h : bind_label token st = .ok st1) :
    st1.instruction_count = st.instruction_count ∧ st1.data_reached = st.data_reached
      ∧ st1.line_num = st.line_num ∧ st1.Out = st.Out
      ∧ st1.hash_table
          = (hash_insert st.hash_table (key_bytes token.dropLast) st.instruction_count).2 := by
  unfold bind_label at h
  simp only at h
  split at h
  · simp only [Except.ok.injEq] at h; rw [← h]; simp
  · simp at h

theorem pass1_frame (token tok_ptr : Str) (st st1 : State)
    (h : pass1 token tok_ptr st = .ok st1) :
    st1.data_reached = st.data_reached ∧ st1.line_num = st.line_num ∧ st1.Out = st.Out := by
  unfold pass1 at h
  repeat' split at h
  all_goals first
    | (simp at h; done)
    | (have hb := bind_label_frame _ _ _ h; exact ⟨hb.2.1, hb.2.2.1, hb.2.2.2.1⟩)
    | (simp only [Except.ok.injEq] at h; rw [← h]; simp)

theorem account_frame (token : Str) (st : State) :
    (account token st).hash_table = st.hash_table ∧ (account token st).line_num = st.line_num
      ∧ (account token st).Out = st.Out
      ∧ (st.data_reached = true → (account token st).data_reached = true) := by
  unfold account
  repeat' split
  all_goals simp

theorem map_state_ok {ε : Type} (r : Except ε State) (tok_ptr p : Str) (st1 : State)
    (h : r.map (fun st => (tok_ptr, st)) = .ok (p, st1)) : r = .ok st1 := by
  cases r with
  | error e => simp [Except.map] at h
  | ok a =>
    simp only [Except.map, Except.ok.injEq, Prod.mk.injEq] at h
    rw [h.2]

/-- A round of the token loop never leaves the data region, in any pass. -/
theorem process_token_data_reached (ind : Indeterminate) (pass : Int) (token tok_ptr : Str)
    (st : State) (p : Str) (st1 : State)
    (h : process_token ind pass token tok_ptr st = .ok (p, st1))
    (hd : st.data_reached = true) : st1.data_reached = true := by
  have ha := (account_frame token st).2.2.2 hd
  unfold process_token at h
  simp only at h
  split at h
  · rw [(pass1_frame _ _ _ _ (map_state_ok _ _ _ _ h)).1]; exact ha
  · split at h
    · split at h
      · rw [(pass2_text_frame _ _ _ _ _ _ h).2.1]; exact ha
      · rw [(pass2_data_frame _ _ _ _ (map_state_ok _ _ _ _ h)).2.1]; exact ha
    · simp only [Except.ok.injEq, Prod.mk.injEq] at h; rw [← h.2]; exact ha

/-- Outside pass 1 a round of the token loop changes the counter by the
accounting step alone and leaves the table alone. -/
theorem process_token_other_pass (ind : Indeterminate) (pass : Int) (token tok_ptr : Str)
    (st : State) (p : Str) (st1 : State) (hp : pass ≠ 1)
    (h : process_token ind pass token tok_ptr st = .ok (p, st1)) :
    st1.instruction_count = (account token st).instruction_count
      ∧ st1.data_reached = (account token st).data_reached
      ∧ st1.hash_table = st.hash_table := by
  have ha := (account_frame token st).1
  unfold process_token at h
  simp only [if_neg hp] at h
  split at h
  · split at h
    · have hf := pass2_text_frame _ _ _ _ _ _ h
      exact ⟨hf.1, hf.2.1, by rw [hf.2.2.1, ha]⟩
    · have hf := pass2_data_frame _ _ _ _ (map_state_ok _ _ _ _ h)
      exact ⟨hf.1, hf.2.1, by rw [hf.2.2.1, ha]⟩
  · simp only [Except.ok.injEq, Prod.mk.injEq] at h
    rw [← h.2]
    exact ⟨rfl, rfl, ha⟩

/-- A relation between states that every round and every end of line respects
holds between the start and the end of the token loop. -/
theorem token_loop_invariant (ind : Indeterminate) (pass : Int) (R : State → State → Prop)
    (hline : ∀ (s : State) (out : Str) (ln : Int), R s { s with Out := out, line_num := ln })
    (htrans : ∀ a b c, R a b → R b c → R a c)
    (hstep : ∀ token tok_ptr s p s1,
      process_token ind pass token tok_ptr s = .ok (p, s1) → R s s1) :
    ∀ (fuel : Nat) (tok_ptr : Str) (s s1 : State),
      token_loop ind pass fuel tok_ptr s = .ok s1 → R s s1 := by
  intro fuel
  induction fuel with
  | zero => intro tok_ptr s s1 h; simp [token_loop] at h
  | succ f ih =>
    intro tok_ptr s s1 h
    simp only [token_loop] at h
    split at h
    · simp only [Except.ok.injEq] at h; rw [← h]; exact hline s s.Out _
    · split at h
      · simp only [Except.ok.injEq] at h; rw [← h]; exact hline s s.Out _
      · split at h
        · simp at h
        · rename_i heq
          exact htrans _ _ _ (hstep _ _ _ _ _ heq) (ih _ _ _ h)

theorem parse_line_invariant (ind : Indeterminate) (pass : Int) (R : State → State → Prop)
    (hline : ∀ (s : State) (out : Str) (ln : Int), R s { s with Out := out, line_num := ln })
    (htrans : ∀ a b c, R a b → R b c → R a c)
    (hstep : ∀ token tok_ptr s p s1,
      process_token ind pass token tok_ptr s = .ok (p, s1) → R s s1)
    (line : Str) (s s1 : State) (h : parse_line ind pass line s = .ok s1) : R s s1 := by
  unfold parse_line at h
  split at h
  · simp only [Except.ok.injEq] at h; rw [← h]; exact hline s _ _
  · exact token_loop_invariant ind pass R hline htrans hstep _ _ _ _ h

theorem line_loop_invariant (ind : Indeterminate) (pass : Int) (R : State → State → Prop)
    (hline : ∀ (s : State) (out : Str) (ln : Int), R s { s with Out := out, line_num := ln })
    (htrans : ∀ a b c, R a b → R b c → R a c)
    (hstep : ∀ token tok_ptr s p s1,
      process_token ind pass token tok_ptr s = .ok (p, s1) → R s s1) :
    ∀ (fuel : Nat) (fptr : Str) (s s1 : State),
      line_loop ind pass fuel fptr s = .ok s1 → R s s1 := by
  intro fuel
  induction fuel with
  | zero => intro fptr s s1 h; simp [line_loop] at h
  | succ f ih =>
    intro fptr s s1 h
    simp only [line_loop] at h
    split at h
    · simp only [Except.ok.injEq] at h; rw [← h]
      have := hline s s.Out s.line_num
      exact this
    · split at h
      · simp at h
      · rename_i heq
        exact htrans _ _ _ (parse_line_invariant ind pass R hline htrans hstep _ _ _ heq)
          (ih _ _ _ h)

/-! ## Address accounting -/

theorem search_from_spec (tok : Str) :
    ∀ (l : List Str) (i : Int), 0 ≤ i →
      (tok ∈ l → i ≤ search_from l i tok) ∧ (tok ∉ l → search_from l i tok = -1) := by
  intro l
  induction l with
  | nil => intro i _; simp [search_from]
  | cons x xs ih =>
    intro i hi
    simp only [search_from, List.mem_cons]
    by_cases hx : tok = x
    · simp [hx]
    · simp only [if_neg hx, hx, false_or]
      have := ih (i + 1) (by omega)
      exact ⟨fun h => by have := this.1 h; omega, this.2⟩

/-- The scan of `search` finds a token exactly when it is one of the mnemonics. -/
theorem search_nonneg_iff (tok : Str) : search tok ≥ 0 ↔ tok ∈ instructions := by
  have h := search_from_spec tok instructions 0 (le_refl 0)
  unfold search
  by_cases hm : tok ∈ instructions
  · simp [hm, h.1 hm]
  · simp [hm, h.2 hm]

theorem account_mnemonic (token : Str) (st : State) (h : token ∈ instructions) :
    account token st
      = { st with instruction_count :=
            st.instruction_count + (if token = "la".toList then 8 else 4) } := by
  unfold account
  rw [if_pos ((search_nonneg_iff token).2 h)]
  split <;> rfl

theorem account_other (token : Str) (st : State) (h : token ∉ instructions)
    (hd : token ≠ ".data".toList) : account token st = st := by
  unfold account
  rw [if_neg (fun hs => h ((search_nonneg_iff token).1 hs)), if_neg hd]

theorem account_data (st : State) :
    account ".data".toList st
      = { st with instruction_count := 0x00002000, data_reached := true } := by
  unfold account
  rw [if_neg (by decide), if_pos rfl]

/-- Pass 1 on a token of the text segment that ends a label. -/
theorem pass1_label (token tok_ptr : Str) (st : State)
    (hc : (strstr token [':']).isSome = true) (hd : st.data_reached = false) :
    pass1 token tok_ptr st = bind_label token st := by
  unfold pass1
  simp [hc, hd]

/-- Pass 1 on a token that no declaration follows on its line. -/
theorem pass1_quiet (token tok_ptr : Str) (st : State)
    (hl : ((strstr token [':']).isSome && st.data_reached = false) = false)
    (hw : strstr tok_ptr ".word".toList = none)
    (ha : strstr tok_ptr ".asciiz".toList = none) :
    pass1 token tok_ptr st = .ok st := by
  unfold pass1
  rw [hl, hw, ha]
  rfl

/-- Pass 1 leaves the counter of the accounting step alone at a label of the
text segment and wherever the rest of the line holds no declaration. -/
theorem process_token_pass1_counter (ind : Indeterminate) (token tok_ptr : Str) (st : State)
    (p : Str) (st1 : State)
    (h : process_token ind 1 token tok_ptr st = .ok (p, st1))
    (hq : ((strstr token [':']).isSome = true ∧ (account token st).data_reached = false)
      ∨ (strstr tok_ptr ".word".toList = none ∧ strstr tok_ptr ".asciiz".toList = none)) :
    st1.instruction_count = (account token st).instruction_count
      ∧ st1.data_reached = (account token st).data_reached := by
  unfold process_token at h
  simp only [if_pos] at h
  have h1 := map_state_ok _ _ _ _ h
  by_cases hl : ((strstr token [':']).isSome = true ∧ (account token st).data_reached = false)
  · rw [pass1_label _ _ _ hl.1 hl.2] at h1
    have := bind_label_frame _ _ _ h1
    exact ⟨this.1, this.2.1⟩
  · rcases hq with hq | hq
    · exact absurd hq hl
    · rw [pass1_quiet _ _ _ (by
        simp only [Bool.and_eq_false_iff, decide_eq_false_iff_not]
        by_cases hc : (strstr token [':']).isSome = true
        · right; intro hd; exact hl ⟨hc, hd⟩
        · left; simpa using hc) hq.1 hq.2] at h1
      simp only [Except.ok.injEq] at h1
      rw [← h1]
      exact ⟨rfl, rfl⟩

/-- C12: the accounting step at the head of the token loop, which runs before
the pass is looked at, adds 8 to the counter for the token `la` and 4 for each
of the other 18 mnemonics, and leaves the state as it is for a token that is
neither a mnemonic nor `.data`; a round of pass 2 ends with the counter of that
step, and so does a round of pass 1 at a label of the text segment and wherever
no `.word` or `.asciiz` text follows on the line. -/
theorem address_accounting (token : Str) (st : State) :
    (token ∈ instructions →
      account token st
        = { st with instruction_count :=
              st.instruction_count + (if token = "la".toList then 8 else 4) })
    ∧ (token ∉ instructions → token ≠ ".data".toList → account token st = st)
    ∧ (∀ (ind : Indeterminate) (tok_ptr p : Str) (st1 : State),
        process_token ind 2 token tok_ptr st = .ok (p, st1) →
        st1.instruction_count = (account token st).instruction_count)
    ∧ (∀ (ind : Indeterminate) (tok_ptr p : Str) (st1 : State),
        process_token ind 1 token tok_ptr st = .ok (p, st1) →
        ((strstr token [':']).isSome = true ∧ (account token st).data_reached = false)
          ∨ (strstr tok_ptr ".word".toList = none ∧ strstr tok_ptr ".asciiz".toList = none) →
        st1.instruction_count = (account token st).instruction_count) :=
  ⟨account_mnemonic token st, account_other token st,
    fun ind tok_ptr p st1 h =>
      (process_token_other_pass ind 2 token tok_ptr st p st1 (by decide) h).1,
    fun ind tok_ptr p st1 h hq => (process_token_pass1_counter ind token tok_ptr st p st1 h hq).1⟩

theorem address_accounting_witness :
    (account "la".toList start_state).instruction_count = 8
    ∧ (account "add".toList start_state).instruction_count = 4
    ∧ account "loop:".toList start_state = start_state :=
  ⟨by rw [(address_accounting "la".toList start_state).1 (by decide)]; rfl,
    by rw [(address_accounting "add".toList start_state).1 (by decide)]; rfl,
    (address_accounting "loop:".toList start_state).2.1 (by decide) (by decide)⟩

/-! ## The data region -/

/-- The line `.data`, in pass 1 and in pass 2. -/
theorem process_token_data (ind : Indeterminate) (pass : Int) (st : State)
    (hp : pass = 1 ∨ pass = 2) :
    process_token ind pass ".data".toList [] st
      = .ok ([], { st with instruction_count := 0x00002000, data_reached := true }) := by
  unfold process_token
  simp only [account_data]
  rcases hp with rfl | rfl
  · rw [if_pos rfl, pass1_quiet _ _ _ (by simp) (by decide) (by decide)]
    rfl
  · have : pass2_data ind [] { st with instruction_count := 0x00002000, data_reached := true }
        = .ok { st with instruction_count := 0x00002000, data_reached := true } := by
      unfold pass2_data
      have e1 : (strstr [] ".word".toList).isSome = false := by decide
      have e2 : (strstr [] ".asciiz".toList).isSome = false := by decide
      rw [e1, e2]
      rfl
    rw [this]
    simp [Except.map]

theorem parse_line_data (ind : Indeterminate) (pass : Int) (st : State)
    (hp : pass = 1 ∨ pass = 2) :
    parse_line ind pass ".data\n".toList st
      = .ok { st with instruction_count := 0x00002000, data_reached := true,
                      line_num := st.line_num + 1 } := by
  have ht : parse_token ".data\n".toList line_delim = some (".data".toList, []) := by decide
  have hn : parse_token [] line_delim = none := by decide
  have hh : (".data".toList.head? = some '#') = False := by decide
  unfold parse_line
  rw [if_neg (by decide)]
  have e : (".data\n".toList.length + 1) = 5 + 1 + 1 := by decide
  rw [e]
  simp only [token_loop, ht, hh, if_false, process_token_data ind pass st hp, hn]

theorem token_loop_data_reached (ind : Indeterminate) (pass : Int) (fuel : Nat) (tok_ptr : Str)
    (s s1 : State) (h : token_loop ind pass fuel tok_ptr s = .ok s1)
    (hd : s.data_reached = true) : s1.data_reached = true :=
  token_loop_invariant ind pass (fun a b => a.data_reached = true → b.data_reached = true)
    (fun _ _ _ h => h) (fun _ _ _ hab hbc h => hbc (hab h))
    (fun token tok_ptr s p s1 h hd => process_token_data_reached ind pass token tok_ptr s p s1 h hd)
    fuel tok_ptr s s1 h hd

theorem line_loop_data_reached (ind : Indeterminate) (pass : Int) (fuel : Nat) (fptr : Str)
    (s s1 : State) (h : line_loop ind pass fuel fptr s = .ok s1)
    (hd : s.data_reached = true) : s1.data_reached = true :=
  line_loop_invariant ind pass (fun a b => a.data_reached = true → b.data_reached = true)
    (fun _ _ _ h => h) (fun _ _ _ hab hbc h => hbc (hab h))
    (fun token tok_ptr s p s1 h hd => process_token_data_reached ind pass token tok_ptr s p s1 h hd)
    fuel fptr s s1 h hd

/-- C14: the accounting step on the token `.data` sets the counter to
0x00002000 and the flag `data_reached`, the line `.data` ends in that state in
both passes, and the flag once set stays set: through every round of the token
loop, every line, and every run of the line loop over what is left of the file,
in every pass. -/
theorem data_directive (ind : Indeterminate) (pass : Int) (s : State)
    (hd : s.data_reached = true) :
    (∀ st : State, account ".data".toList st
        = { st with instruction_count := 0x00002000, data_reached := true })
    ∧ (∀ st : State, pass = 1 ∨ pass = 2 →
        parse_line ind pass ".data\n".toList st
          = .ok { st with instruction_count := 0x00002000, data_reached := true,
                          line_num := st.line_num + 1 })
    ∧ (∀ (token tok_ptr p : Str) (s1 : State),
        process_token ind pass token tok_ptr s = .ok (p, s1) → s1.data_reached = true)
    ∧ (∀ (fuel : Nat) (tok_ptr : Str) (s1 : State),
        token_loop ind pass fuel tok_ptr s = .ok s1 → s1.data_reached = true)
    ∧ (∀ (fuel : Nat) (fptr : Str) (s1 : State),
        line_loop ind pass fuel fptr s = .ok s1 → s1.data_reached = true) :=
  ⟨account_data, fun st hp => parse_line_data ind pass st hp,
    fun token tok_ptr p s1 h => process_token_data_reached ind pass token tok_ptr s p s1 h hd,
    fun fuel tok_ptr s1 h => token_loop_data_reached ind pass fuel tok_ptr s s1 h hd,
    fun fuel fptr s1 h => line_loop_data_reached ind pass fuel fptr s s1 h hd⟩

theorem data_directive_witness :
    (account ".data".toList start_state).data_reached = true
    ∧ parse_line sample_ind 1 ".data\n".toList (account ".data".toList start_state)
        = .ok { account ".data".toList start_state with
                  instruction_count := 0x00002000, data_reached := true,
                  line_num := (account ".data".toList start_state).line_num + 1 } :=
  ⟨by decide,
    (data_directive sample_ind 1 (account ".data".toList start_state) (by decide)).2.1
      (account ".data".toList start_state) (Or.inl rfl)⟩

/-! ## The table in pass 2 -/

theorem line_loop_table (ind : Indeterminate) (pass : Int) (hp : pass ≠ 1) (fuel : Nat)
    (fptr : Str) (s s1 : State) (h : line_loop ind pass fuel fptr s = .ok s1) :
    s1.hash_table = s.hash_table :=
  line_loop_invariant ind pass (fun a b => b.hash_table = a.hash_table)
    (fun _ _ _ => rfl) (fun _ _ _ hab hbc => hbc.trans hab)
    (fun token tok_ptr s p s1 h => (process_token_other_pass ind pass token tok_ptr s p s1 hp h).2.2)
    fuel fptr s s1 h

/-- C19: a run of `parse_file` with a pass other than 1, pass 2 in particular,
that returns leaves the table it was handed as it was: the same entries in the
same order in every bucket. -/
theorem pass2_keeps_table (ind : Indeterminate) (fptr : Str) (pass : Int) (t : hash_table_t)
    (Out : Str) (s : State) (hp : pass ≠ 1)
    (h : parse_file ind fptr pass t Out = .ok s) : s.hash_table = t :=
  line_loop_table ind pass hp _ _ _ _ h

set_option maxRecDepth 20000 in
theorem pass2_keeps_table_witness :
    (2 : Int) ≠ 1
    ∧ ∃ s : State,
        parse_file sample_ind "main: add $t0, $t1, $t2\nj main\n".toList 2
            (table_with "main".toList 0) [] = .ok s
        ∧ s.hash_table = table_with "main".toList 0 :=
  ⟨by decide, _, rfl,
    pass2_keeps_table sample_ind "main: add $t0, $t1, $t2\nj main\n".toList 2
      (table_with "main".toList 0) [] _ (by decide) rfl⟩

/-! ## getDec after getBin -/

/-- The loop of `getDec` adds up the digits of a numeral of at most 31 digits,
also from a negative partial sum. -/
theorem getDec_loop_numeral_signed (w : Nat) : ∀ (m : Nat) (sum : Int),
    w ≤ 31 → -2 ^ 31 ≤ sum → sum + 2 ^ w ≤ 2 ^ 31 →
    getDec_loop (binary_numeral w m) (w - 1) sum = some (sum + ((m % 2 ^ w : Nat) : Int)) := by
  induction w with
  | zero =>
    intro m sum _ _ _
    simp [binary_numeral, getDec_loop, Nat.mod_one]
  | succ w ih =>
    intro m sum hw1 h0 hs
    have hw : w ≤ 30 := by omega
    have hp : (0 : Int) < 2 ^ w := by positivity
    have hsucc : (2 : Int) ^ (w + 1) = 2 ^ w * 2 := pow_succ 2 w
    have hmod : ((m % 2 ^ (w + 1) : Nat) : Int)
        = ((m / 2 ^ w % 2 : Nat) : Int) * 2 ^ w + ((m % 2 ^ w : Nat) : Int) := by
      rw [Nat.mod_pow_succ]
      push_cast
      ring
    have hbit : m / 2 ^ w % 2 = 0 ∨ m / 2 ^ w % 2 = 1 := by omega
    have hchar : (((if m / 2 ^ w % 2 = 1 then '1' else '0' : Char).toNat : Int) - 48)
        = ((m / 2 ^ w % 2 : Nat) : Int) := by
      rcases hbit with hb | hb <;> simp [hb]
    rw [binary_numeral_cons, getDec_loop_step _ _ _ _ _ hchar (by omega), Nat.add_sub_cancel,
      getDec_pow_eq w hw]
    have hprod : (0 : Int) ≤ ((m / 2 ^ w % 2 : Nat) : Int) * 2 ^ w
        ∧ ((m / 2 ^ w % 2 : Nat) : Int) * 2 ^ w ≤ 2 ^ w := by
      rcases hbit with hb | hb <;> simp [hb]
    have hw31 : (2 : Int) ^ w ≤ 2 ^ 30 := pow_le_pow_right₀ (by norm_num) hw
    have e1 : wrap32 (((m / 2 ^ w % 2 : Nat) : Int) * 2 ^ w)
        = ((m / 2 ^ w % 2 : Nat) : Int) * 2 ^ w := wrap32_id _ (by constructor <;> omega)
    rw [e1, wrap32_id _ (by constructor <;> omega), ih m _ (by omega) (by omega) (by omega), hmod]
    congr 1
    ring

theorem getDec_pow_31 : getDec_pow 31 = -2 ^ 31 := by
  have : getDec_pow 31 = wrap32 (getDec_pow 30 * 2) := rfl
  rw [this, getDec_pow_eq 30 (le_refl 30)]
  unfold wrap32
  norm_num

/-- The function `getDec` on a numeral of 32 digits: the first digit weighs
`-2 ^ 31` in `int` arithmetic. -/
theorem getDec_numeral_32 (m : Nat) :
    getDec (binary_numeral 32 m) = wrap32 ((m % 2 ^ 32 : Nat) : Int) := by
  have hbit : m / 2 ^ 31 % 2 = 0 ∨ m / 2 ^ 31 % 2 = 1 := by omega
  have hchar : (((if m / 2 ^ 31 % 2 = 1 then '1' else '0' : Char).toNat : Int) - 48)
      = ((m / 2 ^ 31 % 2 : Nat) : Int) := by
    rcases hbit with hb | hb <;> rw [hb] <;> rfl
  have hmod : m % 2 ^ 32 = m / 2 ^ 31 % 2 * 2 ^ 31 + m % 2 ^ 31 := by
    have := Nat.mod_pow_succ (b := 2) (k := 31) (x := m)
    omega
  have hlt : m % 2 ^ 31 < 2 ^ 31 := Nat.mod_lt _ (by norm_num)
  unfold getDec
  rw [binary_numeral_length]
  have e : binary_numeral 32 m = binary_numeral (31 + 1) m := rfl
  rw [e, binary_numeral_cons, getDec_loop_step _ _ _ _ _ hchar (by omega), getDec_pow_31]
  have e31 : (32 - 1 - 1 : Nat) = 31 - 1 := rfl
  rw [e31]
  rcases hbit with hb | hb
  · have s0 : wrap32 (0 + wrap32 (((m / 2 ^ 31 % 2 : Nat) : Int) * -2 ^ 31)) = 0 := by
      rw [hb]; unfold wrap32; norm_num
    rw [s0, getDec_loop_numeral_signed 31 m 0 (le_refl 31) (by norm_num) (by norm_num)]
    simp only
    rw [hmod, hb]
    unfold wrap32
    omega
  · have s1 : wrap32 (0 + wrap32 (((m / 2 ^ 31 % 2 : Nat) : Int) * -2 ^ 31)) = -2 ^ 31 := by
      rw [hb]; unfold wrap32; norm_num
    rw [s1, getDec_loop_numeral_signed 31 m (-2 ^ 31) (le_refl 31) (by norm_num) (by norm_num)]
    simp only
    rw [hmod, hb]
    unfold wrap32
    omega

/-- The value `getDec` reads from the digits `getBin` wrote for `n`. -/
theorem getDec_twos_complement (n : Int) (w : Nat) (hw : w = 5 ∨ w = 16 ∨ w = 26 ∨ w = 32) :
    getDec (twos_complement w n) = if w = 32 then wrap32 n else n % 2 ^ w := by
  unfold twos_complement
  rcases hw with rfl | rfl | rfl | rfl
  · rw [getDec_numeral _ _ (by norm_num), if_neg (by decide)]; omega
  · rw [getDec_numeral _ _ (by norm_num), if_neg (by decide)]; omega
  · rw [getDec_numeral _ _ (by norm_num), if_neg (by decide)]; omega
  · rw [getDec_numeral_32, if_pos rfl]; unfold wrap32; omega

theorem round_trip_general (ind : Indeterminate) (n : Int) (w k : Nat)
    (hw : w = 5 ∨ w = 16 ∨ w = 26 ∨ w = 32) (hk : w < k) :
    ∃ buf, getBin ind n (local_array ind k) w = .ok buf
      ∧ getDec (c_str buf) = (if w = 32 then wrap32 n else n % 2 ^ w) := by
  obtain ⟨buf, hb, hc⟩ := getBin_c_str ind n w k hw hk
  exact ⟨buf, hb, by rw [hc, getDec_twos_complement n w hw]⟩

/-- C11 (as amended): for a width `w` of 5, 16, 26 or 32 and every integer
`n`, `getBin` returns and `getDec` reads from its digits the value `n mod 2 ^ w`
when `w` is 5, 16 or 26 and the `int` that is congruent to `n` modulo `2 ^ 32`
when `w` is 32.  So the round trip gives `n` back on the unsigned range of the
widths 5, 16 and 26 and on the signed range of the width 32; a negative `n` of
the widths 5, 16 and 26 comes back as `n + 2 ^ w`, and an `n` of the upper half
of the unsigned range of the width 32 as `n - 2 ^ 32`. -/
theorem getDec_getBin_round_trip (ind : Indeterminate) (n : Int) (w k : Nat)
    (hw : w = 5 ∨ w = 16 ∨ w = 26 ∨ w = 32) (hk : w < k) :
    ∃ buf, getBin ind n (local_array ind k) w = .ok buf
      ∧ getDec (c_str buf) = (if w = 32 then wrap32 n else n % 2 ^ w)
      ∧ (w ≠ 32 → 0 ≤ n → n < 2 ^ w → getDec (c_str buf) = n)
      ∧ (w ≠ 32 → -2 ^ w ≤ n → n < 0 → getDec (c_str buf) = n + 2 ^ w)
      ∧ (w = 32 → -2 ^ 31 ≤ n → n < 2 ^ 31 → getDec (c_str buf) = n)
      ∧ (w = 32 → 2 ^ 31 ≤ n → n < 2 ^ 32 → getDec (c_str buf) = n - 2 ^ 32) := by
  obtain ⟨buf, hb, hd⟩ := round_trip_general ind n w k hw hk
  refine ⟨buf, hb, hd, ?_, ?_, ?_, ?_⟩
  · intro h32 h0 h1
    rw [hd, if_neg h32]
    exact Int.emod_eq_of_lt h0 h1
  · intro h32 h0 h1
    rw [hd, if_neg h32]
    have hp : (0 : Int) < 2 ^ w := by positivity
    rw [← Int.add_emod_self]
    exact Int.emod_eq_of_lt (by omega) (by omega)
  · intro h32 h0 h1
    rw [hd, if_pos h32]
    exact wrap32_id n ⟨h0, h1⟩
  · intro h32 h0 h1
    rw [hd, if_pos h32]
    unfold wrap32
    omega

theorem getDec_getBin_round_trip_witness :
    ((16 : Nat) = 5 ∨ (16 : Nat) = 16 ∨ (16 : Nat) = 26 ∨ (16 : Nat) = 32) ∧ 16 < 17
    ∧ ∃ buf, getBin sample_ind 40000 (local_array sample_ind 17) 16 = .ok buf
      ∧ getDec (c_str buf) = (if 16 = 32 then wrap32 40000 else 40000 % 2 ^ 16)
      ∧ (16 ≠ 32 → (0 : Int) ≤ 40000 → (40000 : Int) < 2 ^ 16 → getDec (c_str buf) = 40000)
      ∧ (16 ≠ 32 → -2 ^ 16 ≤ (40000 : Int) → (40000 : Int) < 0
          → getDec (c_str buf) = 40000 + 2 ^ 16)
      ∧ (16 = 32 → -2 ^ 31 ≤ (40000 : Int) → (40000 : Int) < 2 ^ 31
          → getDec (c_str buf) = 40000)
      ∧ (16 = 32 → 2 ^ 31 ≤ (40000 : Int) → (40000 : Int) < 2 ^ 32
          → getDec (c_str buf) = 40000 - 2 ^ 32) :=
  ⟨by decide, by decide,
    getDec_getBin_round_trip sample_ind 40000 16 17 (by decide) (by decide)⟩

set_option maxRecDepth 20000 in
/-- C11 as the claim words it, on the signed range: -1 is representable in 16
bits, `getBin` writes sixteen digits `1` for it, and `getDec` reads them as
65535, not as -1. -/
theorem getDec_getBin_round_trip_counterexample :
    (-2 ^ (16 - 1) ≤ (-1 : Int) ∧ (-1 : Int) < 2 ^ (16 - 1))
    ∧ ∃ buf, getBin sample_ind (-1) (local_array sample_ind 17) 16 = .ok buf
      ∧ c_str buf = "1111111111111111".toList
      ∧ getDec (c_str buf) = 65535
      ∧ getDec (c_str buf) ≠ -1 :=
  ⟨by decide, _, rfl, by decide, by decide, by decide⟩

/-! ## Tokens that neither pass acts on -/

theorem strstr_none_of_not_mem (c : Char) (n : Str) :
    ∀ s : Str, c ∉ s → strstr s (c :: n) = none := by
  intro s
  induction s with
  | nil => intro _; simp [strstr]
  | cons x xs ih =>
    intro h
    simp only [List.mem_cons, not_or] at h
    have hne : (c == x) = false := by simpa using h.1
    simp only [strstr, List.isPrefixOf, hne, Bool.false_and, Bool.false_eq_true, if_false]
    exact ih h.2

theorem strstr_colon_of_not_mem (s : Str) (h : ':' ∉ s) : (strstr s [':']).isSome = false := by
  rw [strstr_none_of_not_mem ':' [] s h]
  rfl

theorem account_idle (token : Str) (st : State) (h : is_idle token = true) :
    account token st = st := by
  simp only [is_idle, Bool.and_eq_true, decide_eq_true_eq, Bool.not_eq_true',
    decide_eq_false_iff_not] at h
  unfold account
  rw [if_neg (by rw [h.1]; decide), if_neg h.2]

theorem pass2_data_quiet (ind : Indeterminate) (tok_ptr : Str) (st : State)
    (hw : strstr tok_ptr ".word".toList = none)
    (ha : strstr tok_ptr ".asciiz".toList = none) :
    pass2_data ind tok_ptr st = .ok st := by
  unfold pass2_data
  rw [hw, ha]
  rfl

/-- A round of the token loop on an idle token that no declaration follows:
nothing changes, in pass 1 when the token is no label of the text segment and
in pass 2 in the data segment. -/
theorem process_token_quiet (ind : Indeterminate) (pass : Int) (token tok_ptr : Str)
    (st : State) (hi : is_idle token = true) (hdot : '.' ∉ tok_ptr)
    (hq : (pass = 1 ∧ (st.data_reached = true ∨ ':' ∉ token))
      ∨ (pass = 2 ∧ st.data_reached = true)) :
    process_token ind pass token tok_ptr st = .ok (tok_ptr, st) := by
  have hw : strstr tok_ptr ".word".toList = none := strstr_none_of_not_mem '.' _ _ hdot
  have ha : strstr tok_ptr ".asciiz".toList = none := strstr_none_of_not_mem '.' _ _ hdot
  unfold process_token
  simp only [account_idle token st hi]
  rcases hq with ⟨rfl, hq⟩ | ⟨rfl, hq⟩
  · rw [if_pos rfl, pass1_quiet _ _ _ (by
      rcases hq with hq | hq
      · simp [hq]
      · simp [strstr_colon_of_not_mem token hq]) hw ha]
    rfl
  · rw [if_neg (by decide), if_pos rfl, if_neg (by simp [hq]), pass2_data_quiet ind _ _ hw ha]
    rfl

theorem not_mem_render_tail (c : Char) (pre tok : Str) (d : Char)
    (xs : List (Str × Str × Char)) (tail : Str)
    (h : c ∉ render ((pre, tok, d) :: xs) tail) : c ∉ render xs tail := by
  simp only [render, List.mem_append, List.mem_cons, not_or] at h
  exact h.2.2.2

/-- The token loop over a run of idle tokens with no full stop in the text
only counts the line. -/
theorem token_loop_quiet (ind : Indeterminate) (pass : Int) (xs : List (Str × Str × Char)) :
    ∀ (tail : Str) (fuel : Nat) (st : State),
      well_cut line_delim xs = true → (xs.all (fun it => is_idle it.2.1)) = true →
      all_in tail line_delim = true → '.' ∉ render xs tail →
      ((pass = 1 ∧ (st.data_reached = true ∨ colon_free xs = true))
        ∨ (pass = 2 ∧ st.data_reached = true)) →
      (render xs tail).length < fuel →
      token_loop ind pass fuel (render xs tail) st
        = .ok { st with line_num := st.line_num + 1 } := by
  induction xs with
  | nil =>
    intro tail fuel st _ _ ht _ _ hf
    cases fuel with
    | zero => omega
    | succ f => simp [token_loop, render, parse_token_tail line_delim tail ht]
  | cons it xs ih =>
    intro tail fuel st hw hi ht hdot hq hf
    obtain ⟨pre, tok, d⟩ := it
    cases fuel with
    | zero => omega
    | succ f =>
      have hlen := parse_token_length _ _ _ _ (parse_token_render line_delim pre tok d xs tail hw)
      simp only [List.all_cons, Bool.and_eq_true] at hi
      have hdot1 := not_mem_render_tail '.' pre tok d xs tail hdot
      have hq1 : (pass = 1 ∧ (st.data_reached = true ∨ ':' ∉ tok))
          ∨ (pass = 2 ∧ st.data_reached = true) := by
        rcases hq with ⟨hp, hq⟩ | hq
        · left
          refine ⟨hp, ?_⟩
          rcases hq with hq | hq
          · exact Or.inl hq
          · right
            simp only [colon_free, List.all_cons, Bool.and_eq_true, Bool.not_eq_true',
              decide_eq_false_iff_not] at hq
            exact hq.1
        · exact Or.inr hq
      have hq2 : (pass = 1 ∧ (st.data_reached = true ∨ colon_free xs = true))
          ∨ (pass = 2 ∧ st.data_reached = true) := by
        rcases hq with ⟨hp, hq⟩ | hq
        · left
          refine ⟨hp, ?_⟩
          rcases hq with hq | hq
          · exact Or.inl hq
          · right
            simp only [colon_free, List.all_cons, Bool.and_eq_true] at hq ⊢
            exact hq.2
        · exact Or.inr hq
      simp only [token_loop, parse_token_render line_delim pre tok d xs tail hw,
        well_cut_head line_delim pre tok d xs hw, if_false,
        process_token_quiet ind pass tok _ st hi.1 hdot1 hq1]
      exact ih tail f st (well_cut_tail _ _ _ hw) hi.2 ht hdot1 hq2 (by omega)

/-! ## Declarations of the data segment -/

/-- One round of the token loop on cut text. -/
theorem token_loop_round (ind : Indeterminate) (pass : Int) (pre tok : Str) (d : Char)
    (xs : List (Str × Str × Char)) (tail : Str) (fuel : Nat) (st : State) (p : Str)
    (st1 : State) (hw : well_cut line_delim ((pre, tok, d) :: xs) = true)
    (hf : (render ((pre, tok, d) :: xs) tail).length < fuel)
    (h : process_token ind pass tok (render xs tail) st = .ok (p, st1)) :
    token_loop ind pass fuel (render ((pre, tok, d) :: xs) tail) st
      = token_loop ind pass (p.length + 1) p st1 := by
  have hpt := parse_token_render line_delim pre tok d xs tail hw
  have hlen := parse_token_length _ _ _ _ hpt
  have hpl := process_token_length ind pass tok _ st p st1 h
  cases fuel with
  | zero => omega
  | succ f =>
    simp only [token_loop, hpt, well_cut_head line_delim pre tok d xs hw, if_false, h]
    exact token_loop_fuel ind pass f p st1 (by omega)

theorem dropWhile_head (p : Char → Bool) (c : Char) (hc : p c = true) :
    ∀ (l rest : Str), l.dropWhile p ≠ c :: rest := by
  intro l
  induction l with
  | nil => intro rest; simp
  | cons x xs ih =>
    intro rest
    by_cases hx : p x = true
    · rw [List.dropWhile_cons_of_pos hx]; exact ih rest
    · rw [List.dropWhile_cons_of_neg hx]
      intro he
      simp only [List.cons.injEq] at he
      rw [he.1] at hx
      exact hx hc

/-- The call `sscanf(s, "%*s, %d", &v)` stores nothing, whatever `s` is: what
`%*s` leaves starts with white space or is empty, and the comma of the format
is not matched. -/
theorem sscanf_s_comma_d_none (s : Str) : sscanf_s_comma_d s = none := by
  unfold sscanf_s_comma_d
  cases h : scan_skip_s s with
  | none => rfl
  | some r =>
    cases r with
    | nil => rfl
    | cons x xs =>
      by_cases hx : x = ','
      · exfalso
        subst hx
        unfold scan_skip_s at h
        split at h
        · simp at h
        · simp only [Option.some.injEq] at h
          exact dropWhile_head (fun x => !isspace x) ',' (by decide) _ _ h
      · split
        · rename_i heq
          simp only [Option.some.injEq, List.cons.injEq] at heq
          exact absurd heq.1 hx
        · rfl

theorem idle_of_colon (tok : Str) (h : ':' ∈ tok) : is_idle tok = true := by
  have hm : tok ∉ instructions := by
    intro hin
    have hall : ∀ t ∈ instructions, ':' ∉ t := by decide
    exact hall tok hin h
  have hs := (search_from_spec tok instructions 0 (le_refl 0)).2 hm
  have hd : tok ≠ ".data".toList := by
    intro he
    rw [he] at h
    revert h
    decide
  simp only [is_idle, search, hs, Bool.and_eq_true, decide_eq_true_eq, Bool.not_eq_true',
    decide_eq_false_iff_not]
  exact ⟨trivial, hd⟩

/-- What the token loop knows of a label token `name:`. -/
theorem label_facts (name : Str) (h : is_operand line_delim name = true) :
    is_operand line_delim (name ++ [':']) = true ∧ is_idle (name ++ [':']) = true
      ∧ (strstr (name ++ [':']) [':']).isSome = true ∧ (name ++ [':']).dropLast = name := by
  refine ⟨?_, idle_of_colon _ (by simp), ?_, by simp⟩
  · simp only [is_operand, Bool.and_eq_true, Bool.not_eq_true', none_in, List.all_eq_true,
      decide_eq_false_iff_not, List.isEmpty_eq_true] at h ⊢
    obtain ⟨⟨hne, hno⟩, hh⟩ := h
    refine ⟨⟨by simp, ?_⟩, ?_⟩
    · intro c hc
      simp only [List.mem_append, List.mem_singleton] at hc
      rcases hc with hc | hc
      · exact hno c hc
      · subst hc; decide
    · cases name with
      | nil => simp at hne
      | cons a t => simpa using hh
  · have : ∀ s : Str, (strstr (s ++ [':']) [':']).isSome = true := by
      intro s
      induction s with
      | nil => decide
      | cons x xs ih =>
        simp only [List.cons_append, strstr]
        split
        · rfl
        · exact ih
    exact this name

theorem numeral_plain (i : Int) :
    is_operand line_delim (int_text i) = true ∧ is_idle (int_text i) = true
      ∧ '.' ∉ int_text i ∧ ':' ∉ int_text i ∧ '"' ∉ int_text i := by
  have hn := numeral_facts i
  have hi := hn.2.2.2.1
  simp only [is_inert, Bool.and_eq_true, decide_eq_true_eq, Bool.not_eq_true',
    decide_eq_false_iff_not] at hi
  have hc : ∀ c : Char, numeral_char c = true → c ≠ '.' ∧ c ≠ ':' ∧ c ≠ '"' := by
    intro c h
    simp only [numeral_char, Bool.or_eq_true, decide_eq_true_eq, isdigit, Bool.and_eq_true] at h
    rcases h with h | h
    · refine ⟨?_, ?_, ?_⟩ <;> intro hc <;> rw [hc] at h <;> revert h <;> decide
    · subst h; decide
  refine ⟨hn.2.1, ?_, ?_, ?_, ?_⟩
  · simp only [is_idle, hi.1.1, Bool.and_eq_true, decide_eq_true_eq, Bool.not_eq_true',
      decide_eq_false_iff_not]
    exact ⟨trivial, hi.1.2⟩
  · intro h; exact (hc _ (int_text_chars i _ h)).1 rfl
  · intro h; exact (hc _ (int_text_chars i _ h)).2.1 rfl
  · intro h; exact (hc _ (int_text_chars i _ h)).2.2 rfl

theorem strstr_prefix (c : Char) (n r : Str) :
    strstr ((c :: n) ++ r) (c :: n) = some ((c :: n) ++ r) := by
  have h : (c :: n).isPrefixOf ((c :: n) ++ r) = true := by
    rw [List.isPrefixOf_iff_prefix]
    exact List.prefix_append _ _
  simp only [List.cons_append] at h ⊢
  simp only [strstr, h, if_true]

theorem word_line_text (name v : Str) :
    render (word_line name v) [] = name ++ ": .word ".toList ++ v ++ "\n".toList := by
  simp [render, word_line]

theorem word_line_cut (name : Str) (v : Int) (h : is_operand line_delim name = true) :
    well_cut line_delim (word_line name (int_text v)) = true := by
  simp only [word_line, well_cut_cons, well_cut_nil, (label_facts name h).1,
    (numeral_plain v).1]
  decide

theorem word_rest_facts (v : Int) :
    ':' ∉ render [(([] : Str), ".word".toList, ' '), ([], int_text v, '\n')] []
    ∧ '.' ∉ render [(([] : Str), int_text v, '\n')] []
    ∧ (strstr (render [(([] : Str), ".word".toList, ' '), ([], int_text v, '\n')] [])
        ".word".toList).isSome = true := by
  have hp := numeral_plain v
  refine ⟨?_, ?_, ?_⟩
  · simp only [render, List.nil_append, List.mem_append, List.mem_cons, List.not_mem_nil,
      or_false, not_or]
    exact ⟨by decide, by decide, hp.2.2.2.1, by decide⟩
  · simp only [render, List.nil_append, List.mem_append, List.mem_cons, List.not_mem_nil,
      or_false, not_or]
    exact ⟨hp.2.2.1, by decide⟩
  · have e : render [(([] : Str), ".word".toList, ' '), ([], int_text v, '\n')] []
        = ('.' :: "word".toList) ++ (' ' :: (int_text v ++ ['\n'])) := by
      simp [render]
    have e2 : ".word".toList = '.' :: "word".toList := rfl
    rw [e, e2, strstr_prefix]
    rfl

/-- Pass 2 on the declaration of a single word in the data segment: the value
printed is the one `var_value` holds before anything is stored in it. -/
theorem single_word_general (ind : Indeterminate) (name : Str) (v : Int) (st : State)
    (hn : is_operand line_delim name = true) (hl : name.length ≤ 200)
    (hv : -2 ^ 31 ≤ v ∧ v < 2 ^ 31) (hd : st.data_reached = true) :
    parse_line ind 2 (name ++ ": .word ".toList ++ int_text v ++ "\n".toList) st
      = .ok { st with Out := word_rep ind.int st.Out, line_num := st.line_num + 1 } := by
  have hw := word_line_cut name v hn
  have hw2 := well_cut_tail _ _ _ hw
  have hw3 := well_cut_tail _ _ _ hw2
  have hp := numeral_plain v
  have hr := word_rest_facts v
  have hvl := int_text_length v hv
  have h1 : process_token ind 2 (name ++ [':'])
      (render [(([] : Str), ".word".toList, ' '), ([], int_text v, '\n')] []) st
      = .ok (render [(([] : Str), ".word".toList, ' '), ([], int_text v, '\n')] [],
          { st with Out := word_rep ind.int st.Out }) := by
    unfold process_token
    simp only [account_idle _ st (label_facts name hn).2.1]
    have hdf : ¬ st.data_reached = false := by simp [hd]
    have hc : ¬ (strstr (render [(([] : Str), ".word".toList, ' '), ([], int_text v, '\n')] [])
        [':']).isSome = true := by
      rw [strstr_colon_of_not_mem _ hr.1]; simp
    rw [if_pos trivial, if_neg hdf]
    unfold pass2_data
    rw [if_pos hr.2.2, if_neg hc, sscanf_s_comma_d_none]
    rfl
  have h2 : process_token ind 2 ".word".toList (render [(([] : Str), int_text v, '\n')] [])
      { st with Out := word_rep ind.int st.Out }
      = .ok (render [(([] : Str), int_text v, '\n')] [],
          { st with Out := word_rep ind.int st.Out }) :=
    process_token_quiet ind 2 _ _ _ (by decide) hr.2.1 (Or.inr ⟨rfl, hd⟩)
  rw [← word_line_text]
  have hlen : (render (word_line name (int_text v)) []).length < 256 := by
    rw [word_line_text]
    simp only [List.length_append]
    have e1 : ": .word ".toList.length = 8 := by decide
    have e2 : "\n".toList.length = 1 := by decide
    omega
  unfold parse_line
  rw [if_neg (by simp only [MAX_LINE_LENGTH]; omega)]
  unfold word_line at hw ⊢
  rw [token_loop_round ind 2 _ _ _ _ _ _ _ _ _ hw (by omega) h1,
    token_loop_round ind 2 _ _ _ _ _ _ _ _ _ hw2 (by omega) h2,
    token_loop_quiet ind 2 _ [] _ { st with Out := word_rep ind.int st.Out } hw3
      (by simp [hp.2.1]) rfl hr.2.1 (Or.inr ⟨rfl, hd⟩) (by omega)]

set_option maxRecDepth 20000 in
/-- C20, the code at `X: .word 5` in the data segment: pass 2 writes one line,
the 32 digits of the value `var_value` holds without ever being assigned, and
writes the same line for `X: .word 6`; where that value is 0 the line is
00000000000000000000000000000000, not the 00000000000000000000000000000101 the
claim expects. -/
theorem single_word_unread (ind : Indeterminate) :
    parse_line ind 2 "X: .word 5\n".toList
        { start_state with instruction_count := 0x00002000, data_reached := true }
      = .ok { start_state with
                instruction_count := 0x00002000, data_reached := true,
                line_num := 2, Out := word_rep ind.int [] }
    ∧ parse_line ind 2 "X: .word 6\n".toList
        { start_state with instruction_count := 0x00002000, data_reached := true }
      = .ok { start_state with
                instruction_count := 0x00002000, data_reached := true,
                line_num := 2, Out := word_rep ind.int [] }
    ∧ word_rep sample_ind.int [] = "00000000000000000000000000000000\n".toList
    ∧ word_rep 5 [] = "00000000000000000000000000000101\n".toList
    ∧ word_rep sample_ind.int [] ≠ word_rep 5 [] := by
  have h5 := single_word_general ind "X".toList 5
    { start_state with instruction_count := 0x00002000, data_reached := true }
    (by decide) (by decide) (by decide) rfl
  have h6 := single_word_general ind "X".toList 6
    { start_state with instruction_count := 0x00002000, data_reached := true }
    (by decide) (by decide) (by decide) rfl
  have e5 : "X".toList ++ ": .word ".toList ++ int_text 5 ++ "\n".toList
      = "X: .word 5\n".toList := by decide
  have e6 : "X".toList ++ ": .word ".toList ++ int_text 6 ++ "\n".toList
      = "X: .word 6\n".toList := by decide
  rw [e5] at h5
  rw [e6] at h6
  exact ⟨h5, h6, by decide, by decide, by decide⟩

/-! ## Pass 1 on declarations and labels -/

theorem digits_value_stop (s : Str) (c : Char) (r : Str) (hs : ∀ x ∈ s, isdigit x = true)
    (hc : isdigit c = false) : ∀ acc,
    digits_value (s ++ c :: r) acc = digits_value s acc := by
  induction s with
  | nil => intro acc; simp [digits_value, hc]
  | cons a s ih =>
    intro acc
    have ha := hs a (by simp)
    simp only [List.cons_append, digits_value, ha, if_true]
    exact ih (fun x hx => hs x (by simp [hx])) _

/-- The function `atoi` reads a decimal numeral back when text that is no
digit follows it. -/
theorem atoi_int_text_stop (i : Int) (c : Char) (r : Str) (hc : isdigit c = false) :
    atoi (int_text i ++ c :: r) = wrap32 i := by
  unfold atoi int_text
  split
  · rename_i hneg
    have : List.dropWhile isspace (('-' :: nat_text i.natAbs) ++ c :: r)
        = '-' :: (nat_text i.natAbs ++ c :: r) := by
      rw [List.cons_append, List.dropWhile_cons_of_neg]; decide
    rw [this]
    simp only [signed_value, digits_value_stop _ c r (nat_text_digits _) hc,
      digits_value_nat_text]
    congr 1
    omega
  · rename_i hpos
    obtain ⟨d, cs, hcs⟩ := List.exists_cons_of_ne_nil (nat_text_ne_nil i.natAbs)
    have hd : isdigit d = true := nat_text_digits i.natAbs d (by rw [hcs]; simp)
    have hsp := isdigit_not_space d hd
    have hsg := isdigit_not_sign d hd
    have : List.dropWhile isspace (nat_text i.natAbs ++ c :: r)
        = nat_text i.natAbs ++ c :: r := by
      rw [hcs, List.cons_append, List.dropWhile_cons_of_neg]; simp [hsp]
    rw [this]
    have hv : signed_value (nat_text i.natAbs ++ c :: r)
        = (digits_value (nat_text i.natAbs ++ c :: r) 0 : Int) := by
      rw [hcs]
      unfold signed_value
      split
      · rename_i h; simp only [List.cons_append, List.cons.injEq] at h; exact absurd h.1 hsg.1
      · rename_i h; simp only [List.cons_append, List.cons.injEq] at h; exact absurd h.1 hsg.2
      · rfl
    rw [hv, digits_value_stop _ c r (nat_text_digits _) hc, digits_value_nat_text]
    congr 1
    omega

theorem strstr_char_of_mem (c : Char) : ∀ s : Str, c ∈ s → (strstr s [c]).isSome = true := by
  intro s
  induction s with
  | nil => intro h; simp at h
  | cons x xs ih =>
    intro h
    simp only [strstr]
    split
    · rfl
    · rename_i hx
      simp only [List.mem_cons] at h
      rcases h with h | h
      · exfalso; apply hx; subst h; simp [List.isPrefixOf]
      · exact ih h

/-- The tokenizer on a token that is followed by a delimiter, whatever the
token starts with. -/
theorem parse_token_plain (pre tok : Str) (d : Char) (rest delim : Str)
    (hpre : all_in pre delim = true) (hne : tok ≠ []) (hno : none_in tok delim = true)
    (hd : d ∈ delim) :
    parse_token (pre ++ (tok ++ d :: rest)) delim = some (tok, rest) := by
  have hsp : strspn (pre ++ (tok ++ d :: rest)) delim = pre.length := by
    apply strspn_all_in _ _ _ hpre
    intro c r hcr
    cases tok with
    | nil => exact absurd rfl hne
    | cons a t =>
      simp only [List.cons_append, List.cons.injEq] at hcr
      simp only [none_in, List.all_cons, Bool.and_eq_true, Bool.not_eq_true',
        decide_eq_false_iff_not] at hno
      rw [← hcr.1]; exact hno.1
  unfold parse_token
  simp only [hsp, List.drop_left, strpbrk_none_in tok d rest delim hno hd]
  simp

theorem bind_label_eq (token : Str) (st : State) :
    bind_label token st
      = .ok { st with hash_table :=
          (hash_insert st.hash_table (key_bytes token.dropLast) st.instruction_count).2 } := by
  simp [bind_label, hash_insert]

/-- Pass 1 on a token without a colon that no full stop follows on the line:
the accounting step is all that happens. -/
theorem process_token_pass1_account (ind : Indeterminate) (token tok_ptr : Str) (st : State)
    (hc : ':' ∉ token) (hdot : '.' ∉ tok_ptr) :
    process_token ind 1 token tok_ptr st = .ok (tok_ptr, account token st) := by
  unfold process_token
  simp only [if_true]
  rw [pass1_quiet _ _ _ (by simp [strstr_colon_of_not_mem token hc])
    (strstr_none_of_not_mem '.' _ _ hdot) (strstr_none_of_not_mem '.' _ _ hdot)]
  rfl

/-- Pass 1 on the label of a line of the text segment. -/
theorem process_token_label (ind : Indeterminate) (name tok_ptr : Str) (st : State)
    (hn : is_operand line_delim name = true) (hd : st.data_reached = false) :
    process_token ind 1 (name ++ [':']) tok_ptr st
      = .ok (tok_ptr, { st with hash_table :=
          (hash_insert st.hash_table (key_bytes name) st.instruction_count).2 }) := by
  have hf := label_facts name hn
  unfold process_token
  simp only [account_idle _ st hf.2.1, if_true]
  rw [pass1_label _ _ _ hf.2.2.1 hd, bind_label_eq, hf.2.2.2]
  rfl

theorem mnemonic_plain (m : Str) (h : m ∈ instructions) :
    is_operand line_delim m = true ∧ ':' ∉ m ∧ m.length ≤ 4 := by
  have hall : ∀ t ∈ instructions, is_operand line_delim t = true ∧ ':' ∉ t ∧ t.length ≤ 4 := by
    decide
  exact hall m h

theorem text_label_general (ind : Indeterminate) (name m : Str)
    (items : List (Str × Str × Char)) (tail : Str) (st : State)
    (hd : st.data_reached = false) (hn : is_operand line_delim name = true)
    (hm : m ∈ instructions) (hw : well_cut line_delim items = true)
    (hi : (items.all (fun it => is_idle it.2.1)) = true) (hc : colon_free items = true)
    (hdot : '.' ∉ render items tail) (ht : all_in tail line_delim = true)
    (hlen : (render (([], name ++ [':'], ' ') :: ([], m, ' ') :: items) tail).length < 256) :
    parse_line ind 1 (render (([], name ++ [':'], ' ') :: ([], m, ' ') :: items) tail) st
      = .ok { st with
          instruction_count := st.instruction_count + (if m = "la".toList then 8 else 4),
          hash_table := (hash_insert st.hash_table (key_bytes name) st.instruction_count).2,
          line_num := st.line_num + 1 } := by
  have hmp := mnemonic_plain m hm
  have hw2 : well_cut line_delim (([], m, ' ') :: items) = true := by
    rw [well_cut_cons]; exact ⟨rfl, hmp.1, by decide, hw⟩
  have hw1 : well_cut line_delim (([], name ++ [':'], ' ') :: ([], m, ' ') :: items) = true := by
    rw [well_cut_cons]; exact ⟨rfl, (label_facts name hn).1, by decide, hw2⟩
  have hl2 := parse_token_length _ _ _ _
    (parse_token_render line_delim [] (name ++ [':']) ' ' _ tail hw1)
  have hl3 := parse_token_length _ _ _ _ (parse_token_render line_delim [] m ' ' _ tail hw2)
  unfold parse_line
  rw [if_neg (by simp only [MAX_LINE_LENGTH]; omega),
    token_loop_round ind 1 _ _ _ _ _ _ _ _ _ hw1 (by omega)
      (process_token_label ind name _ st hn hd),
    token_loop_round ind 1 _ _ _ _ _ _ _ _ _ hw2 (by omega)
      (process_token_pass1_account ind m _ _ hmp.2.1 hdot),
    account_mnemonic m _ hm,
    token_loop_quiet ind 1 items tail _ _ hw hi ht hdot (Or.inl ⟨rfl, Or.inr hc⟩) (by omega)]

set_option maxRecDepth 20000 in
/-- C13: in pass 1, before `.data`, a line `name: m operands` with `m` a
mnemonic and operands that are no mnemonics, hold no colon and no full stop,
ends with `name` inserted in the table with the counter the line started with,
and with the counter advanced by 8 for `la` and by 4 otherwise; a lookup of a
name that was not bound before gives that starting counter.  A label on the
first instruction of a file is bound to 0, and a label on the instruction after
one `la` and one `add` is bound to 12. -/
theorem text_label (ind : Indeterminate) (name m : Str)
    (items : List (Str × Str × Char)) (tail : Str) (st : State)
    (hd : st.data_reached = false) (hn : is_operand line_delim name = true)
    (hm : m ∈ instructions) (hw : well_cut line_delim items = true)
    (hi : (items.all (fun it => is_idle it.2.1)) = true) (hc : colon_free items = true)
    (hdot : '.' ∉ render items tail) (ht : all_in tail line_delim = true)
    (hlen : (render (([], name ++ [':'], ' ') :: ([], m, ' ') :: items) tail).length < 256) :
    parse_line ind 1 (render (([], name ++ [':'], ' ') :: ([], m, ' ') :: items) tail) st
      = .ok { st with
          instruction_count := st.instruction_count + (if m = "la".toList then 8 else 4),
          hash_table := (hash_insert st.hash_table (key_bytes name) st.instruction_count).2,
          line_num := st.line_num + 1 }
    ∧ (valid_table st.hash_table = true → hash_find st.hash_table (key_bytes name) = none →
        hash_find (hash_insert st.hash_table (key_bytes name) st.instruction_count).2
          (key_bytes name) = some st.instruction_count)
    ∧ (∃ s : State,
        parse_file ind "main: add $t0, $t1, $t2\n".toList 1 (create_hash_table 127) [] = .ok s
        ∧ hash_find s.hash_table (key_bytes "main".toList) = some 0)
    ∧ (∃ s : State,
        parse_file ind "la $t0, x\nadd $t0, $t1, $t2\nnext: sub $t0, $t1, $t2\n".toList 1
          (create_hash_table 127) [] = .ok s
        ∧ hash_find s.hash_table (key_bytes "next".toList) = some 12) :=
  ⟨text_label_general ind name m items tail st hd hn hm hw hi hc hdot ht hlen,
    fun hv hf => hash_find_insert_fresh st.hash_table (key_bytes name) st.instruction_count hv hf,
    ⟨_, rfl, by decide⟩, ⟨_, rfl, by decide⟩⟩

set_option maxRecDepth 20000 in
theorem text_label_witness :
    start_state.data_reached = false
    ∧ parse_line sample_ind 1
        (render (([], "loop".toList ++ [':'], ' ') :: ([], "la".toList, ' ')
          :: register_and_word "t0".toList "X".toList) []) start_state
      = .ok { start_state with
          instruction_count := start_state.instruction_count
            + (if "la".toList = "la".toList then 8 else 4),
          hash_table := (hash_insert start_state.hash_table (key_bytes "loop".toList)
            start_state.instruction_count).2,
          line_num := start_state.line_num + 1 } :=
  ⟨rfl, (text_label sample_ind "loop".toList "la".toList
    (register_and_word "t0".toList "X".toList) [] start_state rfl (by decide) (by decide)
    (by decide) (by decide) (by decide) (by decide) (by decide) (by decide)).1⟩

theorem array_line_text (name v c : Str) :
    render (array_line name v c) []
      = name ++ ": .word ".toList ++ v ++ ":".toList ++ c ++ "\n".toList := by
  simp [render, array_line]

theorem array_token_facts (v c : Int) :
    is_operand line_delim (int_text v ++ ':' :: int_text c) = true
    ∧ is_idle (int_text v ++ ':' :: int_text c) = true
    ∧ '.' ∉ render [(([] : Str), int_text v ++ ':' :: int_text c, '\n')] [] := by
  have hv := numeral_facts v
  have hc := numeral_facts c
  have pv := numeral_plain v
  have pc := numeral_plain c
  refine ⟨?_, idle_of_colon _ (by simp), ?_⟩
  · have h1 := hv.2.1
    have h2 := hc.2.1
    simp only [is_operand, Bool.and_eq_true, Bool.not_eq_true', none_in, List.all_eq_true,
      decide_eq_false_iff_not, List.isEmpty_eq_true] at h1 h2 ⊢
    refine ⟨⟨by simp, ?_⟩, ?_⟩
    · intro x hx
      simp only [List.mem_append, List.mem_cons] at hx
      rcases hx with hx | hx | hx
      · exact h1.1.2 x hx
      · subst hx; decide
      · exact h2.1.2 x hx
    · obtain ⟨a, t, hat⟩ := List.exists_cons_of_ne_nil (int_text_ne_nil v)
      rw [hat] at h1 ⊢
      simpa using h1.2
  · simp only [render, List.nil_append, List.mem_append, List.mem_cons, List.not_mem_nil,
      or_false, not_or]
    exact ⟨⟨pv.2.2.1, by decide, pc.2.2.1⟩, by decide⟩

theorem array_line_cut (name : Str) (v c : Int) (h : is_operand line_delim name = true) :
    well_cut line_delim (array_line name (int_text v) (int_text c)) = true := by
  simp only [array_line, well_cut_cons, well_cut_nil, (label_facts name h).1,
    (array_token_facts v c).1]
  decide

/-- Pass 1 on the label of an array declaration in the data segment. -/
theorem process_token_array (ind : Indeterminate) (name : Str) (v c : Int) (st : State)
    (hn : is_operand line_delim name = true) (hd : st.data_reached = true)
    (hc : -2 ^ 31 ≤ c ∧ c < 2 ^ 31) :
    process_token ind 1 (name ++ [':'])
        (render [(([] : Str), ".word".toList, ' '),
          ([], int_text v ++ ':' :: int_text c, '\n')] []) st
      = .ok (render [(([] : Str), ".word".toList, ' '),
              ([], int_text v ++ ':' :: int_text c, '\n')] [],
          { st with
            instruction_count := st.instruction_count + c * 4,
            hash_table := (hash_insert st.hash_table (key_bytes name)
              (st.instruction_count + c * 4)).2 }) := by
  have hf := label_facts name hn
  have pv := numeral_plain v
  have e : render [(([] : Str), ".word".toList, ' '),
      ([], int_text v ++ ':' :: int_text c, '\n')] []
      = ('.' :: ("word ".toList ++ int_text v)) ++ ':' :: (int_text c ++ ['\n']) := by
    simp [render]
  have hword : (strstr (('.' :: ("word ".toList ++ int_text v)) ++ ':' :: (int_text c ++ ['\n']))
      ".word".toList).isSome = true := by
    have e1 : ('.' :: ("word ".toList ++ int_text v)) ++ ':' :: (int_text c ++ ['\n'])
        = ('.' :: "word".toList) ++ (' ' :: (int_text v ++ ':' :: (int_text c ++ ['\n']))) := by
      simp
    have e2 : ".word".toList = '.' :: "word".toList := rfl
    rw [e1, e2, strstr_prefix]
    rfl
  have hcolon : (strstr (('.' :: ("word ".toList ++ int_text v)) ++ ':' :: (int_text c ++ ['\n']))
      [':']).isSome = true := strstr_char_of_mem ':' _ (by simp)
  have hpt : parse_token
      (('.' :: ("word ".toList ++ int_text v)) ++ ':' :: (int_text c ++ ['\n'])) [':']
      = some ('.' :: ("word ".toList ++ int_text v), int_text c ++ ['\n']) := by
    have := parse_token_plain [] ('.' :: ("word ".toList ++ int_text v)) ':'
      (int_text c ++ ['\n']) [':'] rfl (by simp)
      (none_in_of_forall _ _ (by
        intro x hx
        simp only [List.mem_cons, List.mem_append] at hx
        simp only [List.mem_singleton]
        rcases hx with hx | hx | hx
        · subst hx; decide
        · intro hxc; subst hxc; revert hx; decide
        · intro hxc; subst hxc; exact pv.2.2.2.1 hx)) (by simp)
    simpa using this
  have hatoi : atoi (int_text c ++ ['\n']) = c := by
    rw [atoi_int_text_stop c '\n' [] (by decide), wrap32_id c hc]
  have hcond : ((strstr (name ++ [':']) [':']).isSome && decide (st.data_reached = false))
      = false := by simp [hd]
  unfold process_token
  simp only [account_idle _ st hf.2.1, if_true]
  unfold pass1
  rw [e]
  simp only [hcond, hword, hcolon, hpt, hatoi, if_true, Bool.false_eq_true, if_false]
  rw [bind_label_eq, hf.2.2.2]
  rfl

/-- Pass 1 on the label of the declaration of a single word in the data
segment. -/
theorem process_token_single (ind : Indeterminate) (name : Str) (v : Int) (st : State)
    (hn : is_operand line_delim name = true) (hd : st.data_reached = true) :
    process_token ind 1 (name ++ [':'])
        (render [(([] : Str), ".word".toList, ' '), ([], int_text v, '\n')] []) st
      = .ok (render [(([] : Str), ".word".toList, ' '), ([], int_text v, '\n')] [],
          { st with
            instruction_count := st.instruction_count + 4,
            hash_table := (hash_insert st.hash_table (key_bytes name)
              (st.instruction_count + 4)).2 }) := by
  have hf := label_facts name hn
  have hr := word_rest_facts v
  have hcolon := strstr_colon_of_not_mem _ hr.1
  have hcond : ((strstr (name ++ [':']) [':']).isSome && decide (st.data_reached = false))
      = false := by simp [hd]
  unfold process_token
  simp only [account_idle _ st hf.2.1, if_true]
  unfold pass1
  simp only [hcond, hr.2.2, hcolon, if_true, Bool.false_eq_true, if_false]
  rw [bind_label_eq, hf.2.2.2]
  rfl

theorem word_declaration_general (ind : Indeterminate) (name : Str) (v c : Int) (st : State)
    (hd : st.data_reached = true) (hn : is_operand line_delim name = true)
    (hl : name.length ≤ 200) (hv : -2 ^ 31 ≤ v ∧ v < 2 ^ 31) (hc : 0 ≤ c ∧ c < 2 ^ 29) :
    parse_line ind 1
        (name ++ ": .word ".toList ++ int_text v ++ ":".toList ++ int_text c ++ "\n".toList) st
      = .ok { st with
          instruction_count := st.instruction_count + 4 * c,
          hash_table := (hash_insert st.hash_table (key_bytes name)
            (st.instruction_count + 4 * c)).2,
          line_num := st.line_num + 1 }
    ∧ parse_line ind 1 (name ++ ": .word ".toList ++ int_text v ++ "\n".toList) st
      = .ok { st with
          instruction_count := st.instruction_count + 4,
          hash_table := (hash_insert st.hash_table (key_bytes name)
            (st.instruction_count + 4)).2,
          line_num := st.line_num + 1 } := by
  have hvl := int_text_length v hv
  have hcl := int_text_length c ⟨by omega, by omega⟩
  have e1 : ": .word ".toList.length = 8 := by decide
  have e2 : "\n".toList.length = 1 := by decide
  have e3 : ":".toList.length = 1 := by decide
  constructor
  · have hw := array_line_cut name v c hn
    have hw2 := well_cut_tail _ _ _ hw
    have hw3 := well_cut_tail _ _ _ hw2
    have hf := array_token_facts v c
    have hlen : (render (array_line name (int_text v) (int_text c)) []).length < 256 := by
      rw [array_line_text]
      simp only [List.length_append]
      omega
    have h2 : process_token ind 1 ".word".toList
        (render [(([] : Str), int_text v ++ ':' :: int_text c, '\n')] [])
        { st with
          instruction_count := st.instruction_count + c * 4,
          hash_table := (hash_insert st.hash_table (key_bytes name)
            (st.instruction_count + c * 4)).2 }
        = .ok (render [(([] : Str), int_text v ++ ':' :: int_text c, '\n')] [],
          { st with
            instruction_count := st.instruction_count + c * 4,
            hash_table := (hash_insert st.hash_table (key_bytes name)
              (st.instruction_count + c * 4)).2 }) :=
      process_token_quiet ind 1 _ _ _ (by decide) hf.2.2 (Or.inl ⟨rfl, Or.inl hd⟩)
    rw [← array_line_text]
    unfold parse_line
    rw [if_neg (by simp only [MAX_LINE_LENGTH]; omega)]
    unfold array_line at hw ⊢
    rw [token_loop_round ind 1 _ _ _ _ _ _ _ _ _ hw (by omega)
        (process_token_array ind name v c st hn hd ⟨by omega, by omega⟩),
      token_loop_round ind 1 _ _ _ _ _ _ _ _ _ hw2 (by omega) h2,
      token_loop_quiet ind 1 _ [] _
        { st with
          instruction_count := st.instruction_count + c * 4,
          hash_table := (hash_insert st.hash_table (key_bytes name)
            (st.instruction_count + c * 4)).2 } hw3
        (by simp [hf.2.1]) rfl hf.2.2 (Or.inl ⟨rfl, Or.inl hd⟩) (by omega)]
    have e : c * 4 = 4 * c := by ring
    rw [e]
  · have hw := word_line_cut name v hn
    have hw2 := well_cut_tail _ _ _ hw
    have hw3 := well_cut_tail _ _ _ hw2
    have hp := numeral_plain v
    have hr := word_rest_facts v
    have hlen : (render (word_line name (int_text v)) []).length < 256 := by
      rw [word_line_text]
      simp only [List.length_append]
      omega
    have h2 : process_token ind 1 ".word".toList (render [(([] : Str), int_text v, '\n')] [])
        { st with
          instruction_count := st.instruction_count + 4,
          hash_table := (hash_insert st.hash_table (key_bytes name)
            (st.instruction_count + 4)).2 }
        = .ok (render [(([] : Str), int_text v, '\n')] [],
          { st with
            instruction_count := st.instruction_count + 4,
            hash_table := (hash_insert st.hash_table (key_bytes name)
              (st.instruction_count + 4)).2 }) :=
      process_token_quiet ind 1 _ _ _ (by decide) hr.2.1 (Or.inl ⟨rfl, Or.inl hd⟩)
    rw [← word_line_text]
    unfold parse_line
    rw [if_neg (by simp only [MAX_LINE_LENGTH]; omega)]
    unfold word_line at hw ⊢
    rw [token_loop_round ind 1 _ _ _ _ _ _ _ _ _ hw (by omega)
        (process_token_single ind name v st hn hd),
      token_loop_round ind 1 _ _ _ _ _ _ _ _ _ hw2 (by omega) h2,
      token_loop_quiet ind 1 _ [] _
        { st with
          instruction_count := st.instruction_count + 4,
          hash_table := (hash_insert st.hash_table (key_bytes name)
            (st.instruction_count + 4)).2 } hw3
        (by simp [hp.2.1]) rfl hr.2.1 (Or.inl ⟨rfl, Or.inl hd⟩) (by omega)]

/-- C15: in pass 1 in the data segment the line `name: .word v:c`, with a count
`c` from 0 up to `2 ^ 29`, ends with the counter advanced by `4 * c` and the
line `name: .word v` with the counter advanced by 4; in both `name`, without
its colon, is inserted in the table with the counter after the advance, and a
lookup of a name that was not bound before gives that value. -/
theorem word_declaration (ind : Indeterminate) (name : Str) (v c : Int) (st : State)
    (hd : st.data_reached = true) (hn : is_operand line_delim name = true)
    (hl : name.length ≤ 200) (hv : -2 ^ 31 ≤ v ∧ v < 2 ^ 31) (hc : 0 ≤ c ∧ c < 2 ^ 29) :
    parse_line ind 1
        (name ++ ": .word ".toList ++ int_text v ++ ":".toList ++ int_text c ++ "\n".toList) st
      = .ok { st with
          instruction_count := st.instruction_count + 4 * c,
          hash_table := (hash_insert st.hash_table (key_bytes name)
            (st.instruction_count + 4 * c)).2,
          line_num := st.line_num + 1 }
    ∧ parse_line ind 1 (name ++ ": .word ".toList ++ int_text v ++ "\n".toList) st
      = .ok { st with
          instruction_count := st.instruction_count + 4,
          hash_table := (hash_insert st.hash_table (key_bytes name)
            (st.instruction_count + 4)).2,
          line_num := st.line_num + 1 }
    ∧ (∀ a : Int, valid_table st.hash_table = true →
        hash_find st.hash_table (key_bytes name) = none →
        hash_find (hash_insert st.hash_table (key_bytes name) a).2 (key_bytes name) = some a) :=
  ⟨(word_declaration_general ind name v c st hd hn hl hv hc).1,
    (word_declaration_general ind name v c st hd hn hl hv hc).2,
    fun a hv1 hf => hash_find_insert_fresh st.hash_table (key_bytes name) a hv1 hf⟩

set_option maxRecDepth 20000 in
theorem word_declaration_witness :
    (account ".data".toList start_state).data_reached = true
    ∧ parse_line sample_ind 1
        ("arr".toList ++ ": .word ".toList ++ int_text (-7) ++ ":".toList ++ int_text 3
          ++ "\n".toList) (account ".data".toList start_state)
      = .ok { account ".data".toList start_state with
          instruction_count := (account ".data".toList start_state).instruction_count + 4 * 3,
          hash_table := (hash_insert (account ".data".toList start_state).hash_table
            (key_bytes "arr".toList)
            ((account ".data".toList start_state).instruction_count + 4 * 3)).2,
          line_num := (account ".data".toList start_state).line_num + 1 }
    ∧ hash_find (hash_insert (account ".data".toList start_state).hash_table
          (key_bytes "arr".toList) 0x200C).2 (key_bytes "arr".toList) = some 0x200C :=
  ⟨by decide,
    (word_declaration sample_ind "arr".toList (-7) 3 (account ".data".toList start_state)
      (by decide) (by decide) (by decide) (by decide) (by decide)).1,
    (word_declaration sample_ind "arr".toList (-7) 3 (account ".data".toList start_state)
      (by decide) (by decide) (by decide) (by decide) (by decide)).2.2 0x200C (by decide)
      (by decide)⟩

theorem process_nop (ind : Indeterminate) (tok_ptr : Str) (st : State)
    (hd : st.data_reached = false) :
    process_token ind 2 "nop".toList tok_ptr st
      = .ok (tok_ptr,
          { st with Out := st.Out ++ "00000000000000000000000000000000\n".toList }) := by
  have hs : search "nop".toList = -1 := by decide
  have hacc : account "nop".toList st = st := by
    unfold account
    rw [if_neg (by rw [hs]; decide), if_neg (by decide)]
  unfold process_token
  simp only [hacc, hd]
  unfold pass2_text
  simp only [hs, ne_eq, not_true_eq_false, if_false, if_true, hd]
  rfl

theorem nop_general (ind : Indeterminate) (st : State) (hd : st.data_reached = false) :
    parse_line ind 2 "nop\n".toList st
      = .ok { st with
          Out := st.Out ++ "00000000000000000000000000000000\n".toList,
          line_num := st.line_num + 1 } := by
  have ht : parse_token "nop\n".toList line_delim = some ("nop".toList, []) := by decide
  have hn : parse_token [] line_delim = none := by decide
  have hh : ("nop".toList.head? = some '#') = False := by decide
  unfold parse_line
  rw [if_neg (by decide)]
  have e : ("nop\n".toList.length + 1) = 3 + 1 + 1 := by decide
  rw [e]
  simp only [token_loop, ht, hh, if_false, process_nop ind [] st hd, hn]

/-- C30: in pass 2, before `.data`, the round of the token loop on the token
`nop` appends the line of 32 characters `0` and a newline to the output and
changes nothing else: the counter, the region flag, the table and the rest of
the line are as they were; the line `nop` ends in that state with the line
counted. -/
theorem nop_line (ind : Indeterminate) (st : State) (hd : st.data_reached = false) :
    (∀ tok_ptr : Str, process_token ind 2 "nop".toList tok_ptr st
      = .ok (tok_ptr,
          { st with Out := st.Out ++ "00000000000000000000000000000000\n".toList }))
    ∧ parse_line ind 2 "nop\n".toList st
      = .ok { st with
          Out := st.Out ++ "00000000000000000000000000000000\n".toList,
          line_num := st.line_num + 1 }
    ∧ "00000000000000000000000000000000\n".toList = List.replicate 32 '0' ++ ['\n'] :=
  ⟨fun tok_ptr => process_nop ind tok_ptr st hd, nop_general ind st hd, by decide⟩

theorem nop_line_witness :
    start_state.data_reached = false
    ∧ parse_line sample_ind 2 "nop\n".toList start_state
      = .ok { start_state with
          Out := start_state.Out ++ "00000000000000000000000000000000\n".toList,
          line_num := start_state.line_num + 1 } :=
  ⟨rfl, (nop_line sample_ind start_state rfl).2.1⟩

/-! ## The mnemonic tables -/

theorem instruction_type_of_mnemonic (m : Str) (h : m ∈ instructions) :
    (instruction_type m = 'r' ∨ instruction_type m = 'i' ∨ instruction_type m = 'j')
    ∧ (instruction_type m = 'r' ↔ m ∈ rMap.map Prod.fst)
    ∧ (instruction_type m = 'i' ↔ m ∈ iMap.map Prod.fst ∨ m = "la".toList)
    ∧ (instruction_type m = 'j' ↔ m ∈ jMap.map Prod.fst) := by
  have hall : ∀ t ∈ instructions,
      (instruction_type t = 'r' ∨ instruction_type t = 'i' ∨ instruction_type t = 'j')
      ∧ (instruction_type t = 'r' ↔ t ∈ rMap.map Prod.fst)
      ∧ (instruction_type t = 'i' ↔ t ∈ iMap.map Prod.fst ∨ t = "la".toList)
      ∧ (instruction_type t = 'j' ↔ t ∈ jMap.map Prod.fst) := by
    decide
  exact hall m h

theorem instruction_type_of_other (m : Str) (h : m ∉ instructions) :
    instruction_type m = Char.ofNat 0 ∧ m ∉ rMap.map Prod.fst ∧ m ∉ iMap.map Prod.fst
      ∧ m ∉ jMap.map Prod.fst ∧ m ≠ "la".toList := by
  simp only [instructions, List.mem_cons, List.mem_singleton, List.not_mem_nil, or_false,
    not_or] at h
  obtain ⟨h1, h2, h3, h4, h5, h6, h7, h8, h9, h10, h11, h12, h13, h14, h15, h16, h17, h18,
    h19⟩ := h
  refine ⟨?_, ?_, ?_, ?_, h1⟩
  · unfold instruction_type
    simp only [h1, h2, h3, h4, h5, h6, h7, h8, h9, h10, h11, h12, h13, h14,
      h15, h16, h17, h18, h19, decide_False, Bool.or_self, Bool.false_eq_true, if_false]
  · simp only [rMap, List.map_cons, List.map_nil, List.mem_cons, List.mem_singleton,
      List.not_mem_nil, or_false, not_or]
    exact ⟨h5, h6, h9, h8, h14, h12, h15, h18⟩
  · simp only [iMap, List.map_cons, List.map_nil, List.mem_cons, List.mem_singleton,
      List.not_mem_nil, or_false, not_or]
    exact ⟨h3, h4, h11, h10, h2, h16, h13, h7⟩
  · simp only [jMap, List.map_cons, List.map_nil, List.mem_cons, List.mem_singleton,
      List.not_mem_nil, or_false, not_or]
    exact ⟨h17, h19⟩

theorem table_lookups (m : Str) (h : m ∈ instructions) (hla : m ≠ "la".toList) :
    (instruction_type m = 'r' → (last_match rMap m).isSome = true)
    ∧ (instruction_type m = 'i' → (last_match iMap m).isSome = true)
    ∧ (instruction_type m = 'j' → (last_match jMap m).isSome = true) := by
  have hall : ∀ t ∈ instructions, t ≠ "la".toList →
      (instruction_type t = 'r' → (last_match rMap t).isSome = true)
      ∧ (instruction_type t = 'i' → (last_match iMap t).isSome = true)
      ∧ (instruction_type t = 'j' → (last_match jMap t).isSome = true) := by
    decide
  exact hall m h hla

/-- C29: for every string `m`, `search` finds `m` exactly when `m` is one of the
19 mnemonics, which is exactly when `instruction_type` gives `r`, `i` or `j`;
the type is `r` exactly when `m` names an entry of the R-type table, `j` exactly
when it names an entry of the J-type table, and `i` exactly when it names an
entry of the I-type table or is `la`; and the lookup loop of the encoder of its
type finds an entry for every mnemonic other than `la`. -/
theorem mnemonic_tables_agree (m : Str) :
    (search m ≥ 0 ↔ m ∈ instructions)
    ∧ instructions.length = 19 ∧ instructions.Nodup
    ∧ (m ∈ instructions ↔
        (instruction_type m = 'r' ∨ instruction_type m = 'i' ∨ instruction_type m = 'j'))
    ∧ (instruction_type m = 'r' ↔ m ∈ rMap.map Prod.fst)
    ∧ (instruction_type m = 'j' ↔ m ∈ jMap.map Prod.fst)
    ∧ (instruction_type m = 'i' ↔ m ∈ iMap.map Prod.fst ∨ m = "la".toList)
    ∧ (m ∈ instructions → m ≠ "la".toList →
        (instruction_type m = 'r' → (last_match rMap m).isSome = true)
        ∧ (instruction_type m = 'i' → (last_match iMap m).isSome = true)
        ∧ (instruction_type m = 'j' → (last_match jMap m).isSome = true)) := by
  refine ⟨search_nonneg_iff m, by decide, by decide, ?_, ?_, ?_, ?_, table_lookups m⟩
  · by_cases h : m ∈ instructions
    · exact ⟨fun _ => (instruction_type_of_mnemonic m h).1, fun _ => h⟩
    · have ho := (instruction_type_of_other m h).1
      constructor
      · intro hm; exact absurd hm h
      · rw [ho]
        have hn : ¬ (Char.ofNat 0 = 'r' ∨ Char.ofNat 0 = 'i' ∨ Char.ofNat 0 = 'j') := by decide
        intro hc; exact absurd hc hn
  · by_cases h : m ∈ instructions
    · exact (instruction_type_of_mnemonic m h).2.1
    · have ho := instruction_type_of_other m h
      rw [ho.1]
      exact ⟨fun hc => absurd hc (by decide), fun hc => absurd hc ho.2.1⟩
  · by_cases h : m ∈ instructions
    · exact (instruction_type_of_mnemonic m h).2.2.2
    · have ho := instruction_type_of_other m h
      rw [ho.1]
      exact ⟨fun hc => absurd hc (by decide), fun hc => absurd hc ho.2.2.2.1⟩
  · by_cases h : m ∈ instructions
    · exact (instruction_type_of_mnemonic m h).2.2.1
    · have ho := instruction_type_of_other m h
      rw [ho.1]
      refine ⟨fun hc => absurd hc (by decide), fun hc => ?_⟩
      rcases hc with hc | hc
      · exact absurd hc ho.2.2.1
      · exact absurd hc ho.2.2.2.2

/-! ## tokenizer.h -/

theorem split_at_delimiter (delim : Str) : ∀ u : Str, (∃ d ∈ u, d ∈ delim) →
    ∃ (a : Str) (d : Char) (b : Str), u = a ++ d :: b ∧ none_in a delim = true ∧ d ∈ delim := by
  intro u
  induction u with
  | nil => intro h; obtain ⟨d, hd, _⟩ := h; simp at hd
  | cons x xs ih =>
    intro h
    by_cases hx : x ∈ delim
    · exact ⟨[], x, xs, rfl, rfl, hx⟩
    · obtain ⟨d, hd, hdd⟩ := h
      simp only [List.mem_cons] at hd
      have hxs : ∃ d ∈ xs, d ∈ delim := by
        rcases hd with hd | hd
        · subst hd; exact absurd hdd hx
        · exact ⟨d, hd, hdd⟩
      obtain ⟨a, d1, b, hu, ha, hd1⟩ := ih hxs
      refine ⟨x :: a, d1, b, by rw [hu]; rfl, ?_, hd1⟩
      simp only [none_in, List.all_cons, Bool.and_eq_true, Bool.not_eq_true',
        decide_eq_false_iff_not]
      exact ⟨hx, by simpa [none_in] using ha⟩

theorem parse_token_next_general (pre u delim : Str) (c : Char)
    (hpre : all_in pre delim = true) (hc : c ∉ delim) (hu : ∃ d ∈ u, d ∈ delim) :
    ∃ (tok rest : Str) (d : Char),
      parse_token (pre ++ c :: u) delim = some (tok, rest)
      ∧ pre ++ c :: u = pre ++ (tok ++ d :: rest)
      ∧ d ∈ delim ∧ tok ≠ [] ∧ none_in tok delim = true ∧ tok.head? = some c := by
  obtain ⟨a, d, b, hab, ha, hd⟩ := split_at_delimiter delim u hu
  have hno : none_in (c :: a) delim = true := by
    simp only [none_in, List.all_cons, Bool.and_eq_true, Bool.not_eq_true',
      decide_eq_false_iff_not]
    exact ⟨hc, by simpa [none_in] using ha⟩
  refine ⟨c :: a, b, d, ?_, by rw [hab]; rfl, hd, by simp, hno, rfl⟩
  rw [hab]
  exact parse_token_plain pre (c :: a) d b delim hpre (by simp) hno hd

/-- C27: when the leading run of delimiters of the input is followed by a
character `c` that is no delimiter and a delimiter occurs somewhere after `c`,
`parse_token` returns a token and a cursor such that the input is the leading
run, the token, one delimiter and the text at the cursor; the token starts with
`c`, is not empty and holds no delimiter, so it ends just before the first
delimiter after `c`. -/
theorem parse_token_next (pre u delim : Str) (c : Char)
    (hpre : all_in pre delim = true) (hc : c ∉ delim) (hu : ∃ d ∈ u, d ∈ delim) :
    ∃ (tok rest : Str) (d : Char),
      parse_token (pre ++ c :: u) delim = some (tok, rest)
      ∧ pre ++ c :: u = pre ++ (tok ++ d :: rest)
      ∧ d ∈ delim ∧ tok ≠ [] ∧ none_in tok delim = true ∧ tok.head? = some c :=
  parse_token_next_general pre u delim c hpre hc hu

theorem parse_token_next_witness :
    all_in "  ".toList line_delim = true ∧ 'a' ∉ line_delim
    ∧ (∃ d ∈ "dd $t0, $t1\n".toList, d ∈ line_delim)
    ∧ ∃ (tok rest : Str) (d : Char),
      parse_token ("  ".toList ++ 'a' :: "dd $t0, $t1\n".toList) line_delim = some (tok, rest)
      ∧ "  ".toList ++ 'a' :: "dd $t0, $t1\n".toList = "  ".toList ++ (tok ++ d :: rest)
      ∧ d ∈ line_delim ∧ tok ≠ [] ∧ none_in tok line_delim = true ∧ tok.head? = some 'a' :=
  ⟨by decide, by decide, ⟨' ', by decide, by decide⟩,
    parse_token_next "  ".toList "dd $t0, $t1\n".toList line_delim 'a' (by decide) (by decide)
      ⟨' ', by decide, by decide⟩⟩

theorem strpbrk_none_iff (delim : Str) : ∀ s : Str,
    strpbrk s delim = none ↔ none_in s delim = true := by
  intro s
  induction s with
  | nil => simp [strpbrk, none_in]
  | cons x xs ih =>
    simp only [strpbrk, none_in, List.all_cons, Bool.and_eq_true, Bool.not_eq_true',
      decide_eq_false_iff_not]
    by_cases hx : x ∈ delim
    · simp [hx]
    · simp only [hx, if_false, not_false_eq_true, true_and]
      rw [ih]; rfl

theorem parse_token_none_general (s delim : Str) :
    parse_token s delim = none ↔ none_in (s.drop (strspn s delim)) delim = true := by
  rw [← strpbrk_none_iff]
  unfold parse_token
  simp only
  split
  · rename_i h; simp [h]
  · rename_i t h; simp [h]

theorem parse_token_final (pre tok delim : Str) (hpre : all_in pre delim = true)
    (hno : none_in tok delim = true) : parse_token (pre ++ tok) delim = none := by
  rw [parse_token_none_general]
  have hsp : strspn (pre ++ tok) delim = pre.length := by
    apply strspn_all_in _ _ _ hpre
    intro c r hcr
    rw [hcr] at hno
    simp only [none_in, List.all_cons, Bool.and_eq_true, Bool.not_eq_true',
      decide_eq_false_iff_not] at hno
    exact hno.1
  rw [hsp, List.drop_left]
  exact hno

/-- C28 (as amended): `parse_token` returns NULL exactly when no delimiter is
left after the leading run of delimiters of the input.  That is so when the
input is empty or holds delimiters only, and also when a token runs to the end
of the input with no delimiter after it: such a final token is not returned. -/
theorem parse_token_none_iff (s delim : Str) :
    (parse_token s delim = none ↔ none_in (s.drop (strspn s delim)) delim = true)
    ∧ (all_in s delim = true → parse_token s delim = none)
    ∧ (∀ pre tok : Str, s = pre ++ tok → all_in pre delim = true →
        none_in tok delim = true → parse_token s delim = none) :=
  ⟨parse_token_none_general s delim, parse_token_tail delim s,
    fun pre tok hs hpre hno => by rw [hs]; exact parse_token_final pre tok delim hpre hno⟩

theorem parse_token_none_iff_witness :
    all_in "  ".toList line_delim = true ∧ none_in "loop".toList line_delim = true
    ∧ parse_token "  loop".toList line_delim = none :=
  ⟨by decide, by decide,
    (parse_token_none_iff "  loop".toList line_delim).2.2 "  ".toList "loop".toList
      (by decide) (by decide) (by decide)⟩

/-- C28 as the claim words it: the input `j loop` holds characters that are no
delimiters, and after the token `j` its final token `loop` runs to the end of
the input; `parse_token` returns `j`, and on the rest, `loop`, it returns NULL,
as it does on the input `abc` for the delimiter set of a blank. -/
theorem parse_token_none_iff_counterexample :
    parse_token "j loop".toList line_delim = some ("j".toList, "loop".toList)
    ∧ all_in "loop".toList line_delim = false ∧ "loop".toList ≠ []
    ∧ parse_token "loop".toList line_delim = none
    ∧ parse_token "abc".toList [' '] = none :=
  ⟨by decide, by decide, by decide, by decide, by decide⟩

/-! ## Lines longer than the line buffer -/

theorem fgets_chars_length : ∀ (n : Nat) (s : Str), (fgets_chars n s).1.length ≤ n := by
  intro n
  induction n with
  | zero => intro s; simp [fgets_chars]
  | succ n ih =>
    intro s
    cases s with
    | nil => simp [fgets_chars]
    | cons c cs =>
      simp only [fgets_chars]
      split
      · simp
      · have := ih cs
        simp only [List.length_cons]
        omega

/-- The test `strlen(line) == MAX_LINE_LENGTH` fails for every line `fgets`
hands over: the line goes to the token loop. -/
theorem parse_line_of_fgets (ind : Indeterminate) (pass : Int) (fptr : Str) (st : State) :
    parse_line ind pass (fgets_chars (MAX_LINE_LENGTH - 1) fptr).1 st
      = token_loop ind pass ((fgets_chars (MAX_LINE_LENGTH - 1) fptr).1.length + 1)
          (fgets_chars (MAX_LINE_LENGTH - 1) fptr).1 st := by
  have h := fgets_chars_length (MAX_LINE_LENGTH - 1) fptr
  unfold parse_line
  rw [if_neg (by simp only [MAX_LINE_LENGTH] at h ⊢; omega)]

set_option maxRecDepth 100000 in
/-- C26, the code at a source line of 268 characters (`add $t0, $t1, $t2`, 250
blanks, newline): `fgets` hands over at most 255 characters at a time, so the
test for a line that is too long never succeeds; pass 2 reads the line in two
pieces, encodes the instruction, advances the counter by 4 and writes no
diagnostic. -/
theorem long_line_processed :
    long_source.length = 268
    ∧ (∀ fptr : Str, (fgets_chars (MAX_LINE_LENGTH - 1) fptr).1.length < MAX_LINE_LENGTH)
    ∧ (∀ (ind : Indeterminate) (pass : Int) (fptr : Str) (st : State),
        parse_line ind pass (fgets_chars (MAX_LINE_LENGTH - 1) fptr).1 st
          = token_loop ind pass ((fgets_chars (MAX_LINE_LENGTH - 1) fptr).1.length + 1)
              (fgets_chars (MAX_LINE_LENGTH - 1) fptr).1 st)
    ∧ parse_file sample_ind long_source 2 (create_hash_table 127) []
      = .ok { instruction_count := 4, data_reached := false, line_num := 3,
              hash_table := create_hash_table 127,
              Out := "00000001001010100100000000100000\n".toList } :=
  ⟨by decide,
    fun fptr => by
      have h := fgets_chars_length (MAX_LINE_LENGTH - 1) fptr
      simp only [MAX_LINE_LENGTH] at h ⊢
      omega,
    parse_line_of_fgets, rfl⟩

/-! ## Register names that are not in the table -/

theorem encode_three_registers_any (ind : Indeterminate) (m rd rs rt Out : Str)
    (hd : is_operand operand_delim rd = true) (hs : is_operand operand_delim rs = true)
    (ht : is_operand operand_delim rt = true) :
    encode_three_registers ind m (render (three_operands rd rs rt) []) Out
      = .ok (Out ++ ("000000".toList ++ show_s (reg_bin rs) ++ show_s (reg_bin rt)
          ++ show_s (reg_bin rd) ++ twos_complement 5 0
          ++ show_s (last_match rMap m) ++ ['\n'])) := by
  have hw : well_cut operand_delim (three_operands rd rs rt) = true := by
    simp only [three_operands, well_cut_cons, well_cut_nil, hd, hs, ht]
    decide
  unfold encode_three_registers
  rw [operand_loop_render operand_delim _ [] _ _ 0 hw rfl (by omega)
    (by simp [three_operands, fresh_slots])]
  simp only [three_operands, List.map_cons, List.map_nil, slot_store_3, slot,
    List.getD_cons_zero, List.getD_cons_succ, rtype_instruction_eq]

theorem three_register_any (ind : Indeterminate) (st : State)
    (htext : st.data_reached = false) (m f rd rs rt : Str)
    (hm : m ∈ ["add".toList, "sub".toList, "and".toList, "or".toList, "slt".toList])
    (hf : (m, f) ∈ rMap) (hrd : is_label rd = true) (hrs : is_label rs = true)
    (hrt : is_label rt = true) (hlen : rd.length + rs.length + rt.length ≤ 200) :
    parse_line ind 2
        (m ++ " $".toList ++ rd ++ ", $".toList ++ rs ++ ", $".toList ++ rt ++ "\n".toList) st
      = .ok { st with
          instruction_count := st.instruction_count + 4,
          line_num := st.line_num + 1,
          Out := st.Out ++ ("000000".toList ++ show_s (reg_bin rs) ++ show_s (reg_bin rt)
            ++ show_s (reg_bin rd) ++ "00000".toList ++ f ++ "\n".toList) } := by
  obtain ⟨h1, h2, h3, h4, h5, h6, h7, hop, hml⟩ := mnemonic_facts_three m f hm hf
  simp only [is_label, Bool.and_eq_true, decide_eq_true_eq] at hrd hrs hrt
  obtain ⟨⟨⟨hod, hld⟩, hid⟩, _⟩ := hrd
  obtain ⟨⟨⟨hos, hls⟩, his⟩, _⟩ := hrs
  obtain ⟨⟨⟨hot, hlt⟩, hit⟩, _⟩ := hrt
  have hp : process_token ind 2 m (render (three_operands rd rs rt) []) st
      = .ok (render (three_operands rd rs rt) [],
          { st with
            instruction_count := st.instruction_count + 4,
            Out := st.Out ++ ("000000".toList ++ show_s (reg_bin rs) ++ show_s (reg_bin rt)
              ++ show_s (reg_bin rd) ++ "00000".toList ++ f ++ "\n".toList) }) := by
    have e5 : twos_complement 5 0 = "00000".toList := by decide
    unfold process_token account
    simp only [h1, if_true, if_neg h3, htext]
    unfold pass2_text
    simp only [h2, ne_eq, not_false_eq_true, if_true, h4, h5,
      encode_three_registers_any ind m rd rs rt _ hod hos hot, Except.map, if_neg h7, h6,
      show_s, e5]
    rw [if_neg (by decide)]
    rfl
  have hline : m ++ " $".toList ++ rd ++ ", $".toList ++ rs ++ ", $".toList ++ rt
      ++ "\n".toList = render (([], m, ' ') :: three_operands rd rs rt) [] := by
    simp [render, three_operands]
  rw [hline]
  rw [parse_line_mnemonic ind m (three_operands rd rs rt) st _ hop
    (by simp only [three_operands, well_cut_cons, well_cut_nil, hld, hls, hlt]; decide)
    (by simp [three_operands, hid, his, hit])
    hp htext
    (by simp [render, three_operands]; omega)]

theorem encode_immediate_any (ind : Indeterminate) (m rt rs Out : Str) (imm : Int)
    (ht : is_operand operand_delim rt = true) (hs : is_operand operand_delim rs = true) :
    encode_immediate ind m (render (two_and_number rt rs (int_text imm)) []) Out
      = .ok (Out ++ (show_s (last_match iMap m) ++ show_s (reg_bin rs) ++ show_s (reg_bin rt)
          ++ twos_complement 16 imm ++ ['\n'])) := by
  obtain ⟨hon, _⟩ := numeral_facts imm
  have hw : well_cut operand_delim (two_and_number rt rs (int_text imm)) = true := by
    simp only [two_and_number, well_cut_cons, well_cut_nil, ht, hs, hon]
    decide
  unfold encode_immediate
  rw [operand_loop_render operand_delim _ [] _ _ 0 hw rfl (by omega)
    (by simp [two_and_number, fresh_slots])]
  simp only [two_and_number, List.map_cons, List.map_nil, slot_store_3, slot,
    List.getD_cons_zero, List.getD_cons_succ, itype_instruction_eq,
    atoi_int_text, twos_complement_16_wrap]

theorem immediate_any (ind : Indeterminate) (st : State)
    (htext : st.data_reached = false) (m op rt rs : Str) (imm : Int)
    (hm : m ∈ ["andi".toList, "ori".toList, "slti".toList, "addi".toList])
    (hf : (m, op) ∈ iMap) (hrt : is_label rt = true) (hrs : is_label rs = true)
    (hlen : rt.length + rs.length ≤ 200) (himm : -2 ^ 31 ≤ imm ∧ imm < 2 ^ 31) :
    parse_line ind 2
        (m ++ " $".toList ++ rt ++ ", $".toList ++ rs ++ ", ".toList ++ int_text imm
          ++ "\n".toList) st
      = .ok { st with
          instruction_count := st.instruction_count + 4,
          line_num := st.line_num + 1,
          Out := st.Out ++ (op ++ show_s (reg_bin rs) ++ show_s (reg_bin rt)
            ++ twos_complement 16 imm ++ "\n".toList) } := by
  obtain ⟨h1, h2, h3, h4, h5, h6, h7, h8, hop, hml⟩ := mnemonic_facts_immediate m op hm hf
  simp only [is_label, Bool.and_eq_true, decide_eq_true_eq] at hrt hrs
  obtain ⟨⟨⟨hot, hlt⟩, hit⟩, _⟩ := hrt
  obtain ⟨⟨⟨hos, hls⟩, his⟩, _⟩ := hrs
  obtain ⟨_, hln, _, hin, _⟩ := numeral_facts imm
  have hnl := int_text_length imm himm
  have hp : process_token ind 2 m (render (two_and_number rt rs (int_text imm)) []) st
      = .ok (render (two_and_number rt rs (int_text imm)) [],
          { st with
            instruction_count := st.instruction_count + 4,
            Out := st.Out ++ (op ++ show_s (reg_bin rs) ++ show_s (reg_bin rt)
              ++ twos_complement 16 imm ++ "\n".toList) }) := by
    unfold process_token account
    simp only [h1, if_true, if_neg h3, htext]
    unfold pass2_text
    simp only [h2, ne_eq, not_false_eq_true, if_true, h4, h5, h6,
      encode_immediate_any ind m rt rs _ imm hot hos, Except.map, if_neg h8, if_neg h3, h7,
      show_s]
    rw [if_neg (by decide), if_neg (by decide)]
    simp
  have hline : m ++ " $".toList ++ rt ++ ", $".toList ++ rs ++ ", ".toList ++ int_text imm
      ++ "\n".toList = render (([], m, ' ') :: two_and_number rt rs (int_text imm)) [] := by
    simp [render, two_and_number]
  rw [hline]
  rw [parse_line_mnemonic ind m (two_and_number rt rs (int_text imm)) st _ hop
    (by simp only [two_and_number, well_cut_cons, well_cut_nil, hlt, hls, hln]; decide)
    (by simp [two_and_number, hit, his, hin])
    hp htext
    (by simp [render, two_and_number]; omega)]

set_option maxRecDepth 20000 in
/-- C25, the code at register names that are not in the table: `register_address`
returns NULL for `ra` and `sp`, the encoders never end the run and always write
a line, and a NULL register field is printed by `fprintf` as the text `(null)`:
`add $ra, $t0, $t1` writes `0000000100001001(null)00000100000` and
`addi $t0, $sp, 4` writes `001000(null)010000000000000000100`, and the run goes
on to the next line. -/
theorem undefined_register_printed (ind : Indeterminate) :
    register_address "ra".toList = none ∧ register_address "sp".toList = none
    ∧ (∀ (instruction rs rt rd : Str) (shamt : Int) (Out : Str),
        rtype_instruction ind instruction rs rt rd shamt Out
          = .ok (Out ++ ("000000".toList ++ show_s (reg_bin rs) ++ show_s (reg_bin rt)
              ++ show_s (reg_bin rd) ++ twos_complement 5 shamt
              ++ show_s (last_match rMap instruction) ++ ['\n'])))
    ∧ (∀ (instruction rs rt : Str) (imm : Int) (Out : Str),
        itype_instruction ind instruction rs rt imm Out
          = .ok (Out ++ (show_s (last_match iMap instruction) ++ show_s (reg_bin rs)
              ++ show_s (reg_bin rt) ++ twos_complement 16 imm ++ ['\n'])))
    ∧ parse_line ind 2 "add $ra, $t0, $t1\n".toList start_state
      = .ok { start_state with
          instruction_count := 4, line_num := 2,
          Out := "0000000100001001(null)00000100000\n".toList }
    ∧ parse_line ind 2 "addi $t0, $sp, 4\n".toList start_state
      = .ok { start_state with
          instruction_count := 4, line_num := 2,
          Out := "001000(null)010000000000000000100\n".toList } := by
  refine ⟨by decide, by decide, rtype_instruction_eq ind, itype_instruction_eq ind, ?_, ?_⟩
  · have h := three_register_any ind start_state rfl "add".toList "100000".toList
      "ra".toList "t0".toList "t1".toList (by decide) (by decide) (by decide) (by decide)
      (by decide) (by decide)
    have e1 : "add".toList ++ " $".toList ++ "ra".toList ++ ", $".toList ++ "t0".toList
        ++ ", $".toList ++ "t1".toList ++ "\n".toList = "add $ra, $t0, $t1\n".toList := by
      decide
    rw [e1] at h
    rw [h]
    exact congrArg Except.ok (by decide)
  · have h := immediate_any ind start_state rfl "addi".toList "001000".toList
      "t0".toList "sp".toList 4 (by decide) (by decide) (by decide) (by decide)
      (by decide) (by decide)
    have e1 : "addi".toList ++ " $".toList ++ "t0".toList ++ ", $".toList ++ "sp".toList
        ++ ", ".toList ++ int_text 4 ++ "\n".toList = "addi $t0, $sp, 4\n".toList := by
      decide
    rw [e1] at h
    rw [h]
    exact congrArg Except.ok (by decide)

/-! ## Labels that are not in the table -/

theorem encode_jump_unbound (ind : Indeterminate) (token tok_ptr : Str) (t : hash_table_t)
    (Out : Str) (h : hash_find t (key_bytes (jump_label tok_ptr)) = none) :
    encode_jump ind token tok_ptr t Out = .error .null_deref := by
  unfold encode_jump
  rw [h]

/-- A round of the token loop that ends the run. -/
theorem token_loop_fault (ind : Indeterminate) (pass : Int) (pre tok : Str) (d : Char)
    (xs : List (Str × Str × Char)) (tail : Str) (fuel : Nat) (st : State) (e : Fault)
    (hw : well_cut line_delim ((pre, tok, d) :: xs) = true)
    (h : process_token ind pass tok (render xs tail) st = .error e) :
    token_loop ind pass (fuel + 1) (render ((pre, tok, d) :: xs) tail) st = .error e := by
  have hpt := parse_token_render line_delim pre tok d xs tail hw
  simp only [token_loop, hpt, well_cut_head line_delim pre tok d xs hw, if_false, h]

theorem encode_la_unbound (ind : Indeterminate) (rt lab Out : Str) (t : hash_table_t)
    (hrt : is_operand operand_delim rt = true) (hlab : is_operand operand_delim lab = true)
    (hfind : hash_find t (key_bytes lab) = none) :
    encode_la ind (render (register_and_word rt lab) []) t Out = .error .null_deref := by
  have hw : well_cut operand_delim (register_and_word rt lab) = true := by
    simp only [register_and_word, well_cut_cons, well_cut_nil, hrt, hlab]
    decide
  unfold encode_la
  rw [operand_loop_render operand_delim _ [] _ _ 0 hw rfl (by omega)
    (by simp [register_and_word, fresh_slots])]
  simp only [register_and_word, List.map_cons, List.map_nil, slot_store_2, slot,
    List.getD_cons_zero, List.getD_cons_succ, hfind]

/-- Pass 2 on the line `la $rt, label` with a label that is not in the table. -/
theorem la_unbound (ind : Indeterminate) (st : State) (htext : st.data_reached = false)
    (rt lab : Str) (hrt : is_label rt = true) (hlab : is_label lab = true)
    (hlen : rt.length + lab.length ≤ 200)
    (hfind : hash_find st.hash_table (key_bytes lab) = none) :
    parse_line ind 2 ("la".toList ++ " $".toList ++ rt ++ ", ".toList ++ lab ++ "\n".toList) st
      = .error .null_deref := by
  simp only [is_label, Bool.and_eq_true, decide_eq_true_eq] at hrt hlab
  obtain ⟨⟨⟨hot, hlt⟩, _⟩, hrl⟩ := hrt
  obtain ⟨⟨⟨hol, hll⟩, _⟩, hlab_len⟩ := hlab
  have h1 : search "la".toList ≥ 0 := by decide
  have h2 : search "la".toList ≠ -1 := by decide
  have h4 : instruction_type "la".toList = 'i' := by decide
  have hp : process_token ind 2 "la".toList (render (register_and_word rt lab) []) st
      = .error .null_deref := by
    unfold process_token account
    simp only [h1, if_true, htext]
    unfold pass2_text
    simp only [h2, ne_eq, not_false_eq_true, if_true, h4,
      encode_la_unbound ind rt lab _ _ hot hol hfind, Except.map]
    rw [if_neg (by decide), if_neg (by decide)]
  have hw : well_cut line_delim (([], "la".toList, ' ') :: register_and_word rt lab) = true := by
    simp only [register_and_word, well_cut_cons, well_cut_nil, hlt, hll]
    decide
  have hline : "la".toList ++ " $".toList ++ rt ++ ", ".toList ++ lab ++ "\n".toList
      = render (([], "la".toList, ' ') :: register_and_word rt lab) [] := by
    simp [render, register_and_word]
  rw [hline]
  unfold parse_line
  split
  · rename_i hl
    exfalso
    rw [← hline] at hl
    simp only [List.length_append, MAX_LINE_LENGTH] at hl
    have a1 : "la".toList.length = 2 := by decide
    have a2 : " $".toList.length = 2 := by decide
    have a3 : ", ".toList.length = 2 := by decide
    have a4 : "\n".toList.length = 1 := by decide
    omega
  · exact token_loop_fault ind 2 _ _ _ _ _ _ st _ hw hp

set_option maxRecDepth 20000 in
/-- C24, the code at a label that is not in the table: pass 2 on each of the
lines `j nowhere`, `jal nowhere`, `beq $t0, $t1, nowhere` and `la $t0, nowhere`
with an empty table ends, without a line written, in the dereference of the NULL
pointer `hash_find` returned; the J-type branch dereferences it whenever the
lookup fails. -/
theorem undefined_label_dereferenced (ind : Indeterminate) :
    hash_find (create_hash_table 127) (key_bytes "nowhere".toList) = none
    ∧ parse_line ind 2 "j nowhere\n".toList start_state = .error .null_deref
    ∧ parse_line ind 2 "jal nowhere\n".toList start_state = .error .null_deref
    ∧ parse_line ind 2 "beq $t0, $t1, nowhere\n".toList start_state = .error .null_deref
    ∧ parse_line ind 2 "la $t0, nowhere\n".toList start_state = .error .null_deref
    ∧ (∀ (token tok_ptr : Str) (t : hash_table_t) (Out : Str),
        hash_find t (key_bytes (jump_label tok_ptr)) = none →
        encode_jump ind token tok_ptr t Out = .error .null_deref) :=
  ⟨by decide, rfl, rfl, rfl,
    la_unbound ind start_state rfl "t0".toList "nowhere".toList (by decide) (by decide)
      (by decide) (by decide),
    encode_jump_unbound ind⟩

/-! ## ascii_rep and word_rep -/

/-- The digits `(x & (1 << k)) ? 1 : 0` for `k` from `w - 1` down to 0 are the
binary numeral of `x`. -/
theorem mask_digits (w x : Nat) :
    (List.range w).map (fun i => if x &&& (1 <<< (w - 1 - i)) ≠ 0 then '1' else '0')
      = binary_numeral w x := by
  rw [binary_numeral_eq_map]
  apply List.map_congr_left
  intro i _
  have h := mask_digit (w - 1 - i) x
  rw [Nat.one_shiftLeft, Nat.and_comm]
  by_cases hb : x / 2 ^ (w - 1 - i) % 2 = 1
  · rw [if_pos (h.2 hb), if_pos hb]
  · rw [if_neg (fun hc => hb (h.1 hc)), if_neg hb]

theorem byte_digits (c : Char) :
    (List.range 8).map (fun i => if c.toNat &&& (1 <<< (7 - i)) ≠ 0 then '1' else '0')
      = binary_numeral 8 c.toNat :=
  mask_digits 8 c.toNat

/-- The output of `ascii_rep`, line by line. -/
theorem ascii_rep_lines (ind : Indeterminate) (s Out : Str) :
    ascii_rep ind s Out
      = Out ++ ((List.range ((s.length + 1) / 4 + (if (s.length + 1) % 4 > 0 then 1 else 0))).map
          (fun g => ascii_line ind s g ++ ['\n'])).flatten := by
  unfold ascii_rep
  simp only [List.map_map]
  congr 2
  apply List.map_congr_left
  intro g _
  have e4 : List.range 4 = [0, 1, 2, 3] := by decide
  simp only [Function.comp, e4, List.map_cons, List.map_nil, List.reverse_cons,
    List.reverse_nil, List.nil_append, List.cons_append, List.flatten_cons, List.flatten_nil,
    byte_digits, List.append_nil, ascii_line, ascii_cell, Nat.add_zero, List.append_assoc]

theorem ascii_line_length (ind : Indeterminate) (s : Str) (g : Nat) :
    (ascii_line ind s g).length = 32 := by
  simp [ascii_line, binary_numeral_length]

theorem ascii_line_full (ind : Indeterminate) (s : Str) (g : Nat)
    (h : 4 * g + 3 < s.length + 1) :
    ascii_line ind s g
      = binary_numeral 8 ((s ++ [Char.ofNat 0]).getD (4 * g + 3) (Char.ofNat 0)).toNat
        ++ binary_numeral 8 ((s ++ [Char.ofNat 0]).getD (4 * g + 2) (Char.ofNat 0)).toNat
        ++ binary_numeral 8 ((s ++ [Char.ofNat 0]).getD (4 * g + 1) (Char.ofNat 0)).toNat
        ++ binary_numeral 8 ((s ++ [Char.ofNat 0]).getD (4 * g) (Char.ofNat 0)).toNat := by
  unfold ascii_line ascii_cell
  rw [if_pos h, if_pos (by omega), if_pos (by omega), if_pos (by omega)]
  rfl

theorem ascii_cell_filler (ind : Indeterminate) (s : Str) (h : (s.length + 1) % 4 ≠ 0) :
    (s.length + 1) / 4 < (s.length + 1) / 4 + (if (s.length + 1) % 4 > 0 then 1 else 0)
    ∧ ascii_cell ind s ((s.length + 1) / 4) 3 = ind.byte ((s.length + 1) / 4) 3 := by
  constructor
  · rw [if_pos (by omega)]; omega
  · unfold ascii_cell
    rw [if_neg (by omega)]

/-- C22: `ascii_rep` writes one line for every block of four bytes of the
string and its terminator, `(strlen + 1) / 4` lines and one more when the
division leaves a remainder; every line has 32 digits and a newline; and for a
block `g` whose four positions lie within the string and its terminator the
line is the eight digit binary numerals of the bytes at `4g+3`, `4g+2`, `4g+1`
and `4g`, in that order. -/
theorem ascii_rep_blocks (ind : Indeterminate) (s Out : Str) :
    ascii_rep ind s Out
      = Out ++ ((List.range ((s.length + 1) / 4 + (if (s.length + 1) % 4 > 0 then 1 else 0))).map
          (fun g => ascii_line ind s g ++ ['\n'])).flatten
    ∧ (s.length + 1) / 4 + (if (s.length + 1) % 4 > 0 then 1 else 0) = (s.length + 1 + 3) / 4
    ∧ (∀ g : Nat, (ascii_line ind s g).length = 32)
    ∧ (∀ g : Nat, 4 * g + 3 < s.length + 1 →
        ascii_line ind s g
          = binary_numeral 8 ((s ++ [Char.ofNat 0]).getD (4 * g + 3) (Char.ofNat 0)).toNat
            ++ binary_numeral 8 ((s ++ [Char.ofNat 0]).getD (4 * g + 2) (Char.ofNat 0)).toNat
            ++ binary_numeral 8 ((s ++ [Char.ofNat 0]).getD (4 * g + 1) (Char.ofNat 0)).toNat
            ++ binary_numeral 8 ((s ++ [Char.ofNat 0]).getD (4 * g) (Char.ofNat 0)).toNat) := by
  refine ⟨ascii_rep_lines ind s Out, ?_, ascii_line_length ind s, ascii_line_full ind s⟩
  split <;> omega

set_option maxRecDepth 20000 in
theorem ascii_rep_blocks_witness :
    4 * 0 + 3 < "abc".toList.length + 1
    ∧ ascii_rep sample_ind "abc".toList [] = "00000000011000110110001001100001\n".toList
    ∧ ascii_line sample_ind "abc".toList 0
        = binary_numeral 8 (("abc".toList ++ [Char.ofNat 0]).getD (4 * 0 + 3) (Char.ofNat 0)).toNat
          ++ binary_numeral 8
              (("abc".toList ++ [Char.ofNat 0]).getD (4 * 0 + 2) (Char.ofNat 0)).toNat
          ++ binary_numeral 8
              (("abc".toList ++ [Char.ofNat 0]).getD (4 * 0 + 1) (Char.ofNat 0)).toNat
          ++ binary_numeral 8 (("abc".toList ++ [Char.ofNat 0]).getD (4 * 0) (Char.ofNat 0)).toNat :=
  ⟨by decide, by decide,
    (ascii_rep_blocks sample_ind "abc".toList []).2.2.2 0 (by decide)⟩

set_option maxRecDepth 20000 in
/-- C23, the code at `ascii_rep("hi")`: three bytes of the one block of four are
stored, the fourth is read as `malloc` left it, and its eight digits open the
line; the other 24 digits are the terminator, `i` and `h`.  Where that byte is
the character `x` the line is 01111000000000000110100101101000, not the
00000000000000000110100101101000 the claim expects; and whenever the length of
the string plus one is no multiple of 4 the block of index `(strlen + 1) / 4`
is printed and its last byte is such a byte. -/
theorem ascii_rep_filler (ind : Indeterminate) :
    ascii_rep ind "hi".toList []
      = binary_numeral 8 (ind.byte 0 3).toNat ++ "000000000110100101101000\n".toList
    ∧ ascii_rep sample_ind "hi".toList [] = "01111000000000000110100101101000\n".toList
    ∧ ascii_rep sample_ind "hi".toList [] ≠ "00000000000000000110100101101000\n".toList
    ∧ (∀ s : Str, (s.length + 1) % 4 ≠ 0 →
        (s.length + 1) / 4 < (s.length + 1) / 4 + (if (s.length + 1) % 4 > 0 then 1 else 0)
        ∧ ascii_cell ind s ((s.length + 1) / 4) 3 = ind.byte ((s.length + 1) / 4) 3) := by
  refine ⟨?_, by decide, by decide, ascii_cell_filler ind⟩
  rw [ascii_rep_lines]
  have e : ("hi".toList.length + 1) / 4 + (if ("hi".toList.length + 1) % 4 > 0 then 1 else 0)
      = 1 := by decide
  have c3 : ascii_cell ind "hi".toList 0 3 = ind.byte 0 3 := rfl
  have c2 : ascii_cell ind "hi".toList 0 2 = Char.ofNat 0 := rfl
  have c1 : ascii_cell ind "hi".toList 0 1 = 'i' := rfl
  have c0 : ascii_cell ind "hi".toList 0 0 = 'h' := rfl
  have e1 : List.range 1 = [0] := by decide
  have r : binary_numeral 8 (Char.ofNat 0).toNat ++ binary_numeral 8 ('i').toNat
      ++ binary_numeral 8 ('h').toNat ++ ['\n'] = "000000000110100101101000\n".toList := by
    decide
  rw [e]
  simp only [e1, List.map_cons, List.map_nil, List.flatten_cons, List.flatten_nil,
    List.append_nil, List.nil_append, ascii_line, c3, c2, c1, c0, List.append_assoc]
  rw [← r]
  simp only [List.append_assoc]

/-! ## Array declarations in pass 2 -/

theorem word_rep_eq (v : Int) (Out : Str) :
    word_rep v Out = Out ++ (twos_complement 32 v ++ ['\n']) := by
  have h := mask_digits 32 (v % 2 ^ 32).toNat
  unfold word_rep twos_complement
  rw [← h]

theorem word_rep_times_eq (v : Int) : ∀ (n : Nat) (Out : Str),
    word_rep_times n v Out
      = Out ++ (List.replicate n (twos_complement 32 v ++ ['\n'])).flatten := by
  intro n
  induction n with
  | zero => intro Out; simp [word_rep_times]
  | succ n ih =>
    intro Out
    simp only [word_rep_times, ih, word_rep_eq, List.replicate_succ, List.flatten_cons,
      List.append_assoc]

/-- The conversion `%d` reads a decimal numeral after a blank. -/
theorem scan_d_int_text (i : Int) : scan_d (' ' :: int_text i) = some (wrap32 i) := by
  have hsp : isspace ' ' = true := by decide
  unfold scan_d
  rw [List.dropWhile_cons_of_pos hsp]
  unfold int_text
  obtain ⟨c, cs, hcs⟩ := List.exists_cons_of_ne_nil (nat_text_ne_nil i.natAbs)
  have hd : isdigit c = true := nat_text_digits i.natAbs c (by rw [hcs]; simp)
  have hns := isdigit_not_space c hd
  have hsg := isdigit_not_sign c hd
  have hval := digits_value_nat_text i.natAbs
  by_cases hneg : i < 0
  · rw [if_pos hneg, List.dropWhile_cons_of_neg (by decide), hcs]
    simp only [hd, if_true]
    rw [← hcs, hval]
    congr 2
    omega
  · rw [if_neg hneg, hcs, List.dropWhile_cons_of_neg (by simp [hns])]
    split
    · rename_i h; simp only [List.cons.injEq] at h; exact absurd h.1 hsg.1
    · rename_i h; simp only [List.cons.injEq] at h; exact absurd h.1 hsg.2
    · rename_i c1 cs1 _ _ h
      simp only [List.cons.injEq] at h
      obtain ⟨rfl, rfl⟩ := h
      simp only [hd, if_true]
      rw [← hcs, hval]
      congr 2
      omega
    · rename_i h; simp at h

theorem sscanf_word_value (v : Int) :
    sscanf_s_d ('.' :: ("word ".toList ++ int_text v)) = some (wrap32 v) := by
  have e : scan_skip_s ('.' :: ("word ".toList ++ int_text v)) = some (' ' :: int_text v) := by
    unfold scan_skip_s
    have h1 : List.dropWhile isspace ('.' :: ("word ".toList ++ int_text v))
        = '.' :: ("word ".toList ++ int_text v) := by
      rw [List.dropWhile_cons_of_neg (by decide)]
    rw [h1]
    have h2 : "word ".toList ++ int_text v = 'w' :: 'o' :: 'r' :: 'd' :: ' ' :: int_text v := rfl
    simp only [h2]
    rw [List.dropWhile_cons_of_pos (by decide), List.dropWhile_cons_of_pos (by decide),
      List.dropWhile_cons_of_pos (by decide), List.dropWhile_cons_of_pos (by decide),
      List.dropWhile_cons_of_pos (by decide), List.dropWhile_cons_of_neg (by decide)]
  unfold sscanf_s_d
  rw [e]
  exact scan_d_int_text v

/-- Pass 2 on the label of an array declaration in the data segment. -/
theorem process_token_array_pass2 (ind : Indeterminate) (name : Str) (v c : Int) (st : State)
    (hn : is_operand line_delim name = true) (hd : st.data_reached = true)
    (hv : -2 ^ 31 ≤ v ∧ v < 2 ^ 31) (hc : -2 ^ 31 ≤ c ∧ c < 2 ^ 31) :
    process_token ind 2 (name ++ [':'])
        (render [(([] : Str), ".word".toList, ' '),
          ([], int_text v ++ ':' :: int_text c, '\n')] []) st
      = .ok (render [(([] : Str), ".word".toList, ' '),
              ([], int_text v ++ ':' :: int_text c, '\n')] [],
          { st with Out := st.Out
              ++ (List.replicate c.toNat (twos_complement 32 v ++ ['\n'])).flatten }) := by
  have hf := label_facts name hn
  have pv := numeral_plain v
  have e : render [(([] : Str), ".word".toList, ' '),
      ([], int_text v ++ ':' :: int_text c, '\n')] []
      = ('.' :: ("word ".toList ++ int_text v)) ++ ':' :: (int_text c ++ ['\n']) := by
    simp [render]
  have hword : (strstr (('.' :: ("word ".toList ++ int_text v)) ++ ':' :: (int_text c ++ ['\n']))
      ".word".toList).isSome = true := by
    have e1 : ('.' :: ("word ".toList ++ int_text v)) ++ ':' :: (int_text c ++ ['\n'])
        = ('.' :: "word".toList) ++ (' ' :: (int_text v ++ ':' :: (int_text c ++ ['\n']))) := by
      simp
    have e2 : ".word".toList = '.' :: "word".toList := rfl
    rw [e1, e2, strstr_prefix]
    rfl
  have hcolon : (strstr (('.' :: ("word ".toList ++ int_text v)) ++ ':' :: (int_text c ++ ['\n']))
      [':']).isSome = true := strstr_char_of_mem ':' _ (by simp)
  have hpt : parse_token
      (('.' :: ("word ".toList ++ int_text v)) ++ ':' :: (int_text c ++ ['\n'])) [':']
      = some ('.' :: ("word ".toList ++ int_text v), int_text c ++ ['\n']) := by
    have := parse_token_plain [] ('.' :: ("word ".toList ++ int_text v)) ':'
      (int_text c ++ ['\n']) [':'] rfl (by simp)
      (none_in_of_forall _ _ (by
        intro x hx
        simp only [List.mem_cons, List.mem_append] at hx
        simp only [List.mem_singleton]
        rcases hx with hx | hx | hx
        · subst hx; decide
        · intro hxc; subst hxc; revert hx; decide
        · intro hxc; subst hxc; exact pv.2.2.2.1 hx)) (by simp)
    simpa using this
  have hatoi : atoi (int_text c ++ ['\n']) = c := by
    rw [atoi_int_text_stop c '\n' [] (by decide), wrap32_id c hc]
  have hval : sscanf_s_d ('.' :: ("word ".toList ++ int_text v)) = some v := by
    rw [sscanf_word_value, wrap32_id v hv]
  have hdf : ¬ st.data_reached = false := by simp [hd]
  unfold process_token
  simp only [account_idle _ st hf.2.1]
  rw [if_pos trivial, if_neg hdf]
  unfold pass2_data
  rw [e]
  simp only [hword, hcolon, hpt, hatoi, hval, if_true, Option.getD_some, word_rep_times_eq]
  rfl

theorem array_declaration_general (ind : Indeterminate) (name : Str) (v c : Int) (st : State)
    (hd : st.data_reached = true) (hn : is_operand line_delim name = true)
    (hl : name.length ≤ 200) (hv : -2 ^ 31 ≤ v ∧ v < 2 ^ 31) (hc : 0 ≤ c ∧ c < 2 ^ 31) :
    parse_line ind 2
        (name ++ ": .word ".toList ++ int_text v ++ ":".toList ++ int_text c ++ "\n".toList) st
      = .ok { st with
          Out := st.Out ++ (List.replicate c.toNat (twos_complement 32 v ++ ['\n'])).flatten,
          line_num := st.line_num + 1 } := by
  have hvl := int_text_length v hv
  have hcl := int_text_length c ⟨by omega, by omega⟩
  have e1 : ": .word ".toList.length = 8 := by decide
  have e2 : "\n".toList.length = 1 := by decide
  have e3 : ":".toList.length = 1 := by decide
  have hw := array_line_cut name v c hn
  have hw2 := well_cut_tail _ _ _ hw
  have hw3 := well_cut_tail _ _ _ hw2
  have hf := array_token_facts v c
  have hlen : (render (array_line name (int_text v) (int_text c)) []).length < 256 := by
    rw [array_line_text]
    simp only [List.length_append]
    omega
  have h2 : process_token ind 2 ".word".toList
      (render [(([] : Str), int_text v ++ ':' :: int_text c, '\n')] [])
      { st with Out := st.Out
          ++ (List.replicate c.toNat (twos_complement 32 v ++ ['\n'])).flatten }
      = .ok (render [(([] : Str), int_text v ++ ':' :: int_text c, '\n')] [],
        { st with Out := st.Out
            ++ (List.replicate c.toNat (twos_complement 32 v ++ ['\n'])).flatten }) :=
    process_token_quiet ind 2 _ _ _ (by decide) hf.2.2 (Or.inr ⟨rfl, hd⟩)
  rw [← array_line_text]
  unfold parse_line
  rw [if_neg (by simp only [MAX_LINE_LENGTH]; omega)]
  unfold array_line at hw ⊢
  rw [token_loop_round ind 2 _ _ _ _ _ _ _ _ _ hw (by omega)
      (process_token_array_pass2 ind name v c st hn hd hv ⟨by omega, hc.2⟩),
    token_loop_round ind 2 _ _ _ _ _ _ _ _ _ hw2 (by omega) h2,
    token_loop_quiet ind 2 _ [] _
      { st with Out := st.Out
          ++ (List.replicate c.toNat (twos_complement 32 v ++ ['\n'])).flatten } hw3
      (by simp [hf.2.1]) rfl hf.2.2 (Or.inr ⟨rfl, hd⟩) (by omega)]

/-- C21: in pass 2 in the data segment the line `name: .word v:c`, with `v` a
32 bit value and `c` a count from 0 on, appends exactly `c` lines to the output,
each the 32 digit two's complement rendering of `v` and a newline, and nothing
when `c` is 0; nothing else of the state changes but the line number. -/
theorem array_declaration (ind : Indeterminate) (name : Str) (v c : Int) (st : State)
    (hd : st.data_reached = true) (hn : is_operand line_delim name = true)
    (hl : name.length ≤ 200) (hv : -2 ^ 31 ≤ v ∧ v < 2 ^ 31) (hc : 0 ≤ c ∧ c < 2 ^ 31) :
    parse_line ind 2
        (name ++ ": .word ".toList ++ int_text v ++ ":".toList ++ int_text c ++ "\n".toList) st
      = .ok { st with
          Out := st.Out ++ (List.replicate c.toNat (twos_complement 32 v ++ ['\n'])).flatten,
          line_num := st.line_num + 1 }
    ∧ (List.replicate c.toNat (twos_complement 32 v ++ ['\n'])).length = c.toNat
    ∧ (twos_complement 32 v).length = 32
    ∧ (c = 0 → (List.replicate c.toNat (twos_complement 32 v ++ ['\n'])).flatten = []) := by
  refine ⟨array_declaration_general ind name v c st hd hn hl hv hc, by simp, ?_, ?_⟩
  · unfold twos_complement; exact binary_numeral_length _ _
  · intro h0; rw [h0]; rfl

set_option maxRecDepth 20000 in
theorem array_declaration_witness :
    (account ".data".toList start_state).data_reached = true
    ∧ parse_line sample_ind 2
        ("arr".toList ++ ": .word ".toList ++ int_text 5 ++ ":".toList ++ int_text 2
          ++ "\n".toList) (account ".data".toList start_state)
      = .ok { account ".data".toList start_state with
          Out := (account ".data".toList start_state).Out
            ++ (List.replicate (2 : Int).toNat (twos_complement 32 5 ++ ['\n'])).flatten,
          line_num := (account ".data".toList start_state).line_num + 1 }
    ∧ (List.replicate (2 : Int).toNat (twos_complement 32 5 ++ ['\n'])).flatten
        = ("00000000000000000000000000000101\n".toList
            ++ "00000000000000000000000000000101\n".toList) :=
  ⟨by decide,
    (array_declaration sample_ind "arr".toList 5 2 (account ".data".toList start_state)
      (by decide) (by decide) (by decide) (by decide) (by decide)).1,
    by decide⟩

/-! ## The label of a jump -/

theorem encode_jump_bound (ind : Indeterminate) (token tok_ptr : Str) (t : hash_table_t)
    (Out : Str) (A : Int) (h : hash_find t (key_bytes (jump_label tok_ptr)) = some A) :
    encode_jump ind token tok_ptr t Out
      = (jtype_instruction ind token A Out).map (fun o => (jump_label tok_ptr, o)) := by
  unfold encode_jump
  rw [h]

theorem jump_label_comment (tok_ptr : Str) (h : '#' ∈ tok_ptr) :
    jump_label tok_ptr = tok_ptr.takeWhile (fun c => c ≠ ' ') := by
  have hs : (strchr tok_ptr '#').isSome = true := by
    unfold strchr
    have : ∀ s : Str, '#' ∈ s → (strpbrk s ['#']).isSome = true := by
      intro s
      induction s with
      | nil => intro h; simp at h
      | cons x xs ih =>
        intro h
        simp only [strpbrk]
        split
        · rfl
        · rename_i hx
          simp only [List.mem_cons] at h
          rcases h with h | h
          · exfalso; apply hx; subst h; simp
          · exact ih h
    exact this tok_ptr h
  unfold jump_label
  cases hc : strchr tok_ptr '#' with
  | none => rw [hc] at hs; simp at hs
  | some r => rfl

theorem jump_label_plain (tok_ptr : Str) (h : '#' ∉ tok_ptr) :
    jump_label tok_ptr = tok_ptr.dropLast := by
  have hn : strchr tok_ptr '#' = none := by
    unfold strchr
    exact strpbrk_no_delim tok_ptr ['#'] (none_in_of_forall _ _ (by
      intro c hc
      simp only [List.mem_singleton]
      intro hx; subst hx; exact h hc))
  unfold jump_label
  rw [hn]

set_option maxRecDepth 20000 in
/-- C31, the code at a jump whose label is followed by blanks or by the end of
the file: the key looked up is the rest of the line, cut at its first blank only
when the line holds a `#`, and otherwise only shortened by its last character.
For `j loop # back` and `j loop` with a newline the key is `loop`; for `j loop`
with three blanks before the newline it is `loop` and the three blanks, and for
a last line `j loop` without a newline it is `loo`.  With `loop` bound in the
table both lookups fail and the run ends in the dereference of NULL. -/
theorem jump_label_untrimmed (ind : Indeterminate) :
    (∀ (token tok_ptr : Str) (t : hash_table_t) (Out : Str) (A : Int),
      hash_find t (key_bytes (jump_label tok_ptr)) = some A →
      encode_jump ind token tok_ptr t Out
        = (jtype_instruction ind token A Out).map (fun o => (jump_label tok_ptr, o)))
    ∧ (∀ tok_ptr : Str, '#' ∈ tok_ptr →
        jump_label tok_ptr = tok_ptr.takeWhile (fun c => c ≠ ' '))
    ∧ (∀ tok_ptr : Str, '#' ∉ tok_ptr → jump_label tok_ptr = tok_ptr.dropLast)
    ∧ parse_token "j loop # back\n".toList line_delim
        = some ("j".toList, "loop # back\n".toList)
    ∧ jump_label "loop # back\n".toList = "loop".toList
    ∧ jump_label "loop\n".toList = "loop".toList
    ∧ parse_token "j loop   \n".toList line_delim = some ("j".toList, "loop   \n".toList)
    ∧ jump_label "loop   \n".toList = "loop   ".toList
    ∧ parse_token "j loop".toList line_delim = some ("j".toList, "loop".toList)
    ∧ jump_label "loop".toList = "loo".toList
    ∧ hash_find (table_with "loop".toList 8) (key_bytes "loop".toList) = some 8
    ∧ parse_line ind 2 "j loop   \n".toList
        { start_state with hash_table := table_with "loop".toList 8 } = .error .null_deref
    ∧ parse_line ind 2 "j loop".toList
        { start_state with hash_table := table_with "loop".toList 8 } = .error .null_deref :=
  ⟨encode_jump_bound ind, jump_label_comment, jump_label_plain, by decide, by decide,
    by decide, by decide, by decide, by decide, by decide, by decide, rfl, rfl⟩

/-! ## Comments -/

/-- A token that starts with `#` ends the token loop: nothing after it is read
as a token, in any pass. -/
theorem token_loop_comment (ind : Indeterminate) (pass : Int) (fuel : Nat) (s tok rest : Str)
    (st : State) (hp : parse_token s line_delim = some (tok, rest))
    (hh : tok.head? = some '#') :
    token_loop ind pass (fuel + 1) s st = .ok { st with line_num := st.line_num + 1 } := by
  simp only [token_loop, hp, hh, if_true]

theorem replicate_getD_nil (n i : Nat) :
    (List.replicate n ([] : List hash_entry_t)).getD i [] = [] := by
  induction n generalizing i with
  | zero => simp
  | succ n ih =>
    cases i with
    | zero => simp [List.replicate_succ]
    | succ i => simp [List.replicate_succ, ih]

/-- No key is bound in a table that was just created. -/
theorem hash_find_create (n : Nat) (key : List Nat) :
    hash_find (create_hash_table n) key = none := by
  unfold hash_find create_hash_table
  simp only [replicate_getD_nil]
  rfl

set_option maxRecDepth 20000 in
/-- C32, the code at a comment that holds the text `.word`: a token that starts
with `#` ends the token loop, but the test `strstr(tok_ptr, ".word")` of pass 1
searches the whole rest of the line, comment included.  Pass 1 on
`add $t0, $t1, $t2 # .word` ends with the counter at 20 and with `ad` bound to 8
and `t` bound to 12; on the same line cut before its `#`, and on the line with
the comment `# add`, it ends with the counter at 4 and an empty table. -/
theorem comment_text_declares (ind : Indeterminate) :
    (∀ (pass : Int) (fuel : Nat) (s tok rest : Str) (st : State),
      parse_token s line_delim = some (tok, rest) → tok.head? = some '#' →
      token_loop ind pass (fuel + 1) s st = .ok { st with line_num := st.line_num + 1 })
    ∧ (∃ s : State,
        parse_line ind 1 "add $t0, $t1, $t2 # .word\n".toList start_state = .ok s
        ∧ s.instruction_count = 20
        ∧ hash_find s.hash_table (key_bytes "ad".toList) = some 8
        ∧ hash_find s.hash_table (key_bytes "t".toList) = some 12)
    ∧ parse_line ind 1 "add $t0, $t1, $t2 ".toList start_state
        = .ok { start_state with instruction_count := 4, line_num := 2 }
    ∧ parse_line ind 1 "add $t0, $t1, $t2 # add\n".toList start_state
        = .ok { start_state with instruction_count := 4, line_num := 2 }
    ∧ (∀ key : List Nat, hash_find start_state.hash_table key = none) := by
  refine ⟨token_loop_comment ind, ⟨_, rfl, by decide, by decide, by decide⟩, rfl, rfl, ?_⟩
  intro key
  exact hash_find_create 127 key

/-! ## Addresses and output lines -/

theorem isPrefixOf_append_right : ∀ (n a b : Str), n.isPrefixOf a = true →
    n.isPrefixOf (a ++ b) = true := by
  intro n
  induction n with
  | nil => intro a b _; simp [List.isPrefixOf]
  | cons x xs ih =>
    intro a b h
    cases a with
    | nil => simp [List.isPrefixOf] at h
    | cons y ys =>
      simp only [List.isPrefixOf, List.cons_append, Bool.and_eq_true] at h ⊢
      exact ⟨h.1, ih ys b h.2⟩

theorem strstr_none_left (n : Str) (hn : n ≠ []) : ∀ a b : Str, strstr (a ++ b) n = none →
    strstr a n = none := by
  intro a
  induction a with
  | nil => intro b _; simp [strstr, hn]
  | cons c cs ih =>
    intro b h
    simp only [List.cons_append, strstr] at h ⊢
    split at h
    · simp at h
    · rename_i hp
      have hq : ¬ (n.isPrefixOf (c :: cs) = true) := fun hc =>
        hp (isPrefixOf_append_right n (c :: cs) b hc)
      rw [if_neg hq]
      exact ih b h

theorem idle_rest_more : ∀ (g : Nat) (s : Str), idle_rest g s = true →
    idle_rest (g + 1) s = true := by
  intro g
  induction g with
  | zero => intro s h; simp [idle_rest] at h
  | succ g ih =>
    intro s h
    rw [idle_rest] at h ⊢
    cases hp : parse_token s line_delim with
    | none => rfl
    | some pr =>
      obtain ⟨tok, rest⟩ := pr
      rw [hp] at h
      simp only [Bool.or_eq_true, decide_eq_true_eq, Bool.and_eq_true] at h ⊢
      rcases h with h | h
      · exact Or.inl h
      · exact Or.inr ⟨h.1, ih rest h.2⟩

end MipsAssembler
